import Mathlib

/-
Verification of the Term/Tensor canonicalization and simplification core of
the drudge symbolic tensor-algebra engine.  The core module itself ships
outside this source snapshot (only its tests and the nuclear utility layer are
present), so the data model and the operations below are modelled from the
specification, cross-checked against the behaviour asserted by the tests in
tests/term_test.py and tests/free_algebra_test.py.
-/

namespace Drudge

/-- Three-way comparison on integers, used as the base of all structural keys. -/
def icmp (a b : Int) : Ordering :=
  if a < b then .lt else if b < a then .gt else .eq

theorem icmp_self (a : Int) : icmp a a = .eq := by
  simp [icmp]

theorem icmp_lt_iff {a b : Int} : icmp a b = .lt ↔ a < b := by
  unfold icmp
  rcases lt_trichotomy a b with h | h | h
  · simp [h]
  · subst h; simp
  · simp [h, not_lt.mpr (le_of_lt h)]

theorem icmp_gt_iff {a b : Int} : icmp a b = .gt ↔ b < a := by
  unfold icmp
  rcases lt_trichotomy a b with h | h | h
  · simp [h]; omega
  · subst h; simp
  · simp [h, not_lt.mpr (le_of_lt h)]

theorem icmp_eq_iff {a b : Int} : icmp a b = .eq ↔ a = b := by
  unfold icmp
  rcases lt_trichotomy a b with h | h | h
  · simp [h]; omega
  · subst h; simp
  · simp [h, not_lt.mpr (le_of_lt h)]; omega

/-- Structural key trees: an injective, linearly ordered encoding target for
all term components.  The fixed total order required by the spec for
canonical tie-breaking is realized on this type. -/
inductive K where
  | nil : K
  | leaf : Int → K
  | node : K → K → K
deriving DecidableEq, Repr

/-- Sequencing of comparisons: the second one decides only on a tie. -/
def oseq : Ordering → Ordering → Ordering
  | .eq, o => o
  | o, _ => o

@[simp] theorem oseq_lt (o : Ordering) : oseq .lt o = .lt := rfl

@[simp] theorem oseq_eq (o : Ordering) : oseq .eq o = o := rfl

@[simp] theorem oseq_gt (o : Ordering) : oseq .gt o = .gt := rfl

/-- The fixed total (lexicographic) comparison on key trees. -/
def kcmp : K → K → Ordering
  | .nil, .nil => .eq
  | .nil, .leaf _ => .lt
  | .nil, .node _ _ => .lt
  | .leaf _, .nil => .gt
  | .leaf a, .leaf b => icmp a b
  | .leaf _, .node _ _ => .lt
  | .node _ _, .nil => .gt
  | .node _ _, .leaf _ => .gt
  | .node a b, .node c d => oseq (kcmp a c) (kcmp b d)

theorem kcmp_self (x : K) : kcmp x x = .eq := by
  induction x with
  | nil => rfl
  | leaf a => simp [kcmp, icmp_self]
  | node a b iha ihb => simp [kcmp, iha, ihb]

theorem kcmp_eq_iff {x y : K} : kcmp x y = .eq ↔ x = y := by
  induction x generalizing y with
  | nil => cases y <;> simp [kcmp]
  | leaf a => cases y <;> simp [kcmp, icmp_eq_iff]
  | node a b iha ihb =>
    cases y with
    | nil => simp [kcmp]
    | leaf c => simp [kcmp]
    | node c d =>
      simp only [kcmp]
      rcases h : kcmp a c with _ | _ | _
      · have : ¬ a = c := fun hc => by rw [hc, kcmp_self] at h; cases h
        simp [this]
      · have hac : a = c := iha.mp h
        subst hac
        simp [ihb]
      · have : ¬ a = c := fun hc => by rw [hc, kcmp_self] at h; cases h
        simp [this]

theorem kcmp_node_eq_of {a b c d : K} (h1 : kcmp a c = .eq) :
    kcmp (K.node a b) (K.node c d) = kcmp b d := by
  simp [kcmp, h1]

theorem kcmp_swap (x y : K) : kcmp y x = (kcmp x y).swap := by
  induction x generalizing y with
  | nil => cases y <;> simp [kcmp, Ordering.swap]
  | leaf a =>
    cases y with
    | nil => simp [kcmp, Ordering.swap]
    | leaf b =>
      simp only [kcmp]
      unfold icmp
      rcases lt_trichotomy a b with h | h | h
      · simp [h, not_lt.mpr (le_of_lt h), Ordering.swap]
      · subst h; simp [Ordering.swap]
      · simp [h, not_lt.mpr (le_of_lt h), Ordering.swap]
    | node c d => simp [kcmp, Ordering.swap]
  | node a b iha ihb =>
    cases y with
    | nil => simp [kcmp, Ordering.swap]
    | leaf c => simp [kcmp, Ordering.swap]
    | node c d =>
      simp only [kcmp]
      rw [iha c, ihb d]
      rcases kcmp a c with _ | _ | _ <;> simp [Ordering.swap]

theorem kcmp_lt_trans {x y z : K} (h1 : kcmp x y = .lt) (h2 : kcmp y z = .lt) :
    kcmp x z = .lt := by
  induction x generalizing y z with
  | nil =>
    cases z with
    | nil => cases y <;> simp_all [kcmp]
    | leaf c => rfl
    | node c d => rfl
  | leaf a =>
    cases y with
    | nil => simp [kcmp] at h1
    | leaf b =>
      cases z with
      | nil => simp [kcmp] at h2
      | leaf c =>
        simp only [kcmp, icmp_lt_iff] at h1 h2 ⊢
        omega
      | node c d => rfl
    | node c d =>
      cases z with
      | nil => simp [kcmp] at h2
      | leaf e => simp [kcmp] at h2
      | node e f => rfl
  | node a b iha ihb =>
    cases y with
    | nil => simp [kcmp] at h1
    | leaf c => simp [kcmp] at h1
    | node c d =>
      cases z with
      | nil => simp [kcmp] at h2
      | leaf e => simp [kcmp] at h2
      | node e f =>
        simp only [kcmp] at h1 h2 ⊢
        rcases hac : kcmp a c with _ | _ | _ <;> rw [hac] at h1 <;>
            simp only [oseq_lt, oseq_eq, oseq_gt] at h1
        · rcases hce : kcmp c e with _ | _ | _ <;> rw [hce] at h2 <;>
              simp only [oseq_lt, oseq_eq, oseq_gt] at h2
          · rw [iha hac hce, oseq_lt]
          · have : c = e := kcmp_eq_iff.mp hce
            subst this
            rw [hac, oseq_lt]
          · exact absurd h2 (by simp)
        · have : a = c := kcmp_eq_iff.mp hac
          subst this
          rcases hae : kcmp a e with _ | _ | _ <;> rw [hae] at h2 <;>
              simp only [oseq_lt, oseq_eq, oseq_gt] at h2
          · simp
          · simp only [oseq_eq]
            exact ihb h1 h2
          · exact absurd h2 (by simp)
        · exact absurd h1 (by simp)

theorem kcmp_le_trans {x y z : K} (h1 : kcmp x y ≠ .gt) (h2 : kcmp y z ≠ .gt) :
    kcmp x z ≠ .gt := by
  rcases h1' : kcmp x y with _ | _ | _
  · rcases h2' : kcmp y z with _ | _ | _
    · simp [kcmp_lt_trans h1' h2']
    · have : y = z := kcmp_eq_iff.mp h2'
      subst this
      simp [h1']
    · exact absurd h2' h2
  · have : x = y := kcmp_eq_iff.mp h1'
    subst this
    exact h2
  · exact absurd h1' h1

theorem kcmp_le_antisymm {x y : K} (h1 : kcmp x y ≠ .gt) (h2 : kcmp y x ≠ .gt) :
    x = y := by
  rw [kcmp_swap x y] at h2
  rcases h : kcmp x y with _ | _ | _
  · rw [h] at h2; simp [Ordering.swap] at h2
  · exact kcmp_eq_iff.mp h
  · exact absurd h h1

theorem kcmp_ne_gt_total (x y : K) : kcmp x y ≠ .gt ∨ kcmp y x ≠ .gt := by
  rw [kcmp_swap x y]
  rcases kcmp x y with _ | _ | _ <;> simp [Ordering.swap]

/-- Selection of the key-minimal element of a nonempty list, realizing the
deterministic tie-break required by the canonicalization algorithm. -/
def pickMin {α : Type} (key : α → K) (a : α) (l : List α) : α :=
  l.foldl (fun acc x => if kcmp (key x) (key acc) = .lt then x else acc) a

theorem pickMin_mem {α : Type} (key : α → K) (a : α) (l : List α) :
    pickMin key a l = a ∨ pickMin key a l ∈ l := by
  induction l generalizing a with
  | nil => exact Or.inl rfl
  | cons x xs ih =>
    simp only [pickMin, List.foldl_cons]
    by_cases h : kcmp (key x) (key a) = .lt
    · simp only [h, if_pos]
      rcases ih x with h' | h'
      · exact Or.inr (by simp [pickMin] at h'; simp [h'])
      · exact Or.inr (List.mem_cons_of_mem _ h')
    · simp only [h, if_neg]
      rcases ih a with h' | h'
      · exact Or.inl (by simpa [pickMin] using h')
      · exact Or.inr (List.mem_cons_of_mem _ h')

theorem pickMin_le {α : Type} (key : α → K) (a : α) (l : List α) :
    kcmp (key (pickMin key a l)) (key a) ≠ .gt ∧
      ∀ b ∈ l, kcmp (key (pickMin key a l)) (key b) ≠ .gt := by
  induction l generalizing a with
  | nil =>
    refine ⟨?_, by simp⟩
    simp [pickMin, kcmp_self]
  | cons x xs ih =>
    simp only [pickMin, List.foldl_cons]
    by_cases h : kcmp (key x) (key a) = .lt
    · simp only [h, if_pos]
      have ihx := ih x
      constructor
      · exact kcmp_le_trans ihx.1 (by simp [h])
      · intro b hb
        rcases List.mem_cons.mp hb with rfl | hb'
        · exact ihx.1
        · exact ihx.2 _ hb'
    · simp only [h, if_neg]
      have iha := ih a
      constructor
      · exact iha.1
      · intro b hb
        rcases List.mem_cons.mp hb with rfl | hb'
        · have hax : kcmp (key a) (key b) ≠ .gt := by
            rw [kcmp_swap (key b) (key a)]
            rcases hc : kcmp (key b) (key a) with _ | _ | _
            · exact absurd hc h
            · simp [Ordering.swap]
            · simp [Ordering.swap]
          exact kcmp_le_trans iha.1 hax
        · exact iha.2 _ hb'

/-- The minimum of a nonempty list is determined by its set of elements
whenever the key is injective: membership-equivalent lists share it. -/
theorem pickMin_congr {α : Type} (key : α → K)
    (hinj : ∀ u v : α, key u = key v → u = v)
    (a : α) (l : List α) (b : α) (m : List α)
    (hmem : ∀ x, (x = a ∨ x ∈ l) ↔ (x = b ∨ x ∈ m)) :
    pickMin key a l = pickMin key b m := by
  have h1 := pickMin_le key a l
  have h2 := pickMin_le key b m
  have m1 : pickMin key a l = b ∨ pickMin key a l ∈ m :=
    (hmem _).mp (pickMin_mem key a l)
  have m2 : pickMin key b m = a ∨ pickMin key b m ∈ l :=
    (hmem _).mpr (pickMin_mem key b m)
  have le12 : kcmp (key (pickMin key a l)) (key (pickMin key b m)) ≠ .gt := by
    rcases m2 with h | h
    · rw [h]; exact h1.1
    · exact h1.2 _ h
  have le21 : kcmp (key (pickMin key b m)) (key (pickMin key a l)) ≠ .gt := by
    rcases m1 with h | h
    · rw [h]; exact h2.1
    · exact h2.2 _ h
  exact hinj _ _ (kcmp_le_antisymm le12 le21)

/-- Symbols (dummy and free variables) are identified by natural numbers. -/
abbrev Sym := Nat

/-- Modelled from the spec: the missing Range class of the core module.  A
named index domain with optional integer bounds; two ranges are equal iff
name and bounds match. -/
structure Range where
  name : Nat
  lo : Option Int
  hi : Option Int
deriving DecidableEq, Repr

/-- Modelled from the spec: an atomic factor of a scalar amplitude from the
missing term module — a possibly conjugated bare symbol, a possibly
conjugated indexed base applied to index symbols, or a Kronecker delta. -/
inductive Atom where
  | var : Sym → Bool → Atom
  | idx : Nat → Bool → List Sym → Atom
  | delta : Sym → Sym → Atom
deriving DecidableEq, Repr

/-- A monomial: a product of atomic factors. -/
abbrev Mono := List Atom

/-- Modelled from the spec: the opaque scalar-expression capability the core
delegates to, restricted to integer-linear combinations of monomials.  An
amplitude is a list of (coefficient, monomial) summands. -/
abbrev Amp := List (Int × Mono)

/-- Modelled from the spec: a non-commuting vector factor of the missing
vector model — a base identity applied to ordered argument indices. -/
structure VecF where
  base : Nat
  ix : List Sym
deriving DecidableEq, Repr

/-- Modelled from the spec: the missing Term class — summation bindings, a
scalar amplitude, and an ordered sequence of vector factors. -/
structure Term where
  sums : List (Sym × Range)
  amp : Amp
  vecs : List VecF
deriving DecidableEq, Repr

/-- Modelled from the spec: the missing Tensor class, reduced to its local
term collection — an ordered list standing for an unordered multiset. -/
abbrev Tensor := List Term

def natK (n : Nat) : K := .leaf (Int.ofNat n)

def boolK (b : Bool) : K := .leaf (if b then 1 else 0)

def optIntK : Option Int → K
  | none => .nil
  | some a => .leaf a

def listK {α : Type} (f : α → K) : List α → K
  | [] => .nil
  | x :: xs => .node (f x) (listK f xs)

def rangeK (r : Range) : K :=
  .node (natK r.name) (.node (optIntK r.lo) (optIntK r.hi))

def atomK : Atom → K
  | .var s c => .node (.leaf 0) (.node (natK s) (boolK c))
  | .idx b c ix => .node (.leaf 1) (.node (natK b) (.node (boolK c) (listK natK ix)))
  | .delta a b => .node (.leaf 2) (.node (natK a) (natK b))

def monoK : Mono → K := listK atomK

def pairK (p : Int × Mono) : K := .node (monoK p.2) (.leaf p.1)

def ampK : Amp → K := listK pairK

def vecK (v : VecF) : K := .node (natK v.base) (listK natK v.ix)

def bindK (b : Sym × Range) : K := .node (natK b.1) (rangeK b.2)

/-- The structural key of a term: summations first, then vector factors, then
the amplitude — the concrete instance of the implementation-defined total
order the spec requires for canonical tie-breaking. -/
def termK (t : Term) : K :=
  .node (listK bindK t.sums) (.node (listK vecK t.vecs) (ampK t.amp))

theorem natK_inj {a b : Nat} (h : natK a = natK b) : a = b := by
  simpa [natK] using h

theorem boolK_inj {a b : Bool} (h : boolK a = boolK b) : a = b := by
  cases a <;> cases b <;> simp_all [boolK]

theorem optIntK_inj {a b : Option Int} (h : optIntK a = optIntK b) : a = b := by
  cases a <;> cases b <;> simp_all [optIntK]

theorem listK_inj {α : Type} (f : α → K) (hf : ∀ x y, f x = f y → x = y) :
    ∀ {l m : List α}, listK f l = listK f m → l = m := by
  intro l
  induction l with
  | nil => intro m h; cases m <;> simp_all [listK]
  | cons x xs ih =>
    intro m h
    cases m with
    | nil => simp [listK] at h
    | cons y ys =>
      simp only [listK, K.node.injEq] at h
      rw [hf _ _ h.1, ih h.2]

theorem rangeK_inj {a b : Range} (h : rangeK a = rangeK b) : a = b := by
  cases a; cases b
  simp only [rangeK, K.node.injEq] at h
  obtain ⟨h1, h2, h3⟩ := h
  simp_all [natK_inj h1, optIntK_inj h2, optIntK_inj h3]

theorem atomK_inj {a b : Atom} (h : atomK a = atomK b) : a = b := by
  cases a <;> cases b <;>
      simp only [atomK, K.node.injEq, K.leaf.injEq] at h
  case var.var =>
    obtain ⟨-, h1, h2⟩ := h
    rw [natK_inj h1, boolK_inj h2]
  case var.idx => exact absurd h.1 (by decide)
  case var.delta => exact absurd h.1 (by decide)
  case idx.var => exact absurd h.1 (by decide)
  case idx.idx =>
    obtain ⟨-, h1, h2, h3⟩ := h
    rw [natK_inj h1, boolK_inj h2, listK_inj natK (fun _ _ => natK_inj) h3]
  case idx.delta => exact absurd h.1 (by decide)
  case delta.var => exact absurd h.1 (by decide)
  case delta.idx => exact absurd h.1 (by decide)
  case delta.delta =>
    obtain ⟨-, h1, h2⟩ := h
    rw [natK_inj h1, natK_inj h2]

theorem monoK_inj {a b : Mono} (h : monoK a = monoK b) : a = b :=
  listK_inj atomK (fun _ _ => atomK_inj) h

theorem pairK_inj {a b : Int × Mono} (h : pairK a = pairK b) : a = b := by
  obtain ⟨c1, m1⟩ := a
  obtain ⟨c2, m2⟩ := b
  simp only [pairK, K.node.injEq, K.leaf.injEq] at h
  simp [monoK_inj h.1, h.2]

theorem ampK_inj {a b : Amp} (h : ampK a = ampK b) : a = b :=
  listK_inj pairK (fun _ _ => pairK_inj) h

theorem vecK_inj {a b : VecF} (h : vecK a = vecK b) : a = b := by
  cases a; cases b
  simp only [vecK, K.node.injEq] at h
  simp [natK_inj h.1, listK_inj natK (fun _ _ => natK_inj) h.2]

theorem bindK_inj {a b : Sym × Range} (h : bindK a = bindK b) : a = b := by
  obtain ⟨s1, r1⟩ := a
  obtain ⟨s2, r2⟩ := b
  simp only [bindK, K.node.injEq] at h
  simp [natK_inj h.1, rangeK_inj h.2]

theorem termK_inj (a b : Term) (h : termK a = termK b) : a = b := by
  cases a; cases b
  simp only [termK, K.node.injEq] at h
  obtain ⟨h1, h2, h3⟩ := h
  simp [listK_inj bindK (fun _ _ => bindK_inj) h1,
    listK_inj vecK (fun _ _ => vecK_inj) h2, ampK_inj h3]

/-- Concatenated image of a list under a list-valued function. -/
def catMap {α β : Type} (f : α → List β) : List α → List β
  | [] => []
  | x :: xs => f x ++ catMap f xs

theorem mem_catMap {α β : Type} (f : α → List β) {b : β} :
    ∀ {l : List α}, b ∈ catMap f l ↔ ∃ a ∈ l, b ∈ f a := by
  intro l
  induction l with
  | nil => simp [catMap]
  | cons x xs ih => simp [catMap, ih]

/-- Simultaneous application of a symbol substitution to an atomic factor;
base identities live in a separate namespace and are never renamed. -/
def atomMap (f : Sym → Sym) : Atom → Atom
  | .var s c => .var (f s) c
  | .idx b c ix => .idx b c (ix.map f)
  | .delta a b => .delta (f a) (f b)

def monoMap (f : Sym → Sym) : Mono → Mono := List.map (atomMap f)

def ampMap (f : Sym → Sym) : Amp → Amp :=
  List.map (fun p => (p.1, monoMap f p.2))

def vecMap (f : Sym → Sym) (v : VecF) : VecF := ⟨v.base, v.ix.map f⟩

def vecsMap (f : Sym → Sym) : List VecF → List VecF := List.map (vecMap f)

/-- The symbols occurring in an atomic factor. -/
def atomSyms : Atom → List Sym
  | .var s _ => [s]
  | .idx _ _ ix => ix
  | .delta a b => [a, b]

def monoSyms : Mono → List Sym := catMap atomSyms

def ampSyms : Amp → List Sym := catMap (fun p => monoSyms p.2)

def vecsSyms : List VecF → List Sym := catMap VecF.ix

theorem atomMap_comp (f g : Sym → Sym) (a : Atom) :
    atomMap g (atomMap f a) = atomMap (fun s => g (f s)) a := by
  cases a <;> simp [atomMap, List.map_map, Function.comp]

theorem monoMap_comp (f g : Sym → Sym) (m : Mono) :
    monoMap g (monoMap f m) = monoMap (fun s => g (f s)) m := by
  simp only [monoMap, List.map_map]
  exact List.map_congr_left (fun a _ => atomMap_comp f g a)

theorem ampMap_comp (f g : Sym → Sym) (A : Amp) :
    ampMap g (ampMap f A) = ampMap (fun s => g (f s)) A := by
  simp only [ampMap, List.map_map]
  exact List.map_congr_left (fun p _ => by simp [Function.comp, monoMap_comp])

theorem vecMap_comp (f g : Sym → Sym) (v : VecF) :
    vecMap g (vecMap f v) = vecMap (fun s => g (f s)) v := by
  simp [vecMap, List.map_map, Function.comp]

theorem vecsMap_comp (f g : Sym → Sym) (vs : List VecF) :
    vecsMap g (vecsMap f vs) = vecsMap (fun s => g (f s)) vs := by
  simp only [vecsMap, List.map_map]
  exact List.map_congr_left (fun v _ => vecMap_comp f g v)

theorem atomMap_congr {f g : Sym → Sym} {a : Atom}
    (h : ∀ s ∈ atomSyms a, f s = g s) : atomMap f a = atomMap g a := by
  cases a with
  | var s c => simp [atomMap, h s (by simp [atomSyms])]
  | idx b c ix =>
    simp only [atomMap, Atom.idx.injEq, true_and]
    exact List.map_congr_left (fun s hs => h s (by simpa [atomSyms] using hs))
  | delta a b =>
    simp [atomMap, h a (by simp [atomSyms]), h b (by simp [atomSyms])]

theorem monoMap_congr {f g : Sym → Sym} {m : Mono}
    (h : ∀ s ∈ monoSyms m, f s = g s) : monoMap f m = monoMap g m := by
  refine List.map_congr_left (fun a ha => atomMap_congr (fun s hs => h s ?_))
  exact (mem_catMap atomSyms).mpr ⟨a, ha, hs⟩

theorem ampMap_congr {f g : Sym → Sym} {A : Amp}
    (h : ∀ s ∈ ampSyms A, f s = g s) : ampMap f A = ampMap g A := by
  refine List.map_congr_left (fun p hp => ?_)
  have : ∀ s ∈ monoSyms p.2, f s = g s := by
    intro s hs
    exact h s ((mem_catMap _).mpr ⟨p, hp, hs⟩)
  simp [monoMap_congr this]

theorem vecMap_congr {f g : Sym → Sym} {v : VecF}
    (h : ∀ s ∈ v.ix, f s = g s) : vecMap f v = vecMap g v := by
  simp only [vecMap, VecF.mk.injEq, true_and]
  exact List.map_congr_left h

theorem vecsMap_congr {f g : Sym → Sym} {vs : List VecF}
    (h : ∀ s ∈ vecsSyms vs, f s = g s) : vecsMap f vs = vecsMap g vs := by
  refine List.map_congr_left (fun v hv => vecMap_congr (fun s hs => h s ?_))
  exact (mem_catMap _).mpr ⟨v, hv, hs⟩

theorem atomMap_id (a : Atom) : atomMap (fun s => s) a = a := by
  cases a <;> simp [atomMap]

theorem ampMap_id (A : Amp) : ampMap (fun s => s) A = A := by
  simp only [ampMap, monoMap]
  refine List.map_id'' (fun p => ?_) A
  rw [List.map_id'' atomMap_id]

theorem vecsMap_id (vs : List VecF) : vecsMap (fun s => s) vs = vs := by
  simp only [vecsMap]
  refine List.map_id'' (fun v => ?_) vs
  cases v
  simp [vecMap]

/-- Canonical orientation of a Kronecker delta (its arguments commute). -/
def normAtom : Atom → Atom
  | .delta a b => if a ≤ b then .delta a b else .delta b a
  | a => a

theorem normAtom_idem (a : Atom) : normAtom (normAtom a) = normAtom a := by
  cases a with
  | var s c => rfl
  | idx b c ix => rfl
  | delta x y =>
    by_cases h : x ≤ y
    · simp [normAtom, h]
    · simp only [normAtom, h, if_neg, if_false]
      have : y ≤ x := le_of_not_le h
      simp [this]

/-- Ordered insertion with respect to a key. -/
def insK {α : Type} (key : α → K) (x : α) : List α → List α
  | [] => [x]
  | y :: ys =>
    if kcmp (key x) (key y) = .gt then y :: insK key x ys else x :: y :: ys

/-- Insertion sort with respect to a key. -/
def sortK {α : Type} (key : α → K) (l : List α) : List α :=
  l.foldr (insK key) []

/-- Non-strict key order between two elements. -/
def KLe {α : Type} (key : α → K) (a b : α) : Prop := kcmp (key a) (key b) ≠ .gt

theorem mem_insK {α : Type} (key : α → K) (x : α) {y : α} :
    ∀ {l : List α}, y ∈ insK key x l ↔ y = x ∨ y ∈ l := by
  intro l
  induction l with
  | nil => simp [insK]
  | cons z zs ih =>
    simp only [insK]
    split
    · simp only [List.mem_cons, ih]
      tauto
    · simp only [List.mem_cons]

theorem mem_sortK {α : Type} (key : α → K) {y : α} :
    ∀ {l : List α}, y ∈ sortK key l ↔ y ∈ l := by
  intro l
  induction l with
  | nil => simp [sortK]
  | cons z zs ih =>
    show y ∈ insK key z (sortK key zs) ↔ _
    rw [mem_insK, ih]
    simp

/-- KLe is transitive. -/
instance kleTrans {α : Type} (key : α → K) : IsTrans α (KLe key) where
  trans _ _ _ h1 h2 := kcmp_le_trans h1 h2

theorem chain'_insK {α : Type} (key : α → K) (x : α) :
    ∀ {l : List α}, List.Chain' (KLe key) l →
      List.Chain' (KLe key) (insK key x l) := by
  intro l
  induction l with
  | nil => intro _; simp [insK]
  | cons z zs ih =>
    intro h
    simp only [insK]
    by_cases hc : kcmp (key x) (key z) = .gt
    · rw [if_pos hc]
      have hz : KLe key z x := by
        unfold KLe
        rw [kcmp_swap (key x) (key z), hc]
        simp [Ordering.swap]
      have htail := ih (List.Chain'.tail h)
      cases hzs : insK key x zs with
      | nil => simp
      | cons w ws =>
        rw [List.chain'_cons]
        constructor
        · have hw : w = x ∨ w ∈ zs := by
            have : w ∈ insK key x zs := by rw [hzs]; simp
            exact (mem_insK key x).mp this
          rcases hw with rfl | hw
          · exact hz
          · have hrel := List.chain'_iff_pairwise.mp h
            exact (List.pairwise_cons.mp hrel).1 w hw
        · rw [← hzs]
          exact htail
    · rw [if_neg hc]
      rw [List.chain'_cons]
      exact ⟨hc, h⟩

theorem chain'_sortK {α : Type} (key : α → K) :
    ∀ (l : List α), List.Chain' (KLe key) (sortK key l) := by
  intro l
  induction l with
  | nil => simp [sortK]
  | cons x xs ih => exact chain'_insK key x ih

theorem insK_of_le {α : Type} (key : α → K) (x : α) {l : List α}
    (h : ∀ y ∈ l, KLe key x y) : insK key x l = x :: l := by
  cases l with
  | nil => rfl
  | cons z zs =>
    have hz := h z (by simp)
    unfold insK
    rw [if_neg hz]

theorem sortK_of_chain' {α : Type} (key : α → K) :
    ∀ {l : List α}, List.Chain' (KLe key) l → sortK key l = l := by
  intro l
  induction l with
  | nil => intro _; rfl
  | cons x xs ih =>
    intro h
    show insK key x (sortK key xs) = x :: xs
    rw [ih (List.Chain'.tail h)]
    refine insK_of_le key x (fun y hy => ?_)
    have hrel := List.chain'_iff_pairwise.mp h
    exact (List.pairwise_cons.mp hrel).1 y hy

/-- Canonical form of a monomial: atoms normalized and sorted (scalar factors
commute). -/
def normMono (m : Mono) : Mono := sortK atomK (m.map normAtom)

theorem normMono_idem (m : Mono) : normMono (normMono m) = normMono m := by
  unfold normMono
  have h1 : (sortK atomK (m.map normAtom)).map normAtom
      = sortK atomK (m.map normAtom) := by
    have hfix : ∀ a ∈ sortK atomK (m.map normAtom), normAtom a = a := by
      intro a ha
      rw [mem_sortK] at ha
      obtain ⟨b, _, rfl⟩ := List.mem_map.mp ha
      exact normAtom_idem b
    rw [List.map_congr_left hfix]
    exact List.map_id _
  rw [h1, sortK_of_chain' atomK (chain'_sortK atomK _)]

/-- Strict mono-major order between amplitude summands. -/
def PLt (p q : Int × Mono) : Prop := kcmp (monoK p.2) (monoK q.2) = .lt

instance pltTrans : IsTrans (Int × Mono) PLt where
  trans _ _ _ h1 h2 := kcmp_lt_trans h1 h2

/-- Insertion of a summand into a mono-sorted amplitude, combining
coefficients of an equal monomial and dropping exact zeros. -/
def insAdd (c : Int) (m : Mono) : Amp → Amp
  | [] => if c = 0 then [] else [(c, m)]
  | (d, n) :: rest =>
    if kcmp (monoK m) (monoK n) = .lt then
      if c = 0 then (d, n) :: rest else (c, m) :: (d, n) :: rest
    else if kcmp (monoK m) (monoK n) = .eq then
      if c + d = 0 then rest else (c + d, n) :: rest
    else (d, n) :: insAdd c m rest

/-- Modelled from the spec: the normal form kept by the external
scalar-expression capability — monomials normalized and strictly sorted,
like monomials combined, zero summands dropped. -/
def normalize (A : Amp) : Amp :=
  A.foldr (fun p acc => insAdd p.1 (normMono p.2) acc) []

/-- The normal-form predicate for amplitudes. -/
def AmpNF (A : Amp) : Prop :=
  List.Chain' PLt A ∧ ∀ p ∈ A, p.1 ≠ 0 ∧ normMono p.2 = p.2

theorem insAdd_mono_mem (c : Int) (m : Mono) :
    ∀ {A : Amp} {p : Int × Mono}, p ∈ insAdd c m A →
      p.2 = m ∨ ∃ q ∈ A, p.2 = q.2 := by
  intro A
  induction A with
  | nil =>
    intro p hp
    simp only [insAdd] at hp
    split at hp
    · simp at hp
    · simp at hp
      left
      rw [hp]
  | cons q rest ih =>
    obtain ⟨d, n⟩ := q
    intro p hp
    simp only [insAdd] at hp
    split at hp
    · split at hp
      · rcases List.mem_cons.mp hp with rfl | hp'
        · exact Or.inr ⟨(d, n), by simp⟩
        · exact Or.inr ⟨p, by simp [hp']⟩
      · rcases List.mem_cons.mp hp with rfl | hp'
        · exact Or.inl rfl
        · rcases List.mem_cons.mp hp' with rfl | hp''
          · exact Or.inr ⟨(d, n), by simp⟩
          · exact Or.inr ⟨p, by simp [hp'']⟩
    · by_cases hk : kcmp (monoK m) (monoK n) = .eq
      · rw [if_pos hk] at hp
        by_cases hcd : c + d = 0
        · rw [if_pos hcd] at hp
          exact Or.inr ⟨p, by simp [hp]⟩
        · rw [if_neg hcd] at hp
          rcases List.mem_cons.mp hp with rfl | hp'
          · exact Or.inr ⟨(d, n), by simp⟩
          · exact Or.inr ⟨p, by simp [hp']⟩
      · rw [if_neg hk] at hp
        rcases List.mem_cons.mp hp with rfl | hp'
        · exact Or.inr ⟨(d, n), by simp⟩
        · rcases ih hp' with h | ⟨q, hq, h⟩
          · exact Or.inl h
          · exact Or.inr ⟨q, by simp [hq], h⟩

theorem insAdd_nonzero (c : Int) (m : Mono) :
    ∀ {A : Amp}, (∀ p ∈ A, p.1 ≠ 0) →
      ∀ {p : Int × Mono}, p ∈ insAdd c m A → p.1 ≠ 0 := by
  intro A
  induction A with
  | nil =>
    intro _ p hp
    simp only [insAdd] at hp
    split at hp <;> rename_i hc
    · simp at hp
    · simp only [List.mem_singleton] at hp
      rw [hp]
      exact hc
  | cons q rest ih =>
    obtain ⟨d, n⟩ := q
    intro hA p hp
    have hrest : ∀ p ∈ rest, p.1 ≠ 0 := fun p hp => hA p (by simp [hp])
    simp only [insAdd] at hp
    split at hp
    · split at hp <;> rename_i hc
      · exact hA p hp
      · rcases List.mem_cons.mp hp with rfl | hp'
        · exact hc
        · exact hA p hp'
    · by_cases hk : kcmp (monoK m) (monoK n) = .eq
      · rw [if_pos hk] at hp
        by_cases hcd : c + d = 0
        · rw [if_pos hcd] at hp
          exact hrest p hp
        · rw [if_neg hcd] at hp
          rcases List.mem_cons.mp hp with rfl | hp'
          · exact hcd
          · exact hrest p hp'
      · rw [if_neg hk] at hp
        rcases List.mem_cons.mp hp with rfl | hp'
        · exact hA _ (by simp)
        · exact ih hrest hp'

theorem chain'_insAdd (c : Int) (m : Mono) :
    ∀ {A : Amp}, List.Chain' PLt A → List.Chain' PLt (insAdd c m A) := by
  intro A
  induction A with
  | nil =>
    intro _
    simp only [insAdd]
    split <;> simp
  | cons q rest ih =>
    obtain ⟨d, n⟩ := q
    intro h
    simp only [insAdd]
    by_cases hk : kcmp (monoK m) (monoK n) = .lt
    · rw [if_pos hk]
      split
      · exact h
      · exact List.chain'_cons.mpr ⟨hk, h⟩
    · rw [if_neg hk]
      by_cases hk2 : kcmp (monoK m) (monoK n) = .eq
      · rw [if_pos hk2]
        split
        · exact List.Chain'.tail h
        · cases rest with
          | nil => simp
          | cons r rs =>
            have := List.chain'_cons.mp h
            exact List.chain'_cons.mpr ⟨this.1, this.2⟩
      · rw [if_neg hk2]
        have hk3 : kcmp (monoK m) (monoK n) = .gt := by
          rcases hx : kcmp (monoK m) (monoK n) with _ | _ | _
          · exact absurd hx hk
          · exact absurd hx hk2
          · rfl
        have hk := hk3
        have htail := ih (List.Chain'.tail h)
        rw [List.chain'_cons']
        refine ⟨?_, htail⟩
        intro w hw
        have hwmem : w ∈ insAdd c m rest := List.mem_of_mem_head? hw
        have hnm : kcmp (monoK n) (monoK m) = .lt := by
          rw [kcmp_swap, hk]
          rfl
        rcases insAdd_mono_mem c m hwmem with h2 | ⟨q, hq, h2⟩
        · show kcmp (monoK (d, n).2) (monoK w.2) = .lt
          rw [h2]
          exact hnm
        · have hrel := List.chain'_iff_pairwise.mp h
          have := (List.pairwise_cons.mp hrel).1 q hq
          show kcmp (monoK (d, n).2) (monoK w.2) = .lt
          rw [h2]
          exact this

/-- The tail of a normal amplitude is normal. -/
theorem ampNF_tail {p : Int × Mono} {rest : Amp} (h : AmpNF (p :: rest)) :
    AmpNF rest :=
  ⟨List.Chain'.tail h.1, fun q hq => h.2 q (by simp [hq])⟩

theorem normalize_NF (A : Amp) : AmpNF (normalize A) := by
  induction A with
  | nil => exact ⟨by simp [normalize], by simp [normalize]⟩
  | cons p rest ih =>
    show AmpNF (insAdd p.1 (normMono p.2) (normalize rest))
    refine ⟨chain'_insAdd _ _ ih.1, fun q hq => ?_⟩
    constructor
    · exact insAdd_nonzero _ _ (fun r hr => (ih.2 r hr).1) hq
    · rcases insAdd_mono_mem _ _ hq with h2 | ⟨r, hr, h2⟩
      · rw [h2]
        exact normMono_idem p.2
      · rw [h2]
        exact (ih.2 r hr).2

theorem normalize_of_NF : ∀ {A : Amp}, AmpNF A → normalize A = A := by
  intro A
  induction A with
  | nil => intro _; rfl
  | cons p rest ih =>
    intro h
    show insAdd p.1 (normMono p.2) (normalize rest) = p :: rest
    rw [(h.2 p (by simp)).2, ih (ampNF_tail h)]
    have hne : p.1 ≠ 0 := (h.2 p (by simp)).1
    cases rest with
    | nil =>
      simp only [insAdd]
      rw [if_neg hne]
    | cons q tl =>
      obtain ⟨d, n⟩ := q
      have hplt : kcmp (monoK p.2) (monoK n) = .lt := (List.chain'_cons.mp h.1).1
      simp only [insAdd]
      rw [if_pos hplt, if_neg hne]

/-- Modelled from the spec: a symmetry-group element of the missing group
module — a permutation given as a sequence of source positions, together with
the accompanied action: a NEG sign flip and/or a CONJ conjugation. -/
structure SymOp where
  perm : List Nat
  neg : Bool
  conj : Bool
deriving DecidableEq, Repr

/-- Application of a permutation to an index list: entry j of the result is
the input entry at the position the permutation names. -/
def permApply (p : List Nat) (ix : List Sym) : List Sym :=
  p.map (fun k => ix.getD k 0)

/-- The identity element for arity n. -/
def idOp (n : Nat) : SymOp := ⟨List.range n, false, false⟩

/-- Composition of two elements: the left one applied after the right one. -/
def opComp (f g : SymOp) : SymOp :=
  ⟨f.perm.map (fun k => g.perm.getD k 0), xor f.neg g.neg, xor f.conj g.conj⟩

/-- The sign factor contributed by the accompanied action. -/
def opSign (g : SymOp) : Int := if g.neg then -1 else 1

/-- Shape validity of an element for arity n. -/
def OpValid (n : Nat) (g : SymOp) : Prop :=
  g.perm.length = n ∧ ∀ k ∈ g.perm, k < n

theorem permApply_length (p : List Nat) (ix : List Sym) :
    (permApply p ix).length = p.length := by
  simp [permApply]

theorem getD_map_of_lt {α β : Type} (f : α → β) (l : List α) (k : Nat)
    (hk : k < l.length) (d : β) (d' : α) :
    (l.map f).getD k d = f (l.getD k d') := by
  rw [List.getD_eq_getElem?_getD, List.getElem?_map,
    List.getD_eq_getElem?_getD, List.getElem?_eq_getElem hk]
  rfl

theorem permApply_comp (f g : List Nat) (ix : List Sym)
    (h : ∀ k ∈ f, k < g.length) :
    permApply f (permApply g ix) = permApply (f.map (fun k => g.getD k 0)) ix := by
  unfold permApply
  rw [List.map_map]
  refine List.map_congr_left (fun k hk => ?_)
  show (g.map (fun j => ix.getD j 0)).getD k 0 = ix.getD (g.getD k 0) 0
  exact getD_map_of_lt _ g k (h k hk) 0 0

theorem permApply_map (p : List Nat) (ix : List Sym) (f : Sym → Sym)
    (h : ∀ k ∈ p, k < ix.length) :
    permApply p (ix.map f) = (permApply p ix).map f := by
  unfold permApply
  rw [List.map_map]
  refine List.map_congr_left (fun k hk => ?_)
  exact getD_map_of_lt f ix k (h k hk) 0 0

theorem permApply_id (n : Nat) (ix : List Sym) (h : ix.length = n) :
    permApply (List.range n) ix = ix := by
  unfold permApply
  refine List.ext_getElem (by simp [h]) (fun i h1 h2 => ?_)
  simp only [List.getElem_map, List.getElem_range]
  rw [List.getD_eq_getElem?_getD, List.getElem?_eq_getElem h2]
  rfl

theorem opComp_valid {n : Nat} {f g : SymOp} (hf : OpValid n f)
    (hg : OpValid n g) : OpValid n (opComp f g) := by
  constructor
  · simp [opComp, hf.1]
  · intro k hk
    simp only [opComp, List.mem_map] at hk
    obtain ⟨j, hj, rfl⟩ := hk
    have hjn : j < g.perm.length := by rw [hg.1]; exact hf.2 j hj
    rw [List.getD_eq_getElem?_getD, List.getElem?_eq_getElem hjn]
    exact hg.2 _ (List.getElem_mem hjn)

theorem opComp_id_right {n : Nat} {f : SymOp} (hf : OpValid n f) :
    opComp f (idOp n) = f := by
  obtain ⟨p, ng, cj⟩ := f
  simp only [opComp, idOp, SymOp.mk.injEq, Bool.xor_false, and_true]
  have : ∀ k ∈ p, (List.range n).getD k 0 = k := by
    intro k hk
    have hkn : k < n := hf.2 k hk
    rw [List.getD_eq_getElem?_getD, List.getElem?_eq_getElem (by simp [hkn])]
    simp
  rw [List.map_congr_left this]
  exact List.map_id'' (fun _ => rfl) p

theorem opComp_assoc {f g h : SymOp}
    (hfg : ∀ k ∈ f.perm, k < g.perm.length) :
    opComp (opComp f g) h = opComp f (opComp g h) := by
  obtain ⟨pf, nf, cf⟩ := f
  obtain ⟨pg, ng, cg⟩ := g
  obtain ⟨ph, nh, ch⟩ := h
  simp only [opComp, SymOp.mk.injEq, List.map_map]
  refine ⟨?_, by simp [Bool.xor_assoc], by simp [Bool.xor_assoc]⟩
  refine List.map_congr_left (fun k hk => ?_)
  show ph.getD (pg.getD k 0) 0 = (pg.map (fun j => ph.getD j 0)).getD k 0
  exact (getD_map_of_lt (fun j => ph.getD j 0) pg k (hfg k hk) 0 0).symm

theorem opSign_comp (f g : SymOp) : opSign (opComp f g) = opSign f * opSign g := by
  obtain ⟨pf, nf, cf⟩ := f
  obtain ⟨pg, ng, cg⟩ := g
  cases nf <;> cases ng <;> simp [opComp, opSign]

/-- Application of a per-base choice of group elements to one atomic factor. -/
def atomChoice (γ : List (Nat × SymOp)) : Atom → Atom
  | .idx b c ix =>
    match γ.lookup b with
    | some g => .idx b (xor c g.conj) (permApply g.perm ix)
    | none => .idx b c ix
  | a => a

/-- The sign factor a choice contributes at one atomic factor. -/
def atomChoiceSign (γ : List (Nat × SymOp)) : Atom → Int
  | .idx b _ _ =>
    match γ.lookup b with
    | some g => opSign g
    | none => 1
  | _ => 1

def monoChoiceSign (γ : List (Nat × SymOp)) (m : Mono) : Int :=
  m.foldr (fun a s => atomChoiceSign γ a * s) 1

/-- Modelled from the spec: uniform application of one symmetry-group element
per scalar base across the amplitude, folding the accumulated sign into each
coefficient and the conjugation action into each factor. -/
def ampChoice (γ : List (Nat × SymOp)) (A : Amp) : Amp :=
  A.map (fun p => (p.1 * monoChoiceSign γ p.2, p.2.map (atomChoice γ)))

/-- The base of an indexed atomic factor. -/
def atomBase : Atom → Option Nat
  | .idx b _ _ => some b
  | _ => none

/-- The symmetric bases of an amplitude: indexed bases occurring in it that
carry a registered symmetry group, without duplicates. -/
def symBases (symms : List (Nat × List SymOp)) (A : Amp) : List Nat :=
  ((catMap (fun p => p.2.filterMap atomBase) A).dedup).filter
    (fun b => (symms.lookup b).isSome)

/-- All per-base choices of one group element for each listed base. -/
def choicesFor (symms : List (Nat × List SymOp)) :
    List Nat → List (List (Nat × SymOp))
  | [] => [[]]
  | b :: rest =>
    catMap (fun g => (choicesFor symms rest).map (fun γ => (b, g) :: γ))
      ((symms.lookup b).getD [])

/-- All ways to insert an element into a list. -/
def insertsK {α : Type} (x : α) : List α → List (List α)
  | [] => [[x]]
  | y :: ys => (x :: y :: ys) :: (insertsK x ys).map (fun l => y :: l)

/-- All permutations of a list, by structural recursion (so that candidate
sets evaluate inside the kernel). -/
def perms {α : Type} : List α → List (List α)
  | [] => [[]]
  | x :: xs => catMap (insertsK x) (perms xs)

theorem mem_insertsK {α : Type} {x : α} :
    ∀ {l σ : List α}, σ ∈ insertsK x l ↔
      ∃ l1 l2, l = l1 ++ l2 ∧ σ = l1 ++ x :: l2 := by
  intro l
  induction l with
  | nil =>
    intro σ
    simp only [insertsK, List.mem_singleton]
    constructor
    · rintro rfl
      exact ⟨[], [], rfl, rfl⟩
    · rintro ⟨l1, l2, h1, rfl⟩
      have : l1 = [] ∧ l2 = [] := by
        constructor <;> cases l1 <;> simp_all
      simp [this.1, this.2]
  | cons y ys ih =>
    intro σ
    simp only [insertsK, List.mem_cons, List.mem_map]
    constructor
    · rintro (rfl | ⟨τ, hτ, rfl⟩)
      · exact ⟨[], y :: ys, rfl, rfl⟩
      · obtain ⟨m1, m2, rfl, rfl⟩ := ih.mp hτ
        exact ⟨y :: m1, m2, rfl, rfl⟩
    · rintro ⟨l1, l2, h1, rfl⟩
      cases l1 with
      | nil =>
        simp at h1
        simp [h1]
      | cons z zs =>
        simp only [List.cons_append, List.cons.injEq] at h1
        obtain ⟨rfl, rfl⟩ := h1
        exact Or.inr ⟨zs ++ x :: l2, ih.mpr ⟨zs, l2, rfl, rfl⟩, rfl⟩

theorem mem_perms {α : Type} :
    ∀ {l σ : List α}, σ ∈ perms l ↔ σ.Perm l := by
  intro l
  induction l with
  | nil =>
    intro σ
    simp only [perms, List.mem_singleton]
    constructor
    · rintro rfl; rfl
    · intro h; exact h.eq_nil
  | cons x xs ih =>
    intro σ
    simp only [perms, mem_catMap]
    constructor
    · rintro ⟨τ, hτ, hσ⟩
      obtain ⟨l1, l2, rfl, rfl⟩ := mem_insertsK.mp hσ
      exact List.Perm.trans List.perm_middle ((ih.mp hτ).cons x)
    · intro h
      have hx : x ∈ σ := h.symm.subset (by simp)
      obtain ⟨l1, l2, rfl⟩ := List.append_of_mem hx
      have h2 : (l1 ++ l2).Perm xs := by
        have := (List.perm_middle).symm.trans h
        exact (List.perm_cons x).mp this
      exact ⟨l1 ++ l2, ih.mpr h2, mem_insertsK.mpr ⟨l1, l2, rfl, rfl⟩⟩

/-- The canonical dummy assignment: walking the bindings in order, each dummy
is bound to the next pool name of its range (per-range counters). -/
def canonAssign (pool : Range → Nat → Sym) :
    List (Sym × Range) → List (Range × Nat) → List (Sym × Sym)
  | [], _ => []
  | (d, r) :: rest, cnt =>
    (d, pool r ((cnt.lookup r).getD 0)) ::
      canonAssign pool rest ((r, (cnt.lookup r).getD 0 + 1) :: cnt)

def assignFun (al : List (Sym × Sym)) (s : Sym) : Sym := (al.lookup s).getD s

def candAssign (pool : Range → Nat → Sym) (σ : List (Sym × Range)) : Sym → Sym :=
  assignFun (canonAssign pool σ [])

/-- One canonicalization candidate: reorder the summations as σ, rebind the
dummies to canonical pool names in σ-encounter order, apply the per-base
symmetry choice γ, and normalize the amplitude. -/
def candTerm (pool : Range → Nat → Sym) (amp : Amp) (vecs : List VecF)
    (σ : List (Sym × Range)) (γ : List (Nat × SymOp)) : Term :=
  ⟨σ.map (fun b => (candAssign pool σ b.1, b.2)),
    normalize (ampChoice γ (ampMap (candAssign pool σ) amp)),
    vecsMap (candAssign pool σ) vecs⟩

/-- Modelled from the spec: the candidate set searched by canon — every
reordering of the summations combined with every choice of one symmetry-group
element per symmetric base of the amplitude. -/
def candsOf (pool : Range → Nat → Sym) (symms : List (Nat × List SymOp))
    (t : Term) : List Term :=
  catMap (fun σ => (choicesFor symms (symBases symms t.amp)).map
    (candTerm pool t.amp t.vecs σ)) (perms t.sums)

/-- Modelled from the spec: the canon operation of the missing term module —
the key-least candidate under the fixed total order termK.  When the search
space is empty (an invalid empty symmetry group was registered for an
occurring base), the term is returned unchanged. -/
def canon (pool : Range → Nat → Sym) (symms : List (Nat × List SymOp))
    (t : Term) : Term :=
  match candsOf pool symms t with
  | [] => t
  | c :: rest => pickMin termK c rest

theorem mem_candsOf {pool : Range → Nat → Sym} {symms : List (Nat × List SymOp)}
    {t u : Term} :
    u ∈ candsOf pool symms t ↔
      ∃ σ, σ.Perm t.sums ∧ ∃ γ ∈ choicesFor symms (symBases symms t.amp),
        u = candTerm pool t.amp t.vecs σ γ := by
  unfold candsOf
  rw [mem_catMap]
  constructor
  · rintro ⟨σ, hσ, hu⟩
    obtain ⟨γ, hγ, rfl⟩ := List.mem_map.mp hu
    exact ⟨σ, mem_perms.mp hσ, γ, hγ, rfl⟩
  · rintro ⟨σ, hσ, γ, hγ, rfl⟩
    exact ⟨σ, mem_perms.mpr hσ, List.mem_map.mpr ⟨γ, hγ, rfl⟩⟩

theorem canon_congr {pool : Range → Nat → Sym} {symms : List (Nat × List SymOp)}
    {t t' : Term} (hne : candsOf pool symms t ≠ [])
    (hne' : candsOf pool symms t' ≠ [])
    (h : ∀ u, u ∈ candsOf pool symms t ↔ u ∈ candsOf pool symms t') :
    canon pool symms t = canon pool symms t' := by
  unfold canon
  rcases h1 : candsOf pool symms t with _ | ⟨c, rest⟩
  · exact absurd h1 hne
  · rcases h2 : candsOf pool symms t' with _ | ⟨c', rest'⟩
    · exact absurd h2 hne'
    · refine pickMin_congr termK termK_inj c rest c' rest' (fun x => ?_)
      have := h x
      rw [h1, h2] at this
      simpa [List.mem_cons] using this

/-- Modelled from the spec: the distinguishable error kind raised when a
dummy pool has no admissible symbol left (ExhaustedPoolError). -/
inductive ResetErr where
  | exhaustedPool : ResetErr
deriving DecidableEq, Repr

/-- Scan of a pool suffix for the first symbol not in excl; pos is the
absolute position of the suffix head.  Returns the symbol found and the
position right after it. -/
def pickAux (excl : List Sym) : List Sym → Nat → Option (Sym × Nat)
  | [], _ => none
  | s :: rest, pos =>
    if s ∈ excl then pickAux excl rest (pos + 1) else some (s, pos + 1)

/-- First admissible pool position at or past beg. -/
def pickIdx (pool : List Sym) (beg : Nat) (excl : List Sym) :
    Option (Sym × Nat) :=
  pickAux excl (pool.drop beg) beg

/-- The rebinding loop of reset_dumms: walk the bindings in encounter order,
drawing for each one the next admissible symbol of its range's pool. -/
def resetLoop (pools : List (Range × List Sym)) (excl : List Sym) :
    List (Sym × Range) → List (Range × Nat) →
      Option (List (Sym × Sym) × List (Range × Nat))
  | [], begs => some ([], begs)
  | (d, r) :: rest, begs =>
    match pickIdx ((pools.lookup r).getD []) ((begs.lookup r).getD 0) excl with
    | none => none
    | some (s, nxt) =>
      match resetLoop pools excl rest ((r, nxt) :: begs) with
      | none => none
      | some (al, begs') => some ((d, s) :: al, begs')

/-- Modelled from the spec: the reset_dumms operation of the missing term
module — rebind each dummy, in encounter order across the sums, to the next
unused symbol of its range's pool, skipping any symbol in excl, starting at
the given per-range indices; the per-range next indices are returned with the
new term, and an ExhaustedPoolError kind is raised when a pool runs out. -/
def reset_dumms (t : Term) (pools : List (Range × List Sym))
    (starts : List (Range × Nat)) (excl : List Sym) :
    Except ResetErr (Term × List (Range × Nat)) :=
  match resetLoop pools excl t.sums starts with
  | none => .error .exhaustedPool
  | some (al, begs) =>
    .ok (⟨t.sums.map (fun b => (assignFun al b.1, b.2)),
      ampMap (assignFun al) t.amp, vecsMap (assignFun al) t.vecs⟩, begs)

/-- The range governing a symbol: its summation binding if it is a dummy of
the term, otherwise whatever the resolvers establish. -/
def rangeOf (sums : List (Sym × Range)) (res : Sym → Option Range)
    (s : Sym) : Option Range :=
  match sums.lookup s with
  | some r => some r
  | none => res s

def isDummy (sums : List (Sym × Range)) (s : Sym) : Bool :=
  (sums.lookup s).isSome

/-- Outcome of locating the first actionable Kronecker delta. -/
inductive DeltaAct where
  | zero : DeltaAct
  | subst : Sym → Sym → Mono → DeltaAct
deriving DecidableEq, Repr

/-- Locate the first actionable delta of a monomial: with both ranges known,
distinct ranges collapse the term to zero, and an equal range resolves the
delta by eliminating a dummy argument; a delta not constraining any dummy, or
one with an unknown range, is kept. -/
def findDelta (sums : List (Sym × Range)) (res : Sym → Option Range) :
    Mono → Option DeltaAct
  | [] => none
  | a :: rest =>
    let keep : Option DeltaAct :=
      match findDelta sums res rest with
      | some .zero => some .zero
      | some (.subst u v m) => some (.subst u v (a :: m))
      | none => none
    match a with
    | .delta x y =>
      match rangeOf sums res x, rangeOf sums res y with
      | some r1, some r2 =>
        if r1 = r2 then
          if isDummy sums x then some (.subst x y rest)
          else if isDummy sums y then some (.subst y x rest)
          else keep
        else some .zero
      | _, _ => keep
    | _ => keep

/-- Pointwise substitution of one symbol. -/
def sub1 (x y s : Sym) : Sym := if s = x then y else s

/-- One delta-resolution step on a monomial-amplitude term. -/
def deltaStep (res : Sym → Option Range) (t : Term) : Option Term :=
  match t.amp with
  | [(c, m)] =>
    match findDelta t.sums res m with
    | some .zero => some ⟨[], [], []⟩
    | some (.subst x y m') =>
      some ⟨t.sums.filter (fun b => b.1 ≠ x),
        [(c, monoMap (sub1 x y) m')], vecsMap (sub1 x y) t.vecs⟩
    | none => none
  | _ => none

def deltaIter (res : Sym → Option Range) : Nat → Term → Term
  | 0, t => t
  | fuel + 1, t =>
    match deltaStep res t with
    | some t' => deltaIter res fuel t'
    | none => t

def countDeltas (A : Amp) : Nat :=
  (catMap (fun p => p.2.filter (fun a => match a with
    | .delta _ _ => true
    | _ => false)) A).length

/-- Modelled from the spec: the simplify_deltas operation of the missing term
module — resolve the Kronecker deltas of the amplitude against the governing
ranges, substituting away a dummy and its summation on each resolution,
collapsing to the zero term on knowably disjoint ranges. -/
def simplify_deltas (res : Sym → Option Range) (t : Term) : Term :=
  deltaIter res (countDeltas t.amp) t

/-- The size of a bounded range. -/
def rangeSize (r : Range) : Option Int :=
  match r.lo, r.hi with
  | some a, some b => some (b - a)
  | _, _ => none

/-- Whether a binding is a dangling bounded summation of the term. -/
def danglingQ (A : Amp) (vs : List VecF) (b : Sym × Range) : Bool :=
  (rangeSize b.2).isSome && !((ampSyms A).contains b.1)
    && !((vecsSyms vs).contains b.1)

/-- Modelled from the spec: summation simplification of the missing term
module — a dummy bound in the sums but appearing nowhere in the amplitude or
the vector factors integrates to a multiplicative factor equal to its range's
size; only knowably sized (bounded) ranges are contracted. -/
def simplify_sums (t : Term) : Term :=
  ⟨t.sums.filter (fun b => !danglingQ t.amp t.vecs b),
    t.amp.map (fun p =>
      ((t.sums.filter (danglingQ t.amp t.vecs)).foldr
        (fun b acc => (rangeSize b.2).getD 1 * acc) p.1, p.2)),
    t.vecs⟩

/-- Modelled from the spec: the expand operation of the missing tensor
module — distribute the amplitude's summands into separate terms. -/
def expandT (t : Term) : List Term :=
  t.amp.map (fun p => ⟨t.sums, [p], t.vecs⟩)

def expand (X : Tensor) : Tensor := catMap expandT X

/-- Structural skeleton equality: same summations and vector factors. -/
def skelEq (u t : Term) : Bool := u.sums == t.sums && u.vecs == t.vecs

/-- Modelled from the spec and the behaviour pinned by the tests: the merge
operation of the missing tensor module — group terms by their structural
(sums, vecs) skeleton, sum the amplitudes of each group, and drop every group
whose summed amplitude is exactly the zero scalar.  The tests show merge
applies no canonicalization: terms differing only in dummy names stay apart
until reset_dumms (free_algebra_test.py, test_tensor_has_basic_operations). -/
def mergeAux : Nat → Tensor → Tensor
  | _, [] => []
  | 0, _ :: _ => []
  | fuel + 1, t :: rest =>
    if normalize (t.amp ++ catMap Term.amp (rest.filter (fun u => skelEq u t))) = []
    then mergeAux fuel (rest.filter (fun u => !skelEq u t))
    else ⟨t.sums,
      normalize (t.amp ++ catMap Term.amp (rest.filter (fun u => skelEq u t))),
      t.vecs⟩ :: mergeAux fuel (rest.filter (fun u => !skelEq u t))

def merge (X : Tensor) : Tensor := mergeAux X.length X

/-- The deterministic presentation order of a tensor's terms. -/
def sortTensor (X : Tensor) : Tensor := sortK termK X

/-- Modelled from the spec: the simplify pipeline of the missing tensor
module — expand amplitudes into monomial terms, resolve deltas and dangling
bounded summations per term, canonicalize each term, then merge equal
skeletons dropping zero amplitudes, and present in the fixed order. -/
def simplify (res : Sym → Option Range) (pool : Range → Nat → Sym)
    (symms : List (Nat × List SymOp)) (X : Tensor) : Tensor :=
  sortTensor (merge (((expand X).map (simplify_deltas res)).map simplify_sums
    |>.map (canon pool symms)))

/-- Modelled from the spec: the map2scalars operation of the missing tensor
module, the opaque scalar function being taken as a symbol substitution (the
shape the tests exercise).  The function is applied to every term's
amplitude; with skip_vecs it leaves every vector factor untouched, without it
the vector argument indices are mapped as well.  Summations are never
touched. -/
def map2scalars (f : Sym → Sym) (skip : Bool) (X : Tensor) : Tensor :=
  X.map (fun t =>
    ⟨t.sums, ampMap f t.amp, if skip then t.vecs else vecsMap f t.vecs⟩)

/-- Modelled from the spec: the serialization contract of §6 — a Term is
serialized through its faithful structural encoding. -/
def serializeTerm (t : Term) : K := termK t

def serializeTensor (X : Tensor) : K := listK termK X

def decodeNat : K → Option Nat
  | .leaf (Int.ofNat n) => some n
  | _ => none

def decodeBool : K → Option Bool
  | .leaf 0 => some false
  | .leaf 1 => some true
  | _ => none

def decodeInt : K → Option Int
  | .leaf a => some a
  | _ => none

def decodeOptInt : K → Option (Option Int)
  | .nil => some none
  | .leaf a => some (some a)
  | _ => none

def decodeList {α : Type} (f : K → Option α) : K → Option (List α)
  | .nil => some []
  | .node x rest =>
    match f x, decodeList f rest with
    | some a, some l => some (a :: l)
    | _, _ => none
  | _ => none

def decodeRange : K → Option Range
  | .node nk (.node lok hik) =>
    match decodeNat nk, decodeOptInt lok, decodeOptInt hik with
    | some n, some lo, some hi => some ⟨n, lo, hi⟩
    | _, _, _ => none
  | _ => none

def decodeAtom : K → Option Atom
  | .node (.leaf 0) (.node sk ck) =>
    match decodeNat sk, decodeBool ck with
    | some s, some c => some (.var s c)
    | _, _ => none
  | .node (.leaf 1) (.node bk (.node ck ixk)) =>
    match decodeNat bk, decodeBool ck, decodeList decodeNat ixk with
    | some b, some c, some ix => some (.idx b c ix)
    | _, _, _ => none
  | .node (.leaf 2) (.node ak bk) =>
    match decodeNat ak, decodeNat bk with
    | some a, some b => some (.delta a b)
    | _, _ => none
  | _ => none

def decodePair : K → Option (Int × Mono)
  | .node mk (.leaf c) =>
    match decodeList decodeAtom mk with
    | some m => some (c, m)
    | none => none
  | _ => none

def decodeVec : K → Option VecF
  | .node bk ixk =>
    match decodeNat bk, decodeList decodeNat ixk with
    | some b, some ix => some ⟨b, ix⟩
    | _, _ => none
  | _ => none

def decodeBind : K → Option (Sym × Range)
  | .node sk rk =>
    match decodeNat sk, decodeRange rk with
    | some s, some r => some (s, r)
    | _, _ => none
  | _ => none

/-- Modelled from the spec: deserialization, the partial inverse of the
structural encoding. -/
def deserializeTerm : K → Option Term
  | .node sumsk (.node vecsk ampk) =>
    match decodeList decodeBind sumsk, decodeList decodeVec vecsk,
        decodeList decodePair ampk with
    | some sums, some vecs, some amp => some ⟨sums, amp, vecs⟩
    | _, _, _ => none
  | _ => none

def deserializeTensor (k : K) : Option Tensor :=
  decodeList deserializeTerm k

/-- Modelled from the spec: the stable hash the core must expose for Term,
consistent with structural equality by construction. -/
def hashTerm (t : Term) : K := termK t

theorem decodeNat_natK (n : Nat) : decodeNat (natK n) = some n := rfl

theorem decodeBool_boolK (b : Bool) : decodeBool (boolK b) = some b := by
  cases b <;> rfl

theorem decodeOptInt_optIntK (o : Option Int) :
    decodeOptInt (optIntK o) = some o := by
  cases o <;> rfl

theorem decodeList_listK {α : Type} (f : K → Option α) (g : α → K)
    (hfg : ∀ x, f (g x) = some x) :
    ∀ l : List α, decodeList f (listK g l) = some l := by
  intro l
  induction l with
  | nil => rfl
  | cons x xs ih =>
    show decodeList f (.node (g x) (listK g xs)) = some (x :: xs)
    simp [decodeList, hfg x, ih]

theorem decodeRange_rangeK (r : Range) : decodeRange (rangeK r) = some r := by
  obtain ⟨n, lo, hi⟩ := r
  simp [decodeRange, rangeK, decodeNat_natK, decodeOptInt_optIntK]

theorem decodeAtom_atomK (a : Atom) : decodeAtom (atomK a) = some a := by
  cases a with
  | var s c =>
    simp [decodeAtom, atomK, decodeNat_natK, decodeBool_boolK]
  | idx b c ix =>
    simp [decodeAtom, atomK, decodeNat_natK, decodeBool_boolK,
      decodeList_listK decodeNat natK decodeNat_natK]
  | delta x y =>
    simp [decodeAtom, atomK, decodeNat_natK]

theorem decodePair_pairK (p : Int × Mono) : decodePair (pairK p) = some p := by
  obtain ⟨c, m⟩ := p
  simp [decodePair, pairK, monoK,
    decodeList_listK decodeAtom atomK decodeAtom_atomK]

theorem decodeVec_vecK (v : VecF) : decodeVec (vecK v) = some v := by
  obtain ⟨b, ix⟩ := v
  simp [decodeVec, vecK, decodeNat_natK,
    decodeList_listK decodeNat natK decodeNat_natK]

theorem decodeBind_bindK (b : Sym × Range) : decodeBind (bindK b) = some b := by
  obtain ⟨s, r⟩ := b
  simp [decodeBind, bindK, decodeNat_natK, decodeRange_rangeK]

theorem deserializeTerm_serializeTerm (t : Term) :
    deserializeTerm (serializeTerm t) = some t := by
  obtain ⟨sums, amp, vecs⟩ := t
  simp [deserializeTerm, serializeTerm, termK, ampK,
    decodeList_listK decodeBind bindK decodeBind_bindK,
    decodeList_listK decodeVec vecK decodeVec_vecK,
    decodeList_listK decodePair pairK decodePair_pairK]

theorem deserializeTensor_serializeTensor (X : Tensor) :
    deserializeTensor (serializeTensor X) = some X :=
  decodeList_listK deserializeTerm termK deserializeTerm_serializeTerm X

/-- Merging a two-term tensor of equal skeleton sums the amplitudes into one
term, which is dropped when the sum is exactly zero. -/
theorem merge_pair (t1 t2 : Term) (hs : t2.sums = t1.sums)
    (hv : t2.vecs = t1.vecs) :
    merge [t1, t2] = if normalize (t1.amp ++ t2.amp) = [] then []
      else [⟨t1.sums, normalize (t1.amp ++ t2.amp), t1.vecs⟩] := by
  have hskel : skelEq t2 t1 = true := by
    simp [skelEq, hs, hv]
  by_cases hz : normalize (t1.amp ++ t2.amp) = [] <;>
    simp [merge, mergeAux, hskel, catMap, hz]

/-- After deltaStep collapses a term to zero, further iterations fix it. -/
theorem deltaIter_zero (res : Sym → Option Range) :
    ∀ k, deltaIter res k ⟨[], [], []⟩ = ⟨[], [], []⟩ := by
  intro k
  cases k with
  | zero => rfl
  | succ k => rfl

/-- Fixtures shared by the concrete claim scenarios.  Symbols: i = 0, j = 1,
k = 2, l = 3, alpha = 5, a = 7, b = 8; scalar bases: m = 100, h = 101,
x = 102, y = 103, u = 110, w = 111; vector bases: v = 200, fv = 201. -/
def rngR : Range := ⟨0, none, none⟩

def rngS : Range := ⟨1, none, none⟩

def rngD : Range := ⟨2, some 0, some 2⟩

/-- The canonical dummy pool: for every range, the symbols 0, 1, 2, …
(the drudge registry's per-range dummy lists, abstracted). -/
def plainPool : Range → Nat → Sym := fun _ n => n

def swapNeg : SymOp := ⟨[1, 0], true, false⟩

def swapNegConj : SymOp := ⟨[1, 0], true, true⟩

/-- The two-element group of the antisymmetric base m. -/
def grpM : List SymOp := [idOp 2, swapNeg]

/-- The two-element group of the hermitian base h. -/
def grpH : List SymOp := [idOp 2, swapNegConj]

def fxSymms : List (Nat × List SymOp) := [(100, grpM), (101, grpH)]

def noRes : Sym → Option Range := fun _ => none

/-- sum_i x[i]*v[i] + sum_k x[k]*v[k]: two terms differing only in the name
of the bound dummy (i = 0 vs k = 2). -/
def fxC1 : Tensor :=
  [⟨[(0, rngR)], [(1, [Atom.idx 102 false [0]])], [⟨200, [0]⟩]⟩,
   ⟨[(2, rngR)], [(1, [Atom.idx 102 false [2]])], [⟨200, [2]⟩]⟩]

/-- The same two terms after resetting both dummies to the pool head. -/
def fxC1reset : Tensor :=
  [⟨[(0, rngR)], [(1, [Atom.idx 102 false [0]])], [⟨200, [0]⟩]⟩,
   ⟨[(0, rngR)], [(1, [Atom.idx 103 false [0]])], [⟨200, [0]⟩]⟩]

/-- m[i,j]*v[i]*v[j] + m[j,i]*v[i]*v[j] over a common range. -/
def fxC4a : Tensor :=
  [⟨[(0, rngR), (1, rngR)], [(1, [Atom.idx 100 false [0, 1]])],
    [⟨200, [0]⟩, ⟨200, [1]⟩]⟩,
   ⟨[(0, rngR), (1, rngR)], [(1, [Atom.idx 100 false [1, 0]])],
    [⟨200, [0]⟩, ⟨200, [1]⟩]⟩]

/-- h[i,j]*v[i]*v[j] + conjugate(h[j,i])*v[i]*v[j]. -/
def fxC4b : Tensor :=
  [⟨[(0, rngR), (1, rngR)], [(1, [Atom.idx 101 false [0, 1]])],
    [⟨200, [0]⟩, ⟨200, [1]⟩]⟩,
   ⟨[(0, rngR), (1, rngR)], [(1, [Atom.idx 101 true [1, 0]])],
    [⟨200, [0]⟩, ⟨200, [1]⟩]⟩]

/-- sum_{i,j} delta(i,j)*delta(j,k)*v[i] with k free. -/
def fxC6 : Term :=
  ⟨[(0, rngR), (1, rngR)], [(1, [Atom.delta 0 1, Atom.delta 1 2])],
    [⟨200, [0]⟩]⟩

/-- The resolver establishing that the free index k lives in range R. -/
def resK : Sym → Option Range := fun s => if s = 2 then some rngR else none

/-- 1 + sum_{a ∈ D} 1 + sum_{a,b ∈ D} 1 over the bounded range D. -/
def fxC9 : Tensor :=
  [⟨[], [(1, [])], []⟩,
   ⟨[(7, rngD)], [(1, [])], []⟩,
   ⟨[(7, rngD), (8, rngD)], [(1, [])], []⟩]

/-- einst u[i,j]*fv[j] + w[i,j]*fv[j], the advanced-manipulations fixture. -/
def fxC10 : Tensor :=
  [⟨[(1, rngR)], [(1, [Atom.idx 110 false [0, 1]])], [⟨201, [1]⟩]⟩,
   ⟨[(1, rngR)], [(1, [Atom.idx 111 false [0, 1]])], [⟨201, [1]⟩]⟩]

/-- C1: the claim's scenario is refuted by the model pinned to the tests —
two terms differing only by the name of a bound dummy variable do not merge
into a single term; merge leaves them apart (n_terms stays 2, as asserted at
free_algebra_test.py:133-135). -/
theorem c1_counterexample : merge fxC1 = fxC1 ∧ (merge fxC1).length ≠ 1 := by
  constructor
  · decide
  · decide

/-- C1 (amended): merge groups terms by their structural (sums, vecs)
skeleton as they stand — without canonicalization — sums the amplitudes of
each group, and discards a group whose summed amplitude is exactly the zero
scalar; terms differing only by a dummy name merge only after their dummies
are reset to a common pool (the reset scenario merges into a single term). -/
theorem c1_amended :
    (∀ t1 t2 : Term, t2.sums = t1.sums → t2.vecs = t1.vecs →
      merge [t1, t2] = if normalize (t1.amp ++ t2.amp) = [] then []
        else [⟨t1.sums, normalize (t1.amp ++ t2.amp), t1.vecs⟩])
    ∧ merge fxC1reset
      = [⟨[(0, rngR)], [(1, [Atom.idx 102 false [0]]), (1, [Atom.idx 103 false [0]])],
          [⟨200, [0]⟩]⟩] := by
  refine ⟨fun t1 t2 hs hv => merge_pair t1 t2 hs hv, ?_⟩
  decide

/-- C4: the antisymmetric sum m[i,j]*v[i]*v[j] + m[j,i]*v[i]*v[j] and the
hermitian sum h[i,j]*v[i]*v[j] + conjugate(h[j,i])*v[i]*v[j] both simplify
to the zero tensor. -/
theorem c4_zero_by_symmetry :
    simplify noRes plainPool fxSymms fxC4a = ([] : Tensor)
      ∧ simplify noRes plainPool fxSymms fxC4b = ([] : Tensor) := by
  constructor
  · decide
  · decide

/-- C6: sum_{i,j} δ(i,j)*δ(j,k)*v[i] with k resolved to the common range
simplifies to v[k] with no remaining summation and no remaining delta; and a
delta constraining two indices of knowably disjoint ranges collapses the
whole term to the zero term. -/
theorem c6_delta_resolution :
    simplify_deltas resK fxC6 = ⟨[], [(1, [])], [⟨200, [2]⟩]⟩
    ∧ ∀ (t : Term) (res : Sym → Option Range) (x y : Sym) (c : Int) (m : Mono)
        (r1 r2 : Range), t.amp = [(c, Atom.delta x y :: m)] →
        rangeOf t.sums res x = some r1 → rangeOf t.sums res y = some r2 →
        r1 ≠ r2 → simplify_deltas res t = ⟨[], [], []⟩ := by
  constructor
  · decide
  · intro t res x y c m r1 r2 hamp hx hy hne
    unfold simplify_deltas
    rw [hamp]
    have hcount : countDeltas [(c, Atom.delta x y :: m)]
        = (countDeltas [(c, Atom.delta x y :: m)] - 1) + 1 := by
      simp [countDeltas, catMap, List.filter]
    rw [hcount]
    show deltaIter res _ t = _
    unfold deltaIter
    have hstep : deltaStep res t = some ⟨[], [], []⟩ := by
      unfold deltaStep
      rw [hamp]
      simp only [findDelta, hx, hy]
      rw [if_neg hne]
    rw [hstep]
    exact deltaIter_zero res _

/-- C8: deserializing the serialization of a Term or Tensor yields the value
back, and the stable hash is carried along unchanged. -/
theorem c8_round_trip :
    (∀ t : Term, deserializeTerm (serializeTerm t) = some t)
    ∧ (∀ t : Term,
        (deserializeTerm (serializeTerm t)).map hashTerm = some (hashTerm t))
    ∧ (∀ X : Tensor, deserializeTensor (serializeTensor X) = some X) := by
  refine ⟨deserializeTerm_serializeTerm, fun t => ?_,
    deserializeTensor_serializeTensor⟩
  rw [deserializeTerm_serializeTerm t]
  rfl

/-- C9: a dangling dummy — bound in the sums but absent from the amplitude
and the vector factors — contributes a factor equal to its bounded range's
size under summation simplification, and the bounded-range scenario
1 + sum_a 1 + sum_{a,b} 1 over D = (0, 2) simplifies to the constant 7. -/
theorem c9_dangling_dummies :
    simplify noRes plainPool ([] : List (Nat × List SymOp)) fxC9
      = [⟨[], [(7, [])], []⟩]
    ∧ ∀ (d : Sym) (r : Range) (lo hi : Int) (sums : List (Sym × Range))
        (A : Amp) (V : List VecF), r.lo = some lo → r.hi = some hi →
        d ∉ ampSyms A → d ∉ vecsSyms V →
        simplify_sums ⟨(d, r) :: sums, A, V⟩
          = ⟨(simplify_sums ⟨sums, A, V⟩).sums,
              (simplify_sums ⟨sums, A, V⟩).amp.map
                (fun p => ((hi - lo) * p.1, p.2)),
              (simplify_sums ⟨sums, A, V⟩).vecs⟩ := by
  constructor
  · decide
  · intro d r lo hi sums A V hlo hhi hA hV
    have hd : danglingQ A V (d, r) = true := by
      simp only [danglingQ, rangeSize, hlo, hhi]
      simp [hA, hV]
    have hsize : rangeSize r = some (hi - lo) := by
      simp [rangeSize, hlo, hhi]
    unfold simplify_sums
    simp only [List.filter_cons, hd, Bool.not_true, List.foldr_cons,
      List.map_map, Term.mk.injEq, hsize]
    refine ⟨by simp, ?_, by simp⟩
    refine List.map_congr_left (fun p hp => ?_)
    simp [hsize]

/-- C10: map2scalars applies the scalar function to every term's amplitude
and, without skip_vecs, to the vector argument indices as well; summations
are never touched, and with skip_vecs every vector factor is kept unchanged
— witnessed generally and on the advanced-manipulations fixture with the
substitution j ↦ k. -/
theorem c10_map2scalars :
    (∀ (f : Sym → Sym) (X : Tensor),
      (map2scalars f true X).map Term.sums = X.map Term.sums
      ∧ (map2scalars f false X).map Term.sums = X.map Term.sums
      ∧ (map2scalars f true X).map Term.vecs = X.map Term.vecs
      ∧ (map2scalars f true X).map Term.amp = X.map (fun t => ampMap f t.amp)
      ∧ (map2scalars f false X).map Term.amp = X.map (fun t => ampMap f t.amp)
      ∧ (map2scalars f false X).map Term.vecs
          = X.map (fun t => vecsMap f t.vecs))
    ∧ map2scalars (sub1 1 2) false fxC10
        = [⟨[(1, rngR)], [(1, [Atom.idx 110 false [0, 2]])], [⟨201, [2]⟩]⟩,
           ⟨[(1, rngR)], [(1, [Atom.idx 111 false [0, 2]])], [⟨201, [2]⟩]⟩]
    ∧ map2scalars (sub1 1 2) true fxC10
        = [⟨[(1, rngR)], [(1, [Atom.idx 110 false [0, 2]])], [⟨201, [1]⟩]⟩,
           ⟨[(1, rngR)], [(1, [Atom.idx 111 false [0, 2]])], [⟨201, [1]⟩]⟩] := by
  refine ⟨fun f X => ?_, by decide, by decide⟩
  simp [map2scalars, List.map_map, Function.comp]

/-- Concrete instantiation of the amended merge characterization at the
reset scenario's two terms. -/
theorem c1_amended_witness :
    merge [(⟨[(0, rngR)], [(1, [Atom.idx 102 false [0]])], [⟨200, [0]⟩]⟩ : Term),
        ⟨[(0, rngR)], [(1, [Atom.idx 103 false [0]])], [⟨200, [0]⟩]⟩]
      = if normalize ([(1, [Atom.idx 102 false [0]])]
            ++ [(1, [Atom.idx 103 false [0]])]) = [] then []
        else [⟨[(0, rngR)],
          normalize ([(1, [Atom.idx 102 false [0]])]
            ++ [(1, [Atom.idx 103 false [0]])]), [⟨200, [0]⟩]⟩] :=
  c1_amended.1
    ⟨[(0, rngR)], [(1, [Atom.idx 102 false [0]])], [⟨200, [0]⟩]⟩
    ⟨[(0, rngR)], [(1, [Atom.idx 103 false [0]])], [⟨200, [0]⟩]⟩ rfl rfl

/-- Concrete instantiation of the disjoint-range delta collapse: the term
sum_{i ∈ R, alpha ∈ S} δ(i, alpha) collapses to the zero term. -/
theorem c6_delta_resolution_witness :
    simplify_deltas noRes ⟨[(0, rngR), (5, rngS)], [(1, [Atom.delta 0 5])], []⟩
      = ⟨[], [], []⟩ :=
  c6_delta_resolution.2 ⟨[(0, rngR), (5, rngS)], [(1, [Atom.delta 0 5])], []⟩
    noRes 0 5 1 [] rngR rngS rfl (by decide) (by decide) (by decide)

theorem lookup_cons_eq {α β : Type} [BEq α] [LawfulBEq α] (k : α) (v : β)
    (l : List (α × β)) : ((k, v) :: l).lookup k = some v := by
  simp [List.lookup]

theorem lookup_cons_ne {α β : Type} [BEq α] [LawfulBEq α] {k k' : α}
    (h : k' ≠ k) (v : β) (l : List (α × β)) :
    ((k, v) :: l).lookup k' = l.lookup k' := by
  simp only [List.lookup]
  have : (k' == k) = false := by
    simpa using h
  rw [this]

theorem pickAux_pos {excl : List Sym} :
    ∀ {l : List Sym} {pos : Nat} {sym : Sym} {nxt : Nat},
      pickAux excl l pos = some (sym, nxt) →
      ∃ j, ∃ hj : j < l.length, l.get ⟨j, hj⟩ = sym ∧ nxt = pos + j + 1
        ∧ sym ∉ excl := by
  intro l
  induction l with
  | nil => intro pos sym nxt h; simp [pickAux] at h
  | cons x xs ih =>
    intro pos sym nxt h
    simp only [pickAux] at h
    split at h
    · obtain ⟨j, hj, h1, h2, h3⟩ := ih h
      refine ⟨j + 1, by simpa using hj, ?_, by omega, h3⟩
      simpa using h1
    · rename_i hx
      simp only [Option.some.injEq, Prod.mk.injEq] at h
      obtain ⟨rfl, rfl⟩ := h
      exact ⟨0, by simp, rfl, by omega, hx⟩

theorem pickIdx_spec {pl : List Sym} {beg : Nat} {excl : List Sym}
    {sym : Sym} {nxt : Nat} (h : pickIdx pl beg excl = some (sym, nxt)) :
    ∃ p, ∃ hp : p < pl.length, beg ≤ p ∧ pl.get ⟨p, hp⟩ = sym ∧ nxt = p + 1
      ∧ sym ∉ excl := by
  obtain ⟨j, hj, h1, h2, h3⟩ := pickAux_pos h
  have hlen : j < pl.length - beg := by simpa using hj
  refine ⟨beg + j, by omega, by omega, ?_, by omega, h3⟩
  rw [← h1]
  simp only [List.get_eq_getElem]
  rw [List.getElem_drop]

theorem pickIdx_lt {pl : List Sym} {beg : Nat} {excl : List Sym}
    {sym : Sym} {nxt : Nat} (h : pickIdx pl beg excl = some (sym, nxt)) :
    beg < nxt := by
  obtain ⟨p, hp, h1, h2, h3, h4⟩ := pickIdx_spec h
  omega

theorem pickAux_pos_full {excl : List Sym} :
    ∀ {l : List Sym} {pos : Nat} {sym : Sym} {nxt : Nat},
      pickAux excl l pos = some (sym, nxt) →
      ∃ j, ∃ hj : j < l.length, l.get ⟨j, hj⟩ = sym ∧ nxt = pos + j + 1
        ∧ sym ∉ excl ∧ ∀ i (hi : i < j), l.get ⟨i, by omega⟩ ∈ excl := by
  intro l
  induction l with
  | nil => intro pos sym nxt h; simp [pickAux] at h
  | cons x xs ih =>
    intro pos sym nxt h
    simp only [pickAux] at h
    split at h
    · rename_i hx
      obtain ⟨j, hj, h1, h2, h3, h4⟩ := ih h
      refine ⟨j + 1, by simpa using hj, by simpa using h1, by omega, h3, ?_⟩
      intro i hi
      cases i with
      | zero => simpa using hx
      | succ i => simpa using h4 i (by omega)
    · rename_i hx
      simp only [Option.some.injEq, Prod.mk.injEq] at h
      obtain ⟨rfl, rfl⟩ := h
      exact ⟨0, by simp, rfl, by omega, hx, by omega⟩

theorem pickAux_none_iff {excl : List Sym} :
    ∀ {l : List Sym} {pos : Nat},
      pickAux excl l pos = none ↔ ∀ s ∈ l, s ∈ excl := by
  intro l
  induction l with
  | nil => intro pos; simp [pickAux]
  | cons x xs ih =>
    intro pos
    simp only [pickAux]
    by_cases hx : x ∈ excl
    · rw [if_pos hx, ih]
      simp [hx]
    · rw [if_neg hx]
      simp [hx]

theorem pickIdx_spec_full {pl : List Sym} {beg : Nat} {excl : List Sym}
    {sym : Sym} {nxt : Nat} (h : pickIdx pl beg excl = some (sym, nxt)) :
    ∃ p, ∃ hp : p < pl.length, beg ≤ p ∧ pl.get ⟨p, hp⟩ = sym ∧ nxt = p + 1
      ∧ sym ∉ excl ∧ ∀ i, beg ≤ i → ∀ hi : i < p, pl.get ⟨i, by omega⟩ ∈ excl := by
  obtain ⟨j, hj, h1, h2, h3, h4⟩ := pickAux_pos_full h
  have hlen : j < pl.length - beg := by simpa using hj
  refine ⟨beg + j, by omega, by omega, ?_, by omega, h3, ?_⟩
  · rw [← h1]
    simp only [List.get_eq_getElem]
    rw [List.getElem_drop]
  · intro i hbi hi
    have := h4 (i - beg) (by omega)
    have hg : (pl.drop beg).get ⟨i - beg, by omega⟩ = pl.get ⟨i, by omega⟩ := by
      simp only [List.get_eq_getElem]
      rw [List.getElem_drop]
      congr 1
      omega
    rw [hg] at this
    exact this

theorem pickIdx_none_iff {pl : List Sym} {beg : Nat} {excl : List Sym} :
    pickIdx pl beg excl = none ↔ ∀ s ∈ pl.drop beg, s ∈ excl :=
  pickAux_none_iff

theorem pickIdx_nil_excl {pl : List Sym} {b : Nat} :
    pickIdx pl b [] = if h : b < pl.length
      then some (pl.get ⟨b, h⟩, b + 1) else none := by
  split <;> rename_i h
  · unfold pickIdx
    rw [List.drop_eq_getElem_cons h]
    simp [pickAux]
  · unfold pickIdx
    rw [List.drop_eq_nil_of_le (by omega)]
    rfl

/-- The excluded symbols of a pool are exactly its prefix before position s:
the assumption under which explicit start indices reproduce excl-skipping. -/
def ExclPrefix (pl : List Sym) (s : Nat) (excl : List Sym) : Prop :=
  ∀ i (hi : i < pl.length), pl.get ⟨i, hi⟩ ∈ excl ↔ i < s

theorem mem_drop_of_le {α : Type} (l : List α) {b i : Nat}
    (hi : i < l.length) (hbi : b ≤ i) : l.get ⟨i, hi⟩ ∈ l.drop b := by
  have h2 : i - b < (l.drop b).length := by simp; omega
  have he : (l.drop b).get ⟨i - b, h2⟩ = l.get ⟨i, hi⟩ := by
    simp only [List.get_eq_getElem]
    rw [List.getElem_drop]
    congr 1
    omega
  rw [← he]
  exact List.get_mem _ _ _

theorem pickIdx_excl_eq_le {pl : List Sym} {s : Nat} {excl : List Sym}
    (hpfx : ExclPrefix pl s excl) {b : Nat} (hb : b ≤ s) :
    pickIdx pl b excl = pickIdx pl s [] := by
  rcases hres : pickIdx pl b excl with _ | ⟨sym, nxt⟩
  · rw [pickIdx_none_iff] at hres
    rw [pickIdx_nil_excl]
    have hlen : pl.length ≤ s := by
      by_contra hcon
      push_neg at hcon
      have hbs : b < pl.length := by omega
      rcases Nat.lt_or_ge s pl.length with hsl | hsl
      · have hdrop : pl.get ⟨s, hsl⟩ ∈ pl.drop b := mem_drop_of_le pl hsl hb
        have := hres _ hdrop
        rw [hpfx s hsl] at this
        omega
      · omega
    rw [dif_neg (by omega)]
  · obtain ⟨p, hp, hbp, hget, hnxt, hadm, hpre⟩ := pickIdx_spec_full hres
    have hps : p ≥ s := by
      by_contra hcon
      push_neg at hcon
      have := (hpfx p hp).mpr hcon
      rw [hget] at this
      exact hadm this
    have hps2 : p ≤ s := by
      by_contra hcon
      push_neg at hcon
      have hsp : s < pl.length := by omega
      have := hpre s hb hcon
      rw [hpfx s hsp] at this
      omega
    have hps3 : p = s := by omega
    subst hps3
    rw [pickIdx_nil_excl, dif_pos hp, ← hget, hnxt]

theorem pickIdx_excl_eq_ge {pl : List Sym} {s : Nat} {excl : List Sym}
    (hpfx : ExclPrefix pl s excl) {b : Nat} (hb : s ≤ b) :
    pickIdx pl b excl = pickIdx pl b [] := by
  rcases hres : pickIdx pl b excl with _ | ⟨sym, nxt⟩
  · rw [pickIdx_none_iff] at hres
    rw [pickIdx_nil_excl]
    have hlen : pl.length ≤ b := by
      by_contra hcon
      push_neg at hcon
      have hdrop : pl.get ⟨b, hcon⟩ ∈ pl.drop b :=
        mem_drop_of_le pl hcon (le_refl b)
      have := hres _ hdrop
      rw [hpfx b hcon] at this
      omega
    rw [dif_neg (by omega)]
  · obtain ⟨p, hp, hbp, hget, hnxt, hadm, hpre⟩ := pickIdx_spec_full hres
    have hpb : p = b := by
      by_contra hcon
      have hbb : b < pl.length := by omega
      have := hpre b (le_refl b) (by omega)
      rw [hpfx b hbb] at this
      omega
    subst hpb
    rw [pickIdx_nil_excl, dif_pos hp, ← hget, hnxt]

/-- Every entry of the assignment list built by resetLoop binds a dummy of
the processed sums to a pool symbol of its range drawn at a position inside
the window between the initial and the final per-range indices. -/
theorem resetLoop_assigned (pools : List (Range × List Sym)) (excl : List Sym) :
    ∀ {sums : List (Sym × Range)} {B : List (Range × Nat)}
      {al : List (Sym × Sym)} {B' : List (Range × Nat)},
      resetLoop pools excl sums B = some (al, B') →
      (∀ r, ((B.lookup r).getD 0 : Nat) ≤ (B'.lookup r).getD 0)
      ∧ ∀ q ∈ al, ∃ r, ∃ p, ∃ hp : p < ((pools.lookup r).getD []).length,
          (q.1, r) ∈ sums ∧ ((pools.lookup r).getD []).get ⟨p, hp⟩ = q.2
          ∧ (B.lookup r).getD 0 ≤ p ∧ p < (B'.lookup r).getD 0 := by
  intro sums
  induction sums with
  | nil =>
    intro B al B' h
    simp only [resetLoop, Option.some.injEq, Prod.mk.injEq] at h
    obtain ⟨rfl, rfl⟩ := h
    exact ⟨fun r => le_refl _, by simp⟩
  | cons b rest ih =>
    obtain ⟨d, r0⟩ := b
    intro B al B' h
    simp only [resetLoop] at h
    rcases hpick : pickIdx ((pools.lookup r0).getD [])
        ((B.lookup r0).getD 0) excl with _ | ⟨sym, nxt⟩
    · rw [hpick] at h; cases h
    · rw [hpick] at h
      dsimp only at h
      rcases hloop : resetLoop pools excl rest ((r0, nxt) :: B)
          with _ | ⟨al1, B1⟩
      · rw [hloop] at h; cases h
      · rw [hloop] at h
        simp only [Option.some.injEq, Prod.mk.injEq] at h
        obtain ⟨rfl, rfl⟩ := h
        obtain ⟨ihmono, ihq⟩ := ih hloop
        have hcons : ∀ r, ((B.lookup r).getD 0 : Nat)
            ≤ (((r0, nxt) :: B).lookup r).getD 0 := by
          intro r
          by_cases hr : r = r0
          · subst hr
            rw [lookup_cons_eq]
            exact le_of_lt (pickIdx_lt hpick)
          · rw [lookup_cons_ne hr]
        refine ⟨fun r => le_trans (hcons r) (ihmono r), ?_⟩
        intro q hq
        rcases List.mem_cons.mp hq with rfl | hq'
        · obtain ⟨p, hp, hbeg, hget, hnxt, _⟩ := pickIdx_spec hpick
          refine ⟨r0, p, hp, by simp, hget, hbeg, ?_⟩
          have h1 : ((((r0, nxt) :: B).lookup r0).getD 0 : Nat)
              ≤ (B1.lookup r0).getD 0 := ihmono r0
          rw [lookup_cons_eq] at h1
          simp only [Option.getD_some] at h1
          omega
        · obtain ⟨r, p, hp, hmem, hget, hlow, hhigh⟩ := ihq q hq'
          exact ⟨r, p, hp, by simp [hmem], hget, le_trans (hcons r) hlow, hhigh⟩

theorem lookup_mem {α β : Type} [BEq α] [LawfulBEq α] :
    ∀ {l : List (α × β)} {k : α} {v : β}, l.lookup k = some v → (k, v) ∈ l := by
  intro l
  induction l with
  | nil => intro k v h; simp [List.lookup] at h
  | cons e rest ih =>
    obtain ⟨a, b⟩ := e
    intro k v h
    simp only [List.lookup] at h
    rcases hab : (k == a) with _ | _
    · rw [hab] at h
      exact List.mem_cons_of_mem _ (ih h)
    · rw [hab] at h
      simp only [Option.some.injEq] at h
      have : k = a := by simpa using hab
      simp [this, h]

theorem lookup_some_of_mem_keys {α β : Type} [BEq α] [LawfulBEq α] :
    ∀ {l : List (α × β)} {k : α}, k ∈ l.map Prod.fst →
      ∃ v, l.lookup k = some v := by
  intro l
  induction l with
  | nil => intro k h; simp at h
  | cons e rest ih =>
    obtain ⟨a, b⟩ := e
    intro k h
    by_cases hk : k = a
    · subst hk
      exact ⟨b, lookup_cons_eq k b rest⟩
    · rw [lookup_cons_ne hk]
      refine ih ?_
      simp only [List.map_cons, List.mem_cons] at h
      rcases h with h | h
      · exact absurd h hk
      · exact h

theorem nodup_keys_mem_inj {α β : Type} :
    ∀ {l : List (α × β)}, (l.map Prod.fst).Nodup →
      ∀ {k : α} {v1 v2 : β}, (k, v1) ∈ l → (k, v2) ∈ l → v1 = v2 := by
  intro l
  induction l with
  | nil => intro _ k v1 v2 h; simp at h
  | cons e rest ih =>
    obtain ⟨a, b⟩ := e
    intro hnd k v1 v2 h1 h2
    have hnd' := List.nodup_cons.mp hnd
    rcases List.mem_cons.mp h1 with he1 | h1'
    · rcases List.mem_cons.mp h2 with he2 | h2'
      · rw [Prod.mk.injEq] at he1 he2
        rw [he1.2, he2.2]
      · exfalso
        have : k = a := (Prod.mk.injEq _ _ _ _ |>.mp he1).1
        subst this
        exact hnd'.1 (List.mem_map.mpr ⟨(k, v2), h2', rfl⟩)
    · rcases List.mem_cons.mp h2 with he2 | h2'
      · exfalso
        have : k = a := (Prod.mk.injEq _ _ _ _ |>.mp he2).1
        subst this
        exact hnd'.1 (List.mem_map.mpr ⟨(k, v1), h1', rfl⟩)
      · exact ih hnd'.2 h1' h2'

theorem resetLoop_keys (pools : List (Range × List Sym)) (excl : List Sym) :
    ∀ {sums : List (Sym × Range)} {B : List (Range × Nat)}
      {al : List (Sym × Sym)} {B' : List (Range × Nat)},
      resetLoop pools excl sums B = some (al, B') →
      al.map Prod.fst = sums.map Prod.fst := by
  intro sums
  induction sums with
  | nil =>
    intro B al B' h
    simp only [resetLoop, Option.some.injEq, Prod.mk.injEq] at h
    simp [← h.1]
  | cons b rest ih =>
    obtain ⟨d, r0⟩ := b
    intro B al B' h
    simp only [resetLoop] at h
    rcases hpick : pickIdx ((pools.lookup r0).getD [])
        ((B.lookup r0).getD 0) excl with _ | ⟨sym, nxt⟩
    · rw [hpick] at h; cases h
    · rw [hpick] at h
      dsimp only at h
      rcases hloop : resetLoop pools excl rest ((r0, nxt) :: B)
          with _ | ⟨al1, B1⟩
      · rw [hloop] at h; cases h
      · rw [hloop] at h
        simp only [Option.some.injEq, Prod.mk.injEq] at h
        obtain ⟨rfl, rfl⟩ := h
        simp [ih hloop]

/-- Per-range state relation of the excl-vs-starts equivalence: the plain
run sits exactly at the exclusion boundary until a range is first used, and
the two runs agree afterwards. -/
def StateRel (S B1 B2 : List (Range × Nat)) : Prop :=
  ∀ r : Range, ((B1.lookup r).getD 0 ≤ (S.lookup r).getD 0
      ∧ (B2.lookup r).getD 0 = (S.lookup r).getD 0)
    ∨ ((B1.lookup r).getD 0 = (B2.lookup r).getD 0
      ∧ (S.lookup r).getD 0 ≤ (B1.lookup r).getD 0)

theorem resetLoop_excl_starts (pools : List (Range × List Sym))
    (excl : List Sym) (S : List (Range × Nat))
    (hpfx : ∀ r : Range,
      ExclPrefix ((pools.lookup r).getD []) ((S.lookup r).getD 0) excl) :
    ∀ (sums : List (Sym × Range)) (B1 B2 : List (Range × Nat)),
      StateRel S B1 B2 →
      (resetLoop pools excl sums B1).map Prod.fst
        = (resetLoop pools [] sums B2).map Prod.fst := by
  intro sums
  induction sums with
  | nil => intro B1 B2 _; rfl
  | cons b rest ih =>
    obtain ⟨d, r0⟩ := b
    intro B1 B2 hrel
    have hsame : pickIdx ((pools.lookup r0).getD []) ((B1.lookup r0).getD 0) excl
        = pickIdx ((pools.lookup r0).getD []) ((B2.lookup r0).getD 0) [] := by
      rcases hrel r0 with ⟨h1, h2⟩ | ⟨h1, h2⟩
      · rw [pickIdx_excl_eq_le (hpfx r0) h1, h2]
      · rw [pickIdx_excl_eq_ge (hpfx r0) h2, h1]
    simp only [resetLoop]
    rcases hpick : pickIdx ((pools.lookup r0).getD [])
        ((B1.lookup r0).getD 0) excl with _ | ⟨sym, nxt⟩
    · rw [hsame] at hpick
      rw [hpick]
    · have hpick2 := hpick
      rw [hsame] at hpick2
      rw [hpick2]
      dsimp only
      have hrel' : StateRel S ((r0, nxt) :: B1) ((r0, nxt) :: B2) := by
        intro r
        by_cases hr : r = r0
        · subst hr
          rw [lookup_cons_eq, lookup_cons_eq]
          right
          refine ⟨rfl, ?_⟩
          simp only [Option.getD_some]
          have hlt := pickIdx_lt hpick2
          rcases hrel r with ⟨h1, h2⟩ | ⟨h1, h2⟩
          · omega
          · omega
        · rw [lookup_cons_ne hr, lookup_cons_ne hr]
          exact hrel r
      have := ih ((r0, nxt) :: B1) ((r0, nxt) :: B2) hrel'
      rcases hl1 : resetLoop pools excl rest ((r0, nxt) :: B1)
          with _ | ⟨al1, C1⟩ <;>
        rcases hl2 : resetLoop pools [] rest ((r0, nxt) :: B2)
          with _ | ⟨al2, C2⟩ <;>
        rw [hl1, hl2] at this
      all_goals simp_all

/-- The number of admissible symbols left in a pool at or past a position. -/
def admCount (pl : List Sym) (beg : Nat) (excl : List Sym) : Nat :=
  ((pl.drop beg).filter (fun s => decide (s ∉ excl))).length

theorem pickAux_count {excl : List Sym} :
    ∀ {l : List Sym} {pos : Nat} {sym : Sym} {nxt : Nat},
      pickAux excl l pos = some (sym, nxt) →
      (l.filter (fun s => decide (s ∉ excl))).length
        = 1 + ((l.drop (nxt - pos)).filter (fun s => decide (s ∉ excl))).length := by
  intro l
  induction l with
  | nil => intro pos sym nxt h; simp [pickAux] at h
  | cons x xs ih =>
    intro pos sym nxt h
    simp only [pickAux] at h
    split at h
    · rename_i hx
      have hge : pos + 2 ≤ nxt := by
        obtain ⟨j, hj, _, h2, _⟩ := pickAux_pos h
        omega
      have := ih h
      have hdrop : (x :: xs).drop (nxt - pos) = xs.drop (nxt - (pos + 1)) := by
        have : nxt - pos = (nxt - (pos + 1)) + 1 := by omega
        rw [this]
        rfl
      rw [hdrop]
      simp only [List.filter_cons]
      rw [if_neg (by simpa using hx)]
      omega
    · rename_i hx
      simp only [Option.some.injEq, Prod.mk.injEq] at h
      obtain ⟨rfl, rfl⟩ := h
      have : pos + 1 - pos = 1 := by omega
      rw [this]
      simp only [List.drop_one, List.filter_cons]
      rw [if_pos (by simpa using hx)]
      simp only [List.tail_cons, List.length_cons]
      omega

theorem pickIdx_count {pl : List Sym} {beg : Nat} {excl : List Sym}
    {sym : Sym} {nxt : Nat} (h : pickIdx pl beg excl = some (sym, nxt)) :
    admCount pl beg excl = 1 + admCount pl nxt excl := by
  have h1 := pickAux_count h
  have h2 := pickIdx_lt h
  have h3 : beg + (nxt - beg) = nxt := by omega
  unfold admCount
  rw [h1, List.drop_drop, h3]

theorem resetLoop_exhausted (pools : List (Range × List Sym))
    (excl : List Sym) (r : Range) :
    ∀ (sums : List (Sym × Range)) (B : List (Range × Nat)),
      admCount ((pools.lookup r).getD []) ((B.lookup r).getD 0) excl
        < (sums.filter (fun q => q.2 == r)).length →
      resetLoop pools excl sums B = none := by
  intro sums
  induction sums with
  | nil => intro B h; simp at h
  | cons b rest ih =>
    obtain ⟨d, r0⟩ := b
    intro B h
    simp only [resetLoop]
    rcases hpick : pickIdx ((pools.lookup r0).getD [])
        ((B.lookup r0).getD 0) excl with _ | ⟨sym, nxt⟩
    · rfl
    · dsimp only
      rw [ih ((r0, nxt) :: B) ?_]
      by_cases hr : r0 = r
      · subst hr
        rw [lookup_cons_eq]
        simp only [Option.getD_some]
        have hc := pickIdx_count hpick
        have hcnt : ((((d, r0) :: rest).filter (fun q => q.2 == r0)).length)
            = 1 + (rest.filter (fun q => q.2 == r0)).length := by
          simp [List.filter_cons]
          omega
        rw [hcnt] at h
        omega
      · rw [lookup_cons_ne (fun hc => hr hc.symm)]
        have hcnt : (((d, r0) :: rest).filter (fun q => q.2 == r)).length
            = (rest.filter (fun q => q.2 == r)).length := by
          simp only [List.filter_cons]
          rw [if_neg (by simpa using hr)]
        rw [hcnt] at h
        exact h

/-- ExclPrefix over a concrete pool is decidable, the quantifier being
bounded by the pool length. -/
instance (pl : List Sym) (s : Nat) (excl : List Sym) :
    Decidable (ExclPrefix pl s excl) :=
  decidable_of_iff (∀ i : Fin pl.length, pl.get i ∈ excl ↔ i.1 < s)
    ⟨fun h i hi => h ⟨i, hi⟩, fun h i => h i.1 i.2⟩

/-- The symbols drawn in one resetLoop run are pairwise distinct whenever the
per-range pools repeat no symbol and are pairwise disjoint: each draw advances
the per-range index past the position it drew from. -/
theorem resetLoop_syms_nodup (pools : List (Range × List Sym))
    (excl : List Sym)
    (hnd : ∀ r : Range, ((pools.lookup r).getD []).Nodup)
    (hdisj : ∀ r1 r2 : Range, r1 ≠ r2 → ∀ s : Sym,
      s ∈ (pools.lookup r1).getD [] → s ∉ (pools.lookup r2).getD []) :
    ∀ {sums : List (Sym × Range)} {B : List (Range × Nat)}
      {al : List (Sym × Sym)} {B' : List (Range × Nat)},
      resetLoop pools excl sums B = some (al, B') →
      (al.map Prod.snd).Nodup := by
  intro sums
  induction sums with
  | nil =>
    intro B al B' h
    simp only [resetLoop, Option.some.injEq, Prod.mk.injEq] at h
    simp [← h.1]
  | cons b rest ih =>
    obtain ⟨d, r0⟩ := b
    intro B al B' h
    simp only [resetLoop] at h
    rcases hpick : pickIdx ((pools.lookup r0).getD [])
        ((B.lookup r0).getD 0) excl with _ | ⟨sym, nxt⟩
    · rw [hpick] at h; cases h
    · rw [hpick] at h
      dsimp only at h
      rcases hloop : resetLoop pools excl rest ((r0, nxt) :: B)
          with _ | ⟨al1, B1⟩
      · rw [hloop] at h; cases h
      · rw [hloop] at h
        simp only [Option.some.injEq, Prod.mk.injEq] at h
        obtain ⟨rfl, rfl⟩ := h
        simp only [List.map_cons, List.nodup_cons]
        refine ⟨?_, ih hloop⟩
        intro hmem
        obtain ⟨q, hq, hq2⟩ := List.mem_map.mp hmem
        obtain ⟨_, spec⟩ := resetLoop_assigned pools excl hloop
        obtain ⟨r, p, hp, _, hget, hlo, _⟩ := spec q hq
        obtain ⟨p0, hp0, _, hget0, hnxt0, _⟩ := pickIdx_spec hpick
        by_cases hr : r = r0
        · subst hr
          rw [lookup_cons_eq] at hlo
          simp only [Option.getD_some] at hlo
          have heq : ((pools.lookup r).getD []).get ⟨p, hp⟩
              = ((pools.lookup r).getD []).get ⟨p0, hp0⟩ := by
            rw [hget, hget0, hq2]
          have hfin := (List.Nodup.get_inj_iff (hnd r)).mp heq
          have hpp : p = p0 := by simpa using congrArg Fin.val hfin
          omega
        · have hm1 : q.2 ∈ (pools.lookup r).getD [] := by
            rw [← hget]; exact List.get_mem _ _ _
          have hm2 : sym ∈ (pools.lookup r0).getD [] := by
            rw [← hget0]; exact List.get_mem _ _ _
          rw [hq2] at hm1
          exact hdisj r0 r (fun he => hr he.symm) sym hm2 hm1

/-- C7: reset_dumms rebinds each dummy of the term, in encounter order across
the sums, to the next admissible symbol of its range's pool, and returns the
per-range next indices with the new term; (1) explicit start indices sitting
exactly past the excluded pool prefixes reproduce the rebinding of the
excl-skipping run, (2) a second pass started from the returned per-range
indices draws symbols wholly distinct from those of the first pass, so the
chained rebinding has no collision, and (3) when a range's pool has fewer
admissible symbols than the term has dummies of that range, the call fails
with the ExhaustedPoolError kind. -/
theorem c7_reset_dumms (t u : Term) (pools : List (Range × List Sym))
    (excl : List Sym) (S : List (Range × Nat))
    (hpfx : ∀ r : Range,
      ExclPrefix ((pools.lookup r).getD []) ((S.lookup r).getD 0) excl)
    (hnd : ∀ r : Range, ((pools.lookup r).getD []).Nodup)
    (hdisj : ∀ r1 r2 : Range, r1 ≠ r2 → ∀ s : Sym,
      s ∈ (pools.lookup r1).getD [] → s ∉ (pools.lookup r2).getD []) :
    ((reset_dumms t pools [] excl).map Prod.fst
        = (reset_dumms t pools S []).map Prod.fst)
    ∧ (∀ B al1 B1 al2 B2,
        resetLoop pools excl t.sums B = some (al1, B1) →
        resetLoop pools excl u.sums B1 = some (al2, B2) →
        ((al1 ++ al2).map Prod.snd).Nodup)
    ∧ (∀ r : Range,
        admCount ((pools.lookup r).getD []) 0 excl
            < (t.sums.filter (fun q => q.2 == r)).length →
        reset_dumms t pools [] excl = .error .exhaustedPool) := by
  refine ⟨?_, ?_, ?_⟩
  · have hrel : StateRel S [] S := by
      intro r
      left
      exact ⟨Nat.zero_le _, rfl⟩
    have key := resetLoop_excl_starts pools excl S hpfx t.sums [] S hrel
    unfold reset_dumms
    rcases h1 : resetLoop pools excl t.sums [] with _ | ⟨al1, b1⟩ <;>
      rcases h2 : resetLoop pools [] t.sums S with _ | ⟨al2, b2⟩ <;>
      rw [h1, h2] at key <;>
      simp_all [Except.map]
  · intro B al1 B1 al2 B2 h1 h2
    rw [List.map_append, List.nodup_append]
    refine ⟨resetLoop_syms_nodup pools excl hnd hdisj h1,
      resetLoop_syms_nodup pools excl hnd hdisj h2, ?_⟩
    intro s hs1 hs2
    obtain ⟨q1, hq1, rfl⟩ := List.mem_map.mp hs1
    obtain ⟨q2, hq2, he2⟩ := List.mem_map.mp hs2
    obtain ⟨_, spec1⟩ := resetLoop_assigned pools excl h1
    obtain ⟨_, spec2⟩ := resetLoop_assigned pools excl h2
    obtain ⟨r1, p1, hp1, _, hget1, _, hhi1⟩ := spec1 q1 hq1
    obtain ⟨r2, p2, hp2, _, hget2, hlo2, _⟩ := spec2 q2 hq2
    by_cases hr : r1 = r2
    · subst hr
      have hlt : p1 < p2 := lt_of_lt_of_le hhi1 hlo2
      have heq : ((pools.lookup r1).getD []).get ⟨p1, hp1⟩
          = ((pools.lookup r1).getD []).get ⟨p2, hp2⟩ := by
        rw [hget1, hget2, he2]
      have hfin := (List.Nodup.get_inj_iff (hnd r1)).mp heq
      have hpp : p1 = p2 := by simpa using congrArg Fin.val hfin
      omega
    · have hm1 : q1.2 ∈ (pools.lookup r1).getD [] := by
        rw [← hget1]; exact List.get_mem _ _ _
      have hm2 : q2.2 ∈ (pools.lookup r2).getD [] := by
        rw [← hget2]; exact List.get_mem _ _ _
      rw [he2] at hm2
      exact hdisj r1 r2 hr q1.2 hm1 hm2
  · intro r hcnt
    have hz : admCount ((pools.lookup r).getD [])
        ((([] : List (Range × Nat)).lookup r).getD 0) excl
        < (t.sums.filter (fun q => q.2 == r)).length := by simpa using hcnt
    unfold reset_dumms
    rw [resetLoop_exhausted pools excl r t.sums [] hz]

/-- The reset_dumms scenario of the term tests: range R draws from the pool
[w, i, j, k] (w = 111) with w excluded, and the explicit start index 1 sits
right past the excluded prefix. -/
def c7pools : List (Range × List Sym) := [(rngR, [111, 0, 1, 2])]

def c7excl : List Sym := [111]

def c7S : List (Range × Nat) := [(rngR, 1)]

/-- sum_{i,j,k in R} x[i,j]*y[j,k]*v[i]*v[k], the matrix-product term. -/
def fxC7 : Term :=
  ⟨[(0, rngR), (1, rngR), (2, rngR)],
    [(1, [Atom.idx 102 false [0, 1], Atom.idx 103 false [1, 2]])],
    [⟨200, [0]⟩, ⟨200, [2]⟩]⟩

/-- Concrete reset of the matrix-product term: excluding w from the pool and
starting explicitly past w give the same rebound term. -/
theorem c7_reset_dumms_witness :
    (reset_dumms fxC7 c7pools [] c7excl).map Prod.fst
      = (reset_dumms fxC7 c7pools c7S []).map Prod.fst :=
  (c7_reset_dumms fxC7 fxC7 c7pools c7excl c7S
    (by
      intro r
      by_cases hr : r = rngR
      · subst hr; decide
      · simp only [c7pools]
        rw [lookup_cons_ne hr _ _]
        intro i hi
        simp at hi)
    (by
      intro r
      by_cases hr : r = rngR
      · subst hr; decide
      · simp only [c7pools]
        rw [lookup_cons_ne hr _ _]
        simp)
    (by
      intro r1 r2 h12 s hs1
      by_cases hr1 : r1 = rngR
      · subst hr1
        have hr2 : r2 ≠ rngR := Ne.symm h12
        simp only [c7pools]
        rw [lookup_cons_ne hr2 _ _]
        simp
      · simp only [c7pools] at hs1
        rw [lookup_cons_ne hr1 _ _] at hs1
        simp at hs1)).1

/-- Modelled from the spec: renaming of the bound dummies of a term — the
renaming is applied to the binder names and to every symbol occurrence in the
amplitude and the vector factors, with each dummy keeping its range. -/
def relabel (f : Sym → Sym) (t : Term) : Term :=
  ⟨t.sums.map (fun b => (f b.1, b.2)), ampMap f t.amp, vecsMap f t.vecs⟩

theorem lookup_eq_none_of_not_mem_keys {α β : Type} [BEq α] [LawfulBEq α] :
    ∀ {l : List (α × β)} {k : α}, k ∉ l.map Prod.fst → l.lookup k = none := by
  intro l
  induction l with
  | nil => intro k _; rfl
  | cons e rest ih =>
    obtain ⟨a, b⟩ := e
    intro k h
    simp only [List.map_cons, List.mem_cons, not_or] at h
    rw [lookup_cons_ne h.1 _ _]
    exact ih h.2

/-- A permutation of a mapped list is the map of a permutation of the
original list. -/
theorem exists_perm_of_perm_map {α β : Type} (g : α → β) :
    ∀ {l1 m : List β}, l1.Perm m →
      ∀ l2 : List α, m = l2.map g →
        ∃ l0 : List α, l0.Perm l2 ∧ l1 = l0.map g := by
  intro l1 m h
  induction h with
  | nil =>
    intro l2 hm
    cases l2 with
    | nil => exact ⟨[], List.Perm.nil, rfl⟩
    | cons a t => simp at hm
  | cons x hperm ih =>
    intro l2 hm
    cases l2 with
    | nil => simp at hm
    | cons a t =>
      simp only [List.map_cons, List.cons.injEq] at hm
      obtain ⟨h1, h2⟩ := hm
      obtain ⟨l0, hp, he⟩ := ih t h2
      exact ⟨a :: l0, hp.cons a, by simp [h1, he]⟩
  | swap x y l =>
    intro l2 hm
    cases l2 with
    | nil => simp at hm
    | cons a t =>
      cases t with
      | nil => simp at hm
      | cons b t2 =>
        simp only [List.map_cons, List.cons.injEq] at hm
        obtain ⟨h1, h2, h3⟩ := hm
        exact ⟨b :: a :: t2, List.Perm.swap a b t2, by simp [h1, h2, h3]⟩
  | trans h1 h2 ih1 ih2 =>
    intro l2 hm
    obtain ⟨l0, hp0, he0⟩ := ih2 l2 hm
    obtain ⟨l00, hp00, he00⟩ := ih1 l0 he0
    exact ⟨l00, hp00.trans hp0, he00⟩

/-- The canonical assignment walks only the binder ranges, so renaming the
binder names renames its keys and leaves its pool values untouched. -/
theorem canonAssign_map (pool : Range → Nat → Sym) (f : Sym → Sym) :
    ∀ (σ : List (Sym × Range)) (cnt : List (Range × Nat)),
      canonAssign pool (σ.map (fun b => (f b.1, b.2))) cnt
        = (canonAssign pool σ cnt).map (fun q => (f q.1, q.2)) := by
  intro σ
  induction σ with
  | nil => intro cnt; rfl
  | cons b rest ih =>
    obtain ⟨d, r⟩ := b
    intro cnt
    simp only [List.map_cons, canonAssign]
    rw [ih]

theorem canonAssign_keys (pool : Range → Nat → Sym) :
    ∀ (σ : List (Sym × Range)) (cnt : List (Range × Nat)),
      (canonAssign pool σ cnt).map Prod.fst = σ.map Prod.fst := by
  intro σ
  induction σ with
  | nil => intro cnt; rfl
  | cons b rest ih =>
    obtain ⟨d, r⟩ := b
    intro cnt
    simp [canonAssign, ih]

theorem lookup_map_inj {β : Type} (f : Sym → Sym) :
    ∀ (al : List (Sym × β)) (s : Sym),
      (∀ a ∈ al.map Prod.fst, ∀ b ∈ al.map Prod.fst, f a = f b → a = b) →
      s ∈ al.map Prod.fst →
      (al.map (fun q => (f q.1, q.2))).lookup (f s) = al.lookup s := by
  intro al
  induction al with
  | nil => intro s _ hs; simp at hs
  | cons e rest ih =>
    obtain ⟨a, v⟩ := e
    intro s hinj hs
    by_cases hsa : s = a
    · subst hsa
      simp only [List.map_cons]
      rw [lookup_cons_eq, lookup_cons_eq]
    · have hfne : f s ≠ f a := fun he => hsa (hinj s hs a (by simp) he)
      simp only [List.map_cons]
      rw [lookup_cons_ne hfne _ _, lookup_cons_ne hsa _ _]
      refine ih s (fun x hx y hy => hinj x (by simp [hx]) y (by simp [hy])) ?_
      simp only [List.map_cons, List.mem_cons] at hs
      rcases hs with h | h
      · exact absurd h hsa
      · exact h

theorem lookup_map_not_key {β : Type} (f : Sym → Sym) :
    ∀ (al : List (Sym × β)) (s : Sym),
      (∀ d ∈ al.map Prod.fst, s ≠ f d) →
      (al.map (fun q => (f q.1, q.2))).lookup s = none := by
  intro al
  induction al with
  | nil => intro s _; rfl
  | cons e rest ih =>
    obtain ⟨a, v⟩ := e
    intro s h
    simp only [List.map_cons]
    rw [lookup_cons_ne (h a (by simp)) _ _]
    exact ih s (fun d hd => h d (by simp [hd]))

theorem atomBase_atomMap (f : Sym → Sym) (a : Atom) :
    atomBase (atomMap f a) = atomBase a := by
  cases a <;> rfl

theorem filterMap_atomBase_monoMap (f : Sym → Sym) (m : Mono) :
    (monoMap f m).filterMap atomBase = m.filterMap atomBase := by
  unfold monoMap
  rw [List.filterMap_map]
  have hfun : (atomBase ∘ atomMap f) = atomBase :=
    funext (fun a => atomBase_atomMap f a)
  rw [hfun]

/-- Renaming index symbols leaves the scalar bases of the amplitude, and
hence its symmetric-base list, untouched. -/
theorem symBases_ampMap (symms : List (Nat × List SymOp)) (f : Sym → Sym)
    (A : Amp) : symBases symms (ampMap f A) = symBases symms A := by
  unfold symBases
  have hcat : catMap (fun p => p.2.filterMap atomBase) (ampMap f A)
      = catMap (fun p => p.2.filterMap atomBase) A := by
    induction A with
    | nil => rfl
    | cons p rest ih =>
      simp only [ampMap, List.map_cons, catMap] at ih ⊢
      rw [ih, filterMap_atomBase_monoMap]
  rw [hcat]

/-- The candidate renaming of a symbol is unchanged by an injective
capture-avoiding relabeling of the dummies: keys are re-routed through the
relabeling, free occurring symbols are fixed and never captured. -/
theorem candAssign_relabel (pool : Range → Nat → Sym) (f : Sym → Sym)
    (σ : List (Sym × Range))
    (hinj : ∀ a ∈ σ.map Prod.fst, ∀ b ∈ σ.map Prod.fst, f a = f b → a = b) :
    ∀ s, (s ∈ σ.map Prod.fst ∨ (f s = s ∧ ∀ d ∈ σ.map Prod.fst, s ≠ f d)) →
      candAssign pool (σ.map (fun b => (f b.1, b.2))) (f s)
        = candAssign pool σ s := by
  intro s hs
  unfold candAssign assignFun
  rw [canonAssign_map]
  rcases hs with hs | ⟨hfs, hcap⟩
  · have hkeys := canonAssign_keys pool σ ([] : List (Range × Nat))
    have hlk := lookup_map_inj f (canonAssign pool σ []) s
      (by rw [hkeys]; exact hinj) (by rw [hkeys]; exact hs)
    rw [hlk]
    obtain ⟨v, hv⟩ := lookup_some_of_mem_keys
      (show s ∈ (canonAssign pool σ []).map Prod.fst by rw [hkeys]; exact hs)
    rw [hv]
    rfl
  · rw [hfs]
    have h1 : (canonAssign pool σ []).lookup s = none := by
      apply lookup_eq_none_of_not_mem_keys
      rw [canonAssign_keys]
      intro hmem
      exact (hcap s hmem) hfs.symm
    have h2 : ((canonAssign pool σ []).map
        (fun q => (f q.1, q.2))).lookup s = none := by
      apply lookup_map_not_key
      intro d hd
      rw [canonAssign_keys] at hd
      exact hcap d hd
    rw [h1, h2]

/-- A candidate built over relabeled dummies coincides with the candidate
built over the original names: the canonical pool names erase the renaming. -/
theorem candTerm_relabel (pool : Range → Nat → Sym) (f : Sym → Sym)
    (amp : Amp) (vecs : List VecF) (σ : List (Sym × Range))
    (γ : List (Nat × SymOp))
    (hinj : ∀ a ∈ σ.map Prod.fst, ∀ b ∈ σ.map Prod.fst, f a = f b → a = b)
    (hfix : ∀ s, (s ∈ ampSyms amp ∨ s ∈ vecsSyms vecs) →
        s ∉ σ.map Prod.fst → f s = s)
    (hcap : ∀ s, (s ∈ ampSyms amp ∨ s ∈ vecsSyms vecs) →
        s ∉ σ.map Prod.fst → ∀ d ∈ σ.map Prod.fst, s ≠ f d) :
    candTerm pool (ampMap f amp) (vecsMap f vecs)
        (σ.map (fun b => (f b.1, b.2))) γ
      = candTerm pool amp vecs σ γ := by
  have hpt : ∀ s, (s ∈ σ.map Prod.fst ∨ s ∈ ampSyms amp ∨ s ∈ vecsSyms vecs) →
      candAssign pool (σ.map (fun b => (f b.1, b.2))) (f s)
        = candAssign pool σ s := by
    intro s hs
    by_cases hd : s ∈ σ.map Prod.fst
    · exact candAssign_relabel pool f σ hinj s (Or.inl hd)
    · rcases hs with hs | hs
      · exact absurd hs hd
      · exact candAssign_relabel pool f σ hinj s
          (Or.inr ⟨hfix s hs hd, hcap s hs hd⟩)
  unfold candTerm
  simp only [Term.mk.injEq]
  refine ⟨?_, ?_, ?_⟩
  · rw [List.map_map]
    refine List.map_congr_left (fun b hb => ?_)
    simp only [Function.comp]
    rw [hpt b.1 (Or.inl (List.mem_map.mpr ⟨b, hb, rfl⟩))]
  · rw [ampMap_comp,
      ampMap_congr (fun s hs => hpt s (Or.inr (Or.inl hs)))]
  · rw [vecsMap_comp,
      vecsMap_congr (fun s hs => hpt s (Or.inr (Or.inr hs)))]

/-- C2: canon is invariant under injective capture-avoiding renamings of the
bound dummies: for a renaming that is injective on the dummy names, keeps
every other symbol occurring in the amplitude or the vectors fixed, and never
maps a dummy onto such a symbol, the canonical forms of the term and of the
renamed term coincide — the canonical dummies are drawn from the per-range
pools, independently of the original names. -/
theorem c2_canon_dummy_invariance (pool : Range → Nat → Sym)
    (symms : List (Nat × List SymOp)) (t : Term) (f : Sym → Sym)
    (hch : choicesFor symms (symBases symms t.amp) ≠ [])
    (hinj : ∀ a ∈ t.sums.map Prod.fst, ∀ b ∈ t.sums.map Prod.fst,
        f a = f b → a = b)
    (hfix : ∀ s, (s ∈ ampSyms t.amp ∨ s ∈ vecsSyms t.vecs) →
        s ∉ t.sums.map Prod.fst → f s = s)
    (hcap : ∀ s, (s ∈ ampSyms t.amp ∨ s ∈ vecsSyms t.vecs) →
        s ∉ t.sums.map Prod.fst → ∀ d ∈ t.sums.map Prod.fst, s ≠ f d) :
    canon pool symms (relabel f t) = canon pool symms t := by
  have hmem : ∀ u, u ∈ candsOf pool symms (relabel f t)
      ↔ u ∈ candsOf pool symms t := by
    intro u
    rw [mem_candsOf, mem_candsOf]
    simp only [relabel]
    constructor
    · rintro ⟨σ1, hσ1, γ, hγ, rfl⟩
      obtain ⟨σ, hσ, rfl⟩ := exists_perm_of_perm_map _ hσ1 t.sums rfl
      have hkp : ∀ x, x ∈ σ.map Prod.fst ↔ x ∈ t.sums.map Prod.fst :=
        fun x => (hσ.map Prod.fst).mem_iff
      rw [symBases_ampMap] at hγ
      refine ⟨σ, hσ, γ, hγ, ?_⟩
      exact candTerm_relabel pool f t.amp t.vecs σ γ
        (fun a ha b hb he => hinj a ((hkp a).mp ha) b ((hkp b).mp hb) he)
        (fun s hs hd => hfix s hs (fun hm => hd ((hkp s).mpr hm)))
        (fun s hs hd d hdm =>
          hcap s hs (fun hm => hd ((hkp s).mpr hm)) d ((hkp d).mp hdm))
    · rintro ⟨σ, hσ, γ, hγ, rfl⟩
      have hkp : ∀ x, x ∈ σ.map Prod.fst ↔ x ∈ t.sums.map Prod.fst :=
        fun x => (hσ.map Prod.fst).mem_iff
      refine ⟨σ.map (fun b => (f b.1, b.2)), hσ.map _, γ,
        by rw [symBases_ampMap]; exact hγ, ?_⟩
      exact (candTerm_relabel pool f t.amp t.vecs σ γ
        (fun a ha b hb he => hinj a ((hkp a).mp ha) b ((hkp b).mp hb) he)
        (fun s hs hd => hfix s hs (fun hm => hd ((hkp s).mpr hm)))
        (fun s hs hd d hdm =>
          hcap s hs (fun hm => hd ((hkp s).mpr hm)) d ((hkp d).mp hdm))).symm
  obtain ⟨γ0, hγ0⟩ : ∃ γ0, γ0 ∈ choicesFor symms (symBases symms t.amp) := by
    rcases hc : choicesFor symms (symBases symms t.amp) with _ | ⟨γ0, rest⟩
    · exact absurd hc hch
    · exact ⟨γ0, by simp [hc]⟩
  have hne : candsOf pool symms t ≠ [] :=
    List.ne_nil_of_mem
      (mem_candsOf.mpr ⟨t.sums, List.Perm.refl _, γ0, hγ0, rfl⟩)
  have hne2 : candsOf pool symms (relabel f t) ≠ [] := by
    refine List.ne_nil_of_mem (mem_candsOf.mpr
      ⟨(relabel f t).sums, List.Perm.refl _, γ0, ?_, rfl⟩)
    show γ0 ∈ choicesFor symms (symBases symms (ampMap f t.amp))
    rw [symBases_ampMap]
    exact hγ0
  exact canon_congr hne2 hne hmem

/-- sum_i x[i]*v[i], with the renaming swapping i (0) with k (2). -/
def fxC2 : Term := ⟨[(0, rngR)], [(1, [Atom.idx 102 false [0]])], [⟨200, [0]⟩]⟩

def c2f : Sym → Sym := fun s => if s = 0 then 2 else if s = 2 then 0 else s

/-- Concrete dummy invariance: canonicalizing sum_k x[k]*v[k] and
sum_i x[i]*v[i] gives the same term. -/
theorem c2_canon_dummy_invariance_witness :
    canon plainPool [] (relabel c2f fxC2) = canon plainPool [] fxC2 :=
  c2_canon_dummy_invariance plainPool [] fxC2 c2f (by decide) (by decide)
    (by
      intro s hs hd
      rcases hs with hs | hs <;>
        (simp [fxC2, ampSyms, monoSyms, atomSyms, vecsSyms, catMap] at hs
         subst hs
         exact absurd (by decide) hd))
    (by
      intro s hs hd d hdm
      rcases hs with hs | hs <;>
        (simp [fxC2, ampSyms, monoSyms, atomSyms, vecsSyms, catMap] at hs
         subst hs
         exact absurd (by decide) hd))

/-- Modelled from the spec: application of one symmetry-group element g to
the indices of every factor of base B across the amplitude, folding the
accumulated NEG sign into the coefficients and the CONJ action into the
factors — the apply(T, g) of the symmetry-invariance law. -/
def applySym (B : Nat) (g : SymOp) (t : Term) : Term :=
  ⟨t.sums, ampChoice [(B, g)] t.amp, t.vecs⟩

/-- The index list of an indexed atomic factor. -/
def atomIx : Atom → List Sym
  | .idx _ _ ix => ix
  | _ => []

/-- Composition of a choice list with one group element at base B. -/
def choiceComp (B : Nat) (g : SymOp) : List (Nat × SymOp) → List (Nat × SymOp)
  | [] => []
  | (b, q) :: rest =>
    (if b = B then (b, opComp q g) else (b, q)) :: choiceComp B g rest

theorem lookup_nil {α β : Type} [BEq α] (k : α) :
    (([] : List (α × β)).lookup k) = none := rfl

instance (n : Nat) (g : SymOp) : Decidable (OpValid n g) :=
  decidable_of_iff (g.perm.length = n ∧ ∀ k ∈ g.perm, k < n) Iff.rfl

theorem choiceComp_keys (B : Nat) (g : SymOp) :
    ∀ γ : List (Nat × SymOp),
      (choiceComp B g γ).map Prod.fst = γ.map Prod.fst := by
  intro γ
  induction γ with
  | nil => rfl
  | cons p rest ih =>
    obtain ⟨b, q⟩ := p
    by_cases hb : b = B <;> simp [choiceComp, hb, ih]

theorem lookup_choiceComp_eq (B : Nat) (g : SymOp) :
    ∀ γ : List (Nat × SymOp),
      (choiceComp B g γ).lookup B = (γ.lookup B).map (fun q => opComp q g) := by
  intro γ
  induction γ with
  | nil => rfl
  | cons p rest ih =>
    obtain ⟨b, q⟩ := p
    simp only [choiceComp]
    by_cases hb : b = B
    · subst hb
      rw [if_pos rfl, lookup_cons_eq, lookup_cons_eq]
      rfl
    · rw [if_neg hb, lookup_cons_ne (fun h => hb h.symm) _ _,
        lookup_cons_ne (fun h => hb h.symm) _ _]
      exact ih

theorem lookup_choiceComp_ne (B : Nat) (g : SymOp) (b : Nat) (hb : b ≠ B) :
    ∀ γ : List (Nat × SymOp), (choiceComp B g γ).lookup b = γ.lookup b := by
  intro γ
  induction γ with
  | nil => rfl
  | cons p rest ih =>
    obtain ⟨b0, q⟩ := p
    simp only [choiceComp]
    by_cases hb0 : b0 = B
    · rw [if_pos hb0]
      have hne : b ≠ b0 := fun h => hb (h.trans hb0)
      rw [lookup_cons_ne hne _ _, lookup_cons_ne hne _ _]
      exact ih
    · rw [if_neg hb0]
      by_cases hbb : b = b0
      · subst hbb
        rw [lookup_cons_eq, lookup_cons_eq]
      · rw [lookup_cons_ne hbb _ _, lookup_cons_ne hbb _ _]
        exact ih

theorem mem_choiceComp {B : Nat} {g : SymOp} :
    ∀ {γ : List (Nat × SymOp)} {e : Nat × SymOp}, e ∈ choiceComp B g γ →
      ∃ e0 ∈ γ, e0.1 = e.1
        ∧ ((e.1 = B ∧ e.2 = opComp e0.2 g) ∨ (e.1 ≠ B ∧ e.2 = e0.2)) := by
  intro γ
  induction γ with
  | nil => intro e h; simp [choiceComp] at h
  | cons p rest ih =>
    obtain ⟨b, q⟩ := p
    intro e h
    simp only [choiceComp, List.mem_cons] at h
    rcases h with h | h
    · by_cases hb : b = B
      · rw [if_pos hb] at h
        subst h
        exact ⟨(b, q), by simp, rfl, Or.inl ⟨hb, rfl⟩⟩
      · rw [if_neg hb] at h
        subst h
        exact ⟨(b, q), by simp, rfl, Or.inr ⟨hb, rfl⟩⟩
    · obtain ⟨e0, he0, h1, h2⟩ := ih h
      exact ⟨e0, List.mem_cons_of_mem _ he0, h1, h2⟩

/-- Membership in the choice enumeration: the keys are exactly the listed
bases in order, each paired with an element of its group. -/
theorem mem_choicesFor {symms : List (Nat × List SymOp)} :
    ∀ {bases : List Nat} {γ : List (Nat × SymOp)},
      γ ∈ choicesFor symms bases ↔
        γ.map Prod.fst = bases
          ∧ ∀ e ∈ γ, e.2 ∈ ((symms.lookup e.1).getD []) := by
  intro bases
  induction bases with
  | nil =>
    intro γ
    simp only [choicesFor, List.mem_singleton]
    constructor
    · rintro rfl
      exact ⟨rfl, by simp⟩
    · rintro ⟨h, _⟩
      exact List.map_eq_nil_iff.mp h
  | cons b rest ih =>
    intro γ
    simp only [choicesFor]
    rw [mem_catMap]
    constructor
    · rintro ⟨g0, hg0, hγ⟩
      obtain ⟨γ1, hγ1, rfl⟩ := List.mem_map.mp hγ
      obtain ⟨hk, he⟩ := ih.mp hγ1
      refine ⟨by simp [hk], ?_⟩
      intro e hee
      rcases List.mem_cons.mp hee with rfl | hee1
      · simpa using hg0
      · exact he e hee1
    · rintro ⟨hk, he⟩
      cases γ with
      | nil => simp at hk
      | cons e0 γ1 =>
        obtain ⟨b0, g0⟩ := e0
        simp only [List.map_cons, List.cons.injEq] at hk
        obtain ⟨rfl, hk1⟩ := hk
        refine ⟨g0, by simpa using he (b0, g0) (by simp),
          List.mem_map.mpr ⟨γ1, ih.mpr ⟨hk1,
            fun e hee => he e (List.mem_cons_of_mem _ hee)⟩, rfl⟩⟩

theorem choiceComp_mem {symms : List (Nat × List SymOp)} {bases : List Nat}
    {γ : List (Nat × SymOp)} (B : Nat) (g : SymOp)
    (hγ : γ ∈ choicesFor symms bases)
    (hcl : ∀ a ∈ (symms.lookup B).getD [],
      opComp a g ∈ ((symms.lookup B).getD [])) :
    choiceComp B g γ ∈ choicesFor symms bases := by
  rw [mem_choicesFor] at hγ ⊢
  obtain ⟨hk, he⟩ := hγ
  refine ⟨by rw [choiceComp_keys, hk], ?_⟩
  intro e hee
  obtain ⟨e0, he0, h1, h2⟩ := mem_choiceComp hee
  rcases h2 with ⟨hB, h2⟩ | ⟨hB, h2⟩
  · have hm := he e0 he0
    rw [h1, hB] at hm
    rw [h2, hB]
    exact hcl e0.2 hm
  · have hm := he e0 he0
    rw [h1] at hm
    rw [h2]
    exact hm

theorem choiceComp_inverse {symms : List (Nat × List SymOp)} (B : Nat)
    (g g1 : SymOp) (n : Nat)
    (hval : ∀ q ∈ (symms.lookup B).getD [], OpValid n q)
    (hg1l : g1.perm.length = n) (hinv : opComp g1 g = idOp n) :
    ∀ (γ : List (Nat × SymOp)),
      (∀ e ∈ γ, e.2 ∈ ((symms.lookup e.1).getD [])) →
      choiceComp B g (choiceComp B g1 γ) = γ := by
  intro γ
  induction γ with
  | nil => intro _; rfl
  | cons p rest ih =>
    obtain ⟨b, q⟩ := p
    intro he
    have htail := ih (fun e hee => he e (List.mem_cons_of_mem _ hee))
    by_cases hb : b = B
    · subst hb
      have h1 : choiceComp b g1 ((b, q) :: rest)
          = (b, opComp q g1) :: choiceComp b g1 rest := by
        simp [choiceComp]
      have h2 : choiceComp b g ((b, opComp q g1) :: choiceComp b g1 rest)
          = (b, opComp (opComp q g1) g)
            :: choiceComp b g (choiceComp b g1 rest) := by
        simp [choiceComp]
      rw [h1, h2, htail]
      have hqm : q ∈ ((symms.lookup b).getD []) := by
        simpa using he (b, q) (by simp)
      have hqv := hval q hqm
      rw [opComp_assoc (fun k hk => by rw [hg1l]; exact hqv.2 k hk), hinv,
        opComp_id_right hqv]
    · have h1 : choiceComp B g1 ((b, q) :: rest)
          = (b, q) :: choiceComp B g1 rest := by
        simp only [choiceComp]
        rw [if_neg hb]
      have h2 : choiceComp B g ((b, q) :: choiceComp B g1 rest)
          = (b, q) :: choiceComp B g (choiceComp B g1 rest) := by
        simp only [choiceComp]
        rw [if_neg hb]
      rw [h1, h2, htail]

theorem atomBase_atomChoice (γ : List (Nat × SymOp)) (a : Atom) :
    atomBase (atomChoice γ a) = atomBase a := by
  cases a with
  | var s c => rfl
  | delta x y => rfl
  | idx b c ix =>
    rcases h : γ.lookup b with _ | g0 <;> simp [atomChoice, h, atomBase]

theorem atomChoiceSign_atomChoice (γ δ : List (Nat × SymOp)) (a : Atom) :
    atomChoiceSign γ (atomChoice δ a) = atomChoiceSign γ a := by
  cases a with
  | var s c => rfl
  | delta x y => rfl
  | idx b c ix =>
    rcases h : δ.lookup b with _ | g0 <;>
      simp [atomChoice, h, atomChoiceSign]

theorem atomChoiceSign_atomMap (γ : List (Nat × SymOp)) (f : Sym → Sym)
    (a : Atom) : atomChoiceSign γ (atomMap f a) = atomChoiceSign γ a := by
  cases a <;> rfl

theorem monoChoiceSign_map (γ : List (Nat × SymOp)) (u : Atom → Atom)
    (m : Mono) (h : ∀ a, atomChoiceSign γ (u a) = atomChoiceSign γ a) :
    monoChoiceSign γ (m.map u) = monoChoiceSign γ m := by
  induction m with
  | nil => rfl
  | cons a rest ih =>
    simp only [List.map_cons, monoChoiceSign, List.foldr_cons] at ih ⊢
    rw [h a, ih]

theorem atomChoiceSign_choiceComp (γ : List (Nat × SymOp)) (B : Nat)
    (g q : SymOp) (hq : γ.lookup B = some q) (a : Atom) :
    atomChoiceSign (choiceComp B g γ) a
      = atomChoiceSign [(B, g)] a * atomChoiceSign γ a := by
  cases a with
  | var s c => rfl
  | delta x y => rfl
  | idx b c ix =>
    by_cases hb : b = B
    · subst hb
      have h1 := lookup_choiceComp_eq b g γ
      rw [hq] at h1
      simp only [Option.map_some'] at h1
      simp [atomChoiceSign, h1, hq, lookup_cons_eq, opSign_comp, mul_comm]
    · have h1 := lookup_choiceComp_ne B g b hb γ
      rcases h2 : γ.lookup b with _ | q0 <;>
        simp [atomChoiceSign, h1, h2, lookup_cons_ne hb, lookup_nil]

theorem monoChoiceSign_choiceComp (γ : List (Nat × SymOp)) (B : Nat)
    (g q : SymOp) (hq : γ.lookup B = some q) (m : Mono) :
    monoChoiceSign (choiceComp B g γ) m
      = monoChoiceSign [(B, g)] m * monoChoiceSign γ m := by
  induction m with
  | nil => simp [monoChoiceSign]
  | cons a rest ih =>
    simp only [monoChoiceSign, List.foldr_cons] at ih ⊢
    rw [ih, atomChoiceSign_choiceComp γ B g q hq a]
    ring

theorem atomMap_atomChoice (f : Sym → Sym) (B : Nat) (g : SymOp) (n : Nat)
    (hgv : OpValid n g) (a : Atom)
    (har : atomBase a = some B → (atomIx a).length = n) :
    atomMap f (atomChoice [(B, g)] a) = atomChoice [(B, g)] (atomMap f a) := by
  cases a with
  | var s c => rfl
  | delta x y => rfl
  | idx b c ix =>
    by_cases hb : b = B
    · subst hb
      have hlen : ix.length = n := har rfl
      simp only [atomChoice, lookup_cons_eq, atomMap]
      rw [permApply_map g.perm ix f
        (fun k hk => by rw [hlen]; exact hgv.2 k hk)]
    · have h0 : (([(B, g)] : List (Nat × SymOp)).lookup b) = none :=
        (lookup_cons_ne hb g ([] : List (Nat × SymOp))).trans (lookup_nil b)
      simp only [atomChoice, atomMap, h0]

theorem atomChoice_comp (γ : List (Nat × SymOp)) (B : Nat) (g q : SymOp)
    (n : Nat) (hq : γ.lookup B = some q) (hgv : OpValid n g)
    (hqv : OpValid n q) (a : Atom) :
    atomChoice γ (atomChoice [(B, g)] a) = atomChoice (choiceComp B g γ) a := by
  cases a with
  | var s c => rfl
  | delta x y => rfl
  | idx b c ix =>
    by_cases hb : b = B
    · subst hb
      have h1 := lookup_choiceComp_eq b g γ
      rw [hq] at h1
      simp only [Option.map_some'] at h1
      simp only [atomChoice, lookup_cons_eq, hq, h1]
      simp only [Atom.idx.injEq, true_and]
      constructor
      · show xor (xor c g.conj) q.conj = xor c (xor q.conj g.conj)
        rw [Bool.xor_assoc, Bool.xor_comm g.conj q.conj]
      · exact permApply_comp q.perm g.perm ix
          (fun k hk => by rw [hgv.1]; exact hqv.2 k hk)
    · have h0 : (([(B, g)] : List (Nat × SymOp)).lookup b) = none :=
        (lookup_cons_ne hb g ([] : List (Nat × SymOp))).trans (lookup_nil b)
      have h1 := lookup_choiceComp_ne B g b hb γ
      simp only [atomChoice, h0, h1]

theorem ampMap_ampChoice (f : Sym → Sym) (B : Nat) (g : SymOp) (n : Nat)
    (hgv : OpValid n g) (A : Amp)
    (har : ∀ p ∈ A, ∀ a ∈ p.2, atomBase a = some B → (atomIx a).length = n) :
    ampMap f (ampChoice [(B, g)] A) = ampChoice [(B, g)] (ampMap f A) := by
  unfold ampMap ampChoice
  rw [List.map_map, List.map_map]
  refine List.map_congr_left (fun p hp => ?_)
  simp only [Function.comp, Prod.mk.injEq]
  constructor
  · simp only [monoMap]
    rw [monoChoiceSign_map [(B, g)] (atomMap f) p.2
      (fun a => atomChoiceSign_atomMap [(B, g)] f a)]
  · simp only [monoMap, List.map_map]
    refine List.map_congr_left (fun a ha => ?_)
    simp only [Function.comp]
    exact atomMap_atomChoice f B g n hgv a (fun hB => har p hp a ha hB)

theorem ampChoice_choiceComp (γ : List (Nat × SymOp)) (B : Nat) (g q : SymOp)
    (n : Nat) (hq : γ.lookup B = some q) (hgv : OpValid n g)
    (hqv : OpValid n q) (A : Amp) :
    ampChoice γ (ampChoice [(B, g)] A) = ampChoice (choiceComp B g γ) A := by
  unfold ampChoice
  rw [List.map_map]
  refine List.map_congr_left (fun p hp => ?_)
  simp only [Function.comp, Prod.mk.injEq]
  constructor
  · rw [monoChoiceSign_map γ (atomChoice [(B, g)]) p.2
      (fun a => atomChoiceSign_atomChoice γ [(B, g)] a),
      monoChoiceSign_choiceComp γ B g q hq p.2]
    ring
  · rw [List.map_map]
    refine List.map_congr_left (fun a ha => ?_)
    simp only [Function.comp]
    exact atomChoice_comp γ B g q n hq hgv hqv a

theorem arity_ampMap (f : Sym → Sym) (B : Nat) (n : Nat) (A : Amp)
    (har : ∀ p ∈ A, ∀ a ∈ p.2, atomBase a = some B → (atomIx a).length = n) :
    ∀ p ∈ ampMap f A, ∀ a ∈ p.2,
      atomBase a = some B → (atomIx a).length = n := by
  intro p hp a ha hB
  obtain ⟨p0, hp0, rfl⟩ := List.mem_map.mp hp
  simp only [monoMap] at ha
  obtain ⟨a0, ha0, rfl⟩ := List.mem_map.mp ha
  have hb0 : atomBase a0 = some B := by
    rw [← atomBase_atomMap f a0]
    exact hB
  have hlen := har p0 hp0 a0 ha0 hb0
  cases a0 with
  | var s c => exact absurd hb0 (by simp [atomBase])
  | delta x y => exact absurd hb0 (by simp [atomBase])
  | idx b c ix => simpa [atomMap, atomIx] using hlen

theorem filterMap_atomBase_choice (δ : List (Nat × SymOp)) (m : Mono) :
    (m.map (atomChoice δ)).filterMap atomBase = m.filterMap atomBase := by
  rw [List.filterMap_map]
  have hfun : (atomBase ∘ atomChoice δ) = atomBase :=
    funext (fun a => atomBase_atomChoice δ a)
  rw [hfun]

/-- A uniform symmetry choice leaves the scalar bases of the amplitude, and
hence its symmetric-base list, untouched. -/
theorem symBases_ampChoice (symms : List (Nat × List SymOp))
    (δ : List (Nat × SymOp)) (A : Amp) :
    symBases symms (ampChoice δ A) = symBases symms A := by
  unfold symBases
  have hcat : catMap (fun p => p.2.filterMap atomBase) (ampChoice δ A)
      = catMap (fun p => p.2.filterMap atomBase) A := by
    induction A with
    | nil => rfl
    | cons p rest ih =>
      simp only [ampChoice, List.map_cons, catMap] at ih ⊢
      rw [ih, filterMap_atomBase_choice]
  rw [hcat]

/-- A candidate of the g-transformed amplitude is a candidate of the original
amplitude under the choice composed with g at base B. -/
theorem candTerm_applyChoice (pool : Range → Nat → Sym) (amp : Amp)
    (vecs : List VecF) (σ : List (Sym × Range)) (γ : List (Nat × SymOp))
    (B : Nat) (g q : SymOp) (n : Nat)
    (hq : γ.lookup B = some q) (hgv : OpValid n g) (hqv : OpValid n q)
    (har : ∀ p ∈ amp, ∀ a ∈ p.2,
      atomBase a = some B → (atomIx a).length = n) :
    candTerm pool (ampChoice [(B, g)] amp) vecs σ γ
      = candTerm pool amp vecs σ (choiceComp B g γ) := by
  unfold candTerm
  simp only [Term.mk.injEq]
  refine ⟨trivial, ?_, trivial⟩
  rw [ampMap_ampChoice (candAssign pool σ) B g n hgv amp har,
    ampChoice_choiceComp γ B g q n hq hgv hqv]

/-- C3: canon is invariant under the declared symmetries — applying a group
element g of base B to the amplitude (indices permuted, NEG folded into the
coefficients, CONJ into the factors) does not change the canonical form,
provided G is a closed group of shape-valid elements with an inverse for g
and B occurs symmetrically; and when no symmetry group is supplied for B, no
candidate choice ever permutes the argument indices of a B-factor. -/
theorem c3_canon_symmetry_invariance (pool : Range → Nat → Sym)
    (symms : List (Nat × List SymOp)) (t : Term) (B : Nat) (G : List SymOp)
    (g g1 : SymOp) (n : Nat)
    (har : ∀ p ∈ t.amp, ∀ a ∈ p.2,
      atomBase a = some B → (atomIx a).length = n)
    (hch : choicesFor symms (symBases symms t.amp) ≠ []) :
    (symms.lookup B = some G → g ∈ G → g1 ∈ G →
      (∀ q ∈ G, OpValid n q) → (∀ a ∈ G, ∀ b ∈ G, opComp a b ∈ G) →
      opComp g1 g = idOp n → B ∈ symBases symms t.amp →
      canon pool symms (applySym B g t) = canon pool symms t)
    ∧ (symms.lookup B = none →
      ∀ γ ∈ choicesFor symms (symBases symms t.amp), ∀ c ix,
        atomChoice γ (Atom.idx B c ix) = Atom.idx B c ix) := by
  constructor
  · intro hG hg hg1 hval hcl hinv hBmem
    have hGd : (symms.lookup B).getD [] = G := by rw [hG]; rfl
    have hsymb : symBases symms (ampChoice [(B, g)] t.amp)
        = symBases symms t.amp := symBases_ampChoice symms [(B, g)] t.amp
    have hmem : ∀ u, u ∈ candsOf pool symms (applySym B g t)
        ↔ u ∈ candsOf pool symms t := by
      intro u
      rw [mem_candsOf, mem_candsOf]
      simp only [applySym]
      constructor
      · rintro ⟨σ, hσ, γ, hγ, rfl⟩
        rw [hsymb] at hγ
        obtain ⟨hk, hent⟩ := mem_choicesFor.mp hγ
        obtain ⟨q, hqlk⟩ := lookup_some_of_mem_keys
          (show B ∈ γ.map Prod.fst by rw [hk]; exact hBmem)
        have hqG : q ∈ G := by
          have := hent (B, q) (lookup_mem hqlk)
          rwa [hGd] at this
        refine ⟨σ, hσ, choiceComp B g γ,
          choiceComp_mem B g hγ
            (by rw [hGd]; exact fun a ha => hcl a ha g hg), ?_⟩
        exact candTerm_applyChoice pool t.amp t.vecs σ γ B g q n hqlk
          (hval g hg) (hval q hqG) har
      · rintro ⟨σ, hσ, γ, hγ, rfl⟩
        obtain ⟨hk, hent⟩ := mem_choicesFor.mp hγ
        obtain ⟨q, hqlk⟩ := lookup_some_of_mem_keys
          (show B ∈ γ.map Prod.fst by rw [hk]; exact hBmem)
        have hqG : q ∈ G := by
          have := hent (B, q) (lookup_mem hqlk)
          rwa [hGd] at this
        have hδmem : choiceComp B g1 γ
            ∈ choicesFor symms (symBases symms t.amp) :=
          choiceComp_mem B g1 hγ
            (by rw [hGd]; exact fun a ha => hcl a ha g1 hg1)
        have hδlk : (choiceComp B g1 γ).lookup B = some (opComp q g1) := by
          rw [lookup_choiceComp_eq B g1 γ, hqlk]
          rfl
        have happ := candTerm_applyChoice pool t.amp t.vecs σ
          (choiceComp B g1 γ) B g (opComp q g1) n hδlk (hval g hg)
          (opComp_valid (hval q hqG) (hval g1 hg1)) har
        have hcc : choiceComp B g (choiceComp B g1 γ) = γ :=
          choiceComp_inverse B g g1 n (by rw [hGd]; exact hval)
            (hval g1 hg1).1 hinv γ hent
        rw [hcc] at happ
        refine ⟨σ, hσ, choiceComp B g1 γ, by rw [hsymb]; exact hδmem, ?_⟩
        exact happ.symm
    obtain ⟨γ0, hγ0⟩ : ∃ γ0, γ0 ∈ choicesFor symms (symBases symms t.amp) := by
      rcases hc : choicesFor symms (symBases symms t.amp) with _ | ⟨γ0, rest⟩
      · exact absurd hc hch
      · exact ⟨γ0, by simp [hc]⟩
    have hne : candsOf pool symms t ≠ [] :=
      List.ne_nil_of_mem
        (mem_candsOf.mpr ⟨t.sums, List.Perm.refl _, γ0, hγ0, rfl⟩)
    have hne2 : candsOf pool symms (applySym B g t) ≠ [] := by
      refine List.ne_nil_of_mem (mem_candsOf.mpr
        ⟨(applySym B g t).sums, List.Perm.refl _, γ0, ?_, rfl⟩)
      show γ0 ∈ choicesFor symms (symBases symms (ampChoice [(B, g)] t.amp))
      rw [hsymb]
      exact hγ0
    exact canon_congr hne2 hne hmem
  · intro hnone γ hγ c ix
    obtain ⟨hk, -⟩ := mem_choicesFor.mp hγ
    have hB : B ∉ symBases symms t.amp := by
      intro hmem
      unfold symBases at hmem
      rw [List.mem_filter, hnone] at hmem
      simp at hmem
    have hlk : γ.lookup B = none :=
      lookup_eq_none_of_not_mem_keys (by rw [hk]; exact hB)
    simp only [atomChoice, hlk]

/-- m[i,j]*v[i]*v[j] over a common range, with m antisymmetric. -/
def fxC3 : Term :=
  ⟨[(0, rngR), (1, rngR)], [(1, [Atom.idx 100 false [0, 1]])],
    [⟨200, [0]⟩, ⟨200, [1]⟩]⟩

/-- Concrete symmetry invariance: applying the swap-with-NEG generator of
the antisymmetric base m before canonicalizing changes nothing. -/
theorem c3_canon_symmetry_invariance_witness :
    canon plainPool fxSymms (applySym 100 swapNeg fxC3)
      = canon plainPool fxSymms fxC3 :=
  (c3_canon_symmetry_invariance plainPool fxSymms fxC3 100 grpM swapNeg
    swapNeg 2 (by decide) (by decide)).1 (by decide) (by decide) (by decide)
    (by decide) (by decide) (by decide) (by decide)

theorem oseq_assoc (a b c : Ordering) : oseq (oseq a b) c = oseq a (oseq b c) := by
  cases a <;> rfl

theorem oseq_right_eq (a : Ordering) : oseq a .eq = a := by
  cases a <;> rfl

/-- The structural part of a singleton-amplitude term key: summations, then
vector factors, then the monomial — everything except the coefficient. -/
def strK (S : List (Sym × Range)) (m : Mono) (V : List VecF) : K :=
  K.node (listK bindK S) (K.node (listK vecK V) (monoK m))

/-- Comparison of singleton-amplitude terms: the structural parts decide,
and the coefficients break the final tie. -/
theorem kcmp_termK_singleton (S1 S2 : List (Sym × Range)) (V1 V2 : List VecF)
    (y1 y2 : Int) (m1 m2 : Mono) :
    kcmp (termK ⟨S1, [(y1, m1)], V1⟩) (termK ⟨S2, [(y2, m2)], V2⟩)
      = oseq (kcmp (strK S1 m1 V1) (strK S2 m2 V2)) (icmp y1 y2) := by
  simp only [termK, strK, ampK, listK, pairK, kcmp, oseq_right_eq]
  rw [oseq_assoc, oseq_assoc]

theorem strK_inj {S1 S2 : List (Sym × Range)} {V1 V2 : List VecF}
    {m1 m2 : Mono} (h : strK S1 m1 V1 = strK S2 m2 V2) :
    S1 = S2 ∧ m1 = m2 ∧ V1 = V2 := by
  simp only [strK, K.node.injEq] at h
  exact ⟨listK_inj bindK (fun _ _ => bindK_inj) h.1,
    monoK_inj h.2.2, listK_inj vecK (fun _ _ => vecK_inj) h.2.1⟩

theorem kle_refl {α : Type} (key : α → K) (x : α) : KLe key x x := by
  unfold KLe
  rw [kcmp_self]
  simp

theorem canon_le {pool : Range → Nat → Sym} {symms : List (Nat × List SymOp)}
    {t u : Term} (hu : u ∈ candsOf pool symms t) :
    kcmp (termK (canon pool symms t)) (termK u) ≠ .gt := by
  unfold canon
  rcases h : candsOf pool symms t with _ | ⟨c, rest⟩
  · rw [h] at hu; cases hu
  · rw [h] at hu
    show kcmp (termK (pickMin termK c rest)) (termK u) ≠ .gt
    rcases List.mem_cons.mp hu with he | hu1
    · rw [he]
      exact (pickMin_le termK c rest).1
    · exact (pickMin_le termK c rest).2 u hu1

theorem canon_mem_cands {pool : Range → Nat → Sym}
    {symms : List (Nat × List SymOp)} {t : Term}
    (hne : candsOf pool symms t ≠ []) :
    canon pool symms t ∈ candsOf pool symms t := by
  unfold canon
  rcases h : candsOf pool symms t with _ | ⟨c, rest⟩
  · exact absurd h hne
  · show pickMin termK c rest ∈ c :: rest
    rcases pickMin_mem termK c rest with h2 | h2
    · rw [h2]; simp
    · simp [h2]

theorem canon_eq_of_min {pool : Range → Nat → Sym}
    {symms : List (Nat × List SymOp)} {t : Term}
    (hmem : t ∈ candsOf pool symms t)
    (hmin : ∀ u ∈ candsOf pool symms t,
      kcmp (termK t) (termK u) ≠ .gt) :
    canon pool symms t = t := by
  have h1 := canon_le hmem
  have h2 : canon pool symms t ∈ candsOf pool symms t :=
    canon_mem_cands (List.ne_nil_of_mem hmem)
  exact termK_inj _ _ (kcmp_le_antisymm h1 (hmin _ h2))

theorem insK_perm {α : Type} (key : α → K) (x : α) :
    ∀ (l : List α), (insK key x l).Perm (x :: l) := by
  intro l
  induction l with
  | nil => exact List.Perm.refl _
  | cons y ys ih =>
    simp only [insK]
    split
    · exact (ih.cons y).trans (List.Perm.swap x y ys)
    · exact List.Perm.refl _

theorem sortK_perm_self {α : Type} (key : α → K) :
    ∀ (l : List α), (sortK key l).Perm l := by
  intro l
  induction l with
  | nil => exact List.Perm.refl _
  | cons x xs ih =>
    show (insK key x (sortK key xs)).Perm (x :: xs)
    exact (insK_perm key x _).trans (ih.cons x)

/-- Two sorted lists with an injective key that are permutations of one
another are equal: the presentation order is unique. -/
theorem chain'_perm_eq {α : Type} (key : α → K)
    (hinj : ∀ x y, key x = key y → x = y) :
    ∀ {l1 l2 : List α}, List.Chain' (KLe key) l1 →
      List.Chain' (KLe key) l2 → l1.Perm l2 → l1 = l2 := by
  intro l1
  induction l1 with
  | nil =>
    intro l2 _ _ hp
    exact hp.nil_eq
  | cons x xs ih =>
    intro l2 h1 h2 hp
    cases l2 with
    | nil => exact absurd hp.eq_nil (by simp)
    | cons y ys =>
      have hx : x ∈ y :: ys := hp.subset (by simp)
      have hy : y ∈ x :: xs := hp.symm.subset (by simp)
      have hxy : KLe key x y := by
        rcases List.mem_cons.mp hy with he | hy1
        · rw [he]
          exact kle_refl key x
        · exact (List.pairwise_cons.mp (List.chain'_iff_pairwise.mp h1)).1 y hy1
      have hyx : KLe key y x := by
        rcases List.mem_cons.mp hx with he | hx1
        · rw [he]
          exact kle_refl key y
        · exact (List.pairwise_cons.mp (List.chain'_iff_pairwise.mp h2)).1 x hx1
      have hxyeq : x = y := hinj _ _ (kcmp_le_antisymm hxy hyx)
      subst hxyeq
      have hp1 : xs.Perm ys := (List.perm_cons x).mp hp
      have ht1 : List.Chain' (KLe key) xs := List.Chain'.tail h1
      have ht2 : List.Chain' (KLe key) ys := List.Chain'.tail h2
      rw [ih ht1 ht2 hp1]

theorem sortK_perm {α : Type} (key : α → K)
    (hinj : ∀ x y, key x = key y → x = y) {l1 l2 : List α}
    (hp : l1.Perm l2) : sortK key l1 = sortK key l2 :=
  chain'_perm_eq key hinj (chain'_sortK key l1) (chain'_sortK key l2)
    ((sortK_perm_self key l1).trans (hp.trans (sortK_perm_self key l2).symm))

theorem normMono_perm {m1 m2 : Mono} (hp : m1.Perm m2) :
    normMono m1 = normMono m2 :=
  sortK_perm atomK (fun _ _ => atomK_inj) (hp.map normAtom)

theorem normalize_singleton (c : Int) (m : Mono) (hc : c ≠ 0) :
    normalize [(c, m)] = [(c, normMono m)] := by
  show insAdd c (normMono m) [] = _
  simp [insAdd, hc]

theorem normAtom_delta_comm (u v : Sym) :
    normAtom (.delta u v) = normAtom (.delta v u) := by
  simp only [normAtom]
  by_cases h1 : u ≤ v
  · by_cases h2 : v ≤ u
    · have : u = v := le_antisymm h1 h2
      subst this
      simp
    · rw [if_pos h1, if_neg h2]
  · have h2 : v ≤ u := le_of_not_le h1
    rw [if_neg h1, if_pos h2]

theorem normAtom_atomMap_normAtom (f : Sym → Sym) (a : Atom) :
    normAtom (atomMap f (normAtom a)) = normAtom (atomMap f a) := by
  cases a with
  | var s c => rfl
  | idx b c ix => rfl
  | delta x y =>
    simp only [normAtom]
    by_cases h : x ≤ y
    · rw [if_pos h]
    · rw [if_neg h]
      exact (normAtom_delta_comm (f y) (f x)).trans rfl

theorem atomChoice_delta (γ : List (Nat × SymOp)) (x y : Sym) :
    atomChoice γ (.delta x y) = .delta x y := rfl

theorem normAtom_choice_map_normAtom (γ : List (Nat × SymOp)) (f : Sym → Sym)
    (a : Atom) :
    normAtom (atomChoice γ (atomMap f (normAtom a)))
      = normAtom (atomChoice γ (atomMap f a)) := by
  cases a with
  | var s c => rfl
  | idx b c ix => rfl
  | delta x y =>
    have h1 : atomChoice γ (atomMap f (normAtom (Atom.delta x y)))
        = atomMap f (normAtom (Atom.delta x y)) := by
      simp only [normAtom]
      split <;> rfl
    rw [h1]
    exact normAtom_atomMap_normAtom f (Atom.delta x y)

/-- The transformed-and-renormalized monomial of a candidate depends on the
input monomial only through its normal form. -/
theorem candMono_of_normMono (f : Sym → Sym) (γ : List (Nat × SymOp))
    (m : Mono) :
    normMono ((monoMap f (normMono m)).map (atomChoice γ))
      = normMono ((monoMap f m).map (atomChoice γ)) := by
  have hp : (normMono m).Perm (m.map normAtom) := sortK_perm_self atomK _
  have hp2 : ((monoMap f (normMono m)).map (atomChoice γ)).Perm
      ((monoMap f (m.map normAtom)).map (atomChoice γ)) :=
    ((hp.map (atomMap f)).map (atomChoice γ))
  rw [normMono_perm hp2]
  unfold monoMap normMono
  simp only [List.map_map]
  congr 1
  refine List.map_congr_left (fun a _ => ?_)
  exact normAtom_choice_map_normAtom γ f a

theorem atomChoiceSign_normAtom (γ : List (Nat × SymOp)) (a : Atom) :
    atomChoiceSign γ (normAtom a) = atomChoiceSign γ a := by
  cases a with
  | var s c => rfl
  | idx b c ix => rfl
  | delta x y =>
    simp only [normAtom]
    split <;> rfl

theorem monoChoiceSign_eq_prod (γ : List (Nat × SymOp)) (m : Mono) :
    monoChoiceSign γ m = (m.map (atomChoiceSign γ)).prod := by
  induction m with
  | nil => rfl
  | cons a rest ih =>
    simp only [monoChoiceSign, List.foldr_cons] at ih ⊢
    rw [ih, List.map_cons, List.prod_cons]

theorem monoChoiceSign_perm (γ : List (Nat × SymOp)) {m1 m2 : Mono}
    (hp : m1.Perm m2) : monoChoiceSign γ m1 = monoChoiceSign γ m2 := by
  rw [monoChoiceSign_eq_prod, monoChoiceSign_eq_prod]
  exact (hp.map _).prod_eq

/-- The sign of a candidate depends on the input monomial only through its
normal form. -/
theorem candSign_of_normMono (f : Sym → Sym) (γ : List (Nat × SymOp))
    (m : Mono) :
    monoChoiceSign γ (monoMap f (normMono m))
      = monoChoiceSign γ (monoMap f m) := by
  have hp : (normMono m).Perm (m.map normAtom) := sortK_perm_self atomK _
  unfold monoMap
  rw [monoChoiceSign_perm γ (hp.map (atomMap f))]
  rw [monoChoiceSign_eq_prod, monoChoiceSign_eq_prod]
  simp only [List.map_map]
  congr 1
  refine List.map_congr_left (fun a _ => ?_)
  simp only [Function.comp]
  rw [atomChoiceSign_atomMap, atomChoiceSign_normAtom,
    ← atomChoiceSign_atomMap γ f a]

theorem atomChoiceSign_pm (γ : List (Nat × SymOp)) (a : Atom) :
    atomChoiceSign γ a = 1 ∨ atomChoiceSign γ a = -1 := by
  cases a with
  | var s c => exact Or.inl rfl
  | delta x y => exact Or.inl rfl
  | idx b c ix =>
    simp only [atomChoiceSign]
    rcases h : γ.lookup b with _ | g
    · exact Or.inl rfl
    · show opSign g = 1 ∨ opSign g = -1
      unfold opSign
      by_cases hn : g.neg
      · rw [if_pos hn]
        exact Or.inr rfl
      · rw [if_neg hn]
        exact Or.inl rfl

theorem monoChoiceSign_pm (γ : List (Nat × SymOp)) (m : Mono) :
    monoChoiceSign γ m = 1 ∨ monoChoiceSign γ m = -1 := by
  induction m with
  | nil => exact Or.inl rfl
  | cons a rest ih =>
    show atomChoiceSign γ a * monoChoiceSign γ rest = 1
      ∨ atomChoiceSign γ a * monoChoiceSign γ rest = -1
    rcases atomChoiceSign_pm γ a with h | h <;> rcases ih with h2 | h2 <;>
      rw [h, h2] <;> simp

theorem monoChoiceSign_ne_zero (γ : List (Nat × SymOp)) (m : Mono) :
    monoChoiceSign γ m ≠ 0 := by
  rcases monoChoiceSign_pm γ m with h | h <;> rw [h] <;> decide

/-- Closed form of a candidate over a singleton amplitude. -/
theorem candTerm_singleton (pool : Range → Nat → Sym) (y : Int) (m : Mono)
    (vecs : List VecF) (σ : List (Sym × Range)) (γ : List (Nat × SymOp))
    (hy : y ≠ 0) :
    candTerm pool [(y, m)] vecs σ γ
      = ⟨σ.map (fun b => (candAssign pool σ b.1, b.2)),
          [(y * monoChoiceSign γ (monoMap (candAssign pool σ) m),
            normMono ((monoMap (candAssign pool σ) m).map (atomChoice γ)))],
          vecsMap (candAssign pool σ) vecs⟩ := by
  unfold candTerm
  simp only [Term.mk.injEq]
  refine ⟨trivial, ?_, trivial⟩
  have h1 : ampChoice γ (ampMap (candAssign pool σ) [(y, m)])
      = [(y * monoChoiceSign γ (monoMap (candAssign pool σ) m),
          (monoMap (candAssign pool σ) m).map (atomChoice γ))] := rfl
  rw [h1, normalize_singleton _ _
    (mul_ne_zero hy (monoChoiceSign_ne_zero γ _))]

theorem candTerm_zero (pool : Range → Nat → Sym) (m : Mono)
    (vecs : List VecF) (σ : List (Sym × Range)) (γ : List (Nat × SymOp)) :
    candTerm pool [(0, m)] vecs σ γ
      = ⟨σ.map (fun b => (candAssign pool σ b.1, b.2)), [],
          vecsMap (candAssign pool σ) vecs⟩ := by
  unfold candTerm
  simp only [Term.mk.injEq]
  refine ⟨trivial, ?_, trivial⟩
  have h1 : ampChoice γ (ampMap (candAssign pool σ) [(0, m)])
      = [(0 * monoChoiceSign γ (monoMap (candAssign pool σ) m),
          (monoMap (candAssign pool σ) m).map (atomChoice γ))] := rfl
  rw [h1]
  show insAdd _ _ [] = []
  rw [zero_mul]
  simp [insAdd]

theorem lookup_map_val {α β : Type} [BEq α] [LawfulBEq α] (F : α → β → β) :
    ∀ (l : List (α × β)) (k : α),
      (l.map (fun e => (e.1, F e.1 e.2))).lookup k = (l.lookup k).map (F k) := by
  intro l
  induction l with
  | nil => intro k; rfl
  | cons e rest ih =>
    obtain ⟨a, b⟩ := e
    intro k
    by_cases hk : k = a
    · subst hk
      simp only [List.map_cons]
      rw [lookup_cons_eq, lookup_cons_eq]
      rfl
    · simp only [List.map_cons]
      rw [lookup_cons_ne hk _ _, lookup_cons_ne hk _ _]
      exact ih k

/-- Left composition with the outer choice's element at one base, when the
outer choice carries that base. -/
def opMulAt (γ2 : List (Nat × SymOp)) (b : Nat) (q : SymOp) : SymOp :=
  match γ2.lookup b with
  | some q2 => opComp q2 q
  | none => q

/-- Pointwise composition of two per-base choices: at every base of the
inner choice, the outer element (if any) is composed on the left. -/
def choiceMul (γ2 γ1 : List (Nat × SymOp)) : List (Nat × SymOp) :=
  γ1.map (fun e => (e.1, opMulAt γ2 e.1 e.2))

theorem lookup_choiceMul (γ2 γ1 : List (Nat × SymOp)) (b : Nat) :
    (choiceMul γ2 γ1).lookup b = (γ1.lookup b).map (opMulAt γ2 b) :=
  lookup_map_val (opMulAt γ2) γ1 b

theorem atomChoice_mul (γ2 γ1 : List (Nat × SymOp)) (a : Atom)
    (hsub : ∀ b, γ1.lookup b = none → γ2.lookup b = none)
    (hvv : ∀ b q1 q2, γ1.lookup b = some q1 → γ2.lookup b = some q2 →
      ∀ k ∈ q2.perm, k < q1.perm.length) :
    atomChoice γ2 (atomChoice γ1 a) = atomChoice (choiceMul γ2 γ1) a := by
  cases a with
  | var s c => rfl
  | delta x y => rfl
  | idx b c ix =>
    have hlk := lookup_choiceMul γ2 γ1 b
    rcases h1 : γ1.lookup b with _ | q1
    · have h2 := hsub b h1
      rw [h1] at hlk
      simp only [Option.map_none'] at hlk
      simp only [atomChoice, h1, h2, hlk]
    · rw [h1] at hlk
      simp only [Option.map_some'] at hlk
      unfold opMulAt at hlk
      rcases h2 : γ2.lookup b with _ | q2
      · rw [h2] at hlk
        dsimp only at hlk
        simp only [atomChoice, h1, h2, hlk]
      · rw [h2] at hlk
        dsimp only at hlk
        simp only [atomChoice, h1, h2, hlk]
        simp only [Atom.idx.injEq, true_and]
        constructor
        · show xor (xor c q1.conj) q2.conj = xor c (xor q2.conj q1.conj)
          rw [Bool.xor_assoc, Bool.xor_comm q1.conj q2.conj]
        · exact permApply_comp q2.perm q1.perm ix (hvv b q1 q2 h1 h2)

theorem atomChoiceSign_mul (γ2 γ1 : List (Nat × SymOp)) (a : Atom)
    (hsub : ∀ b, γ1.lookup b = none → γ2.lookup b = none) :
    atomChoiceSign (choiceMul γ2 γ1) a
      = atomChoiceSign γ2 a * atomChoiceSign γ1 a := by
  cases a with
  | var s c => simp [atomChoiceSign]
  | delta x y => simp [atomChoiceSign]
  | idx b c ix =>
    have hlk := lookup_choiceMul γ2 γ1 b
    rcases h1 : γ1.lookup b with _ | q1
    · have h2 := hsub b h1
      rw [h1] at hlk
      simp only [Option.map_none'] at hlk
      simp [atomChoiceSign, h1, h2, hlk]
    · rw [h1] at hlk
      simp only [Option.map_some'] at hlk
      unfold opMulAt at hlk
      rcases h2 : γ2.lookup b with _ | q2
      · rw [h2] at hlk
        dsimp only at hlk
        simp [atomChoiceSign, h1, h2, hlk]
      · rw [h2] at hlk
        dsimp only at hlk
        simp [atomChoiceSign, h1, h2, hlk, opSign_comp]

theorem monoChoiceSign_mul (γ2 γ1 : List (Nat × SymOp)) (m : Mono)
    (hsub : ∀ b, γ1.lookup b = none → γ2.lookup b = none) :
    monoChoiceSign (choiceMul γ2 γ1) m
      = monoChoiceSign γ2 m * monoChoiceSign γ1 m := by
  induction m with
  | nil => simp [monoChoiceSign]
  | cons a rest ih =>
    simp only [monoChoiceSign, List.foldr_cons] at ih ⊢
    rw [ih, atomChoiceSign_mul γ2 γ1 a hsub]
    ring

theorem choiceMul_mem {symms : List (Nat × List SymOp)} {bases : List Nat}
    {γ1 : List (Nat × SymOp)} (γ2 : List (Nat × SymOp))
    (h1 : γ1 ∈ choicesFor symms bases)
    (h2 : ∀ e ∈ γ2, e.2 ∈ ((symms.lookup e.1).getD []))
    (hcl : ∀ b : Nat, ∀ a ∈ (symms.lookup b).getD [],
      ∀ c ∈ (symms.lookup b).getD [],
      opComp a c ∈ ((symms.lookup b).getD [])) :
    choiceMul γ2 γ1 ∈ choicesFor symms bases := by
  rw [mem_choicesFor] at h1 ⊢
  obtain ⟨hk, he⟩ := h1
  constructor
  · rw [← hk]
    unfold choiceMul
    rw [List.map_map]
    exact List.map_congr_left (fun e _ => rfl)
  · intro e hee
    obtain ⟨e0, he0, rfl⟩ := List.mem_map.mp hee
    have hm := he e0 he0
    show opMulAt γ2 e0.1 e0.2 ∈ ((symms.lookup e0.1).getD [])
    unfold opMulAt
    rcases h2l : γ2.lookup e0.1 with _ | q2
    · exact hm
    · have hq2 := h2 (e0.1, q2) (lookup_mem h2l)
      simp only at hq2
      exact hcl e0.1 q2 hq2 e0.2 hm

theorem atomMap_atomChoice_full (f : Sym → Sym) (γ : List (Nat × SymOp))
    (a : Atom)
    (har : ∀ b g, atomBase a = some b → γ.lookup b = some g →
      ∀ k ∈ g.perm, k < (atomIx a).length) :
    atomMap f (atomChoice γ a) = atomChoice γ (atomMap f a) := by
  cases a with
  | var s c => rfl
  | delta x y => rfl
  | idx b c ix =>
    rcases h : γ.lookup b with _ | g
    · simp only [atomChoice, atomMap, h]
    · simp only [atomChoice, atomMap, h]
      rw [permApply_map g.perm ix f (har b g rfl h)]

theorem monoMap_map_choice (f : Sym → Sym) (γ : List (Nat × SymOp)) (m : Mono)
    (har : ∀ a ∈ m, ∀ b g, atomBase a = some b → γ.lookup b = some g →
      ∀ k ∈ g.perm, k < (atomIx a).length) :
    monoMap f (m.map (atomChoice γ)) = (monoMap f m).map (atomChoice γ) := by
  unfold monoMap
  rw [List.map_map, List.map_map]
  refine List.map_congr_left (fun a ha => ?_)
  simp only [Function.comp]
  exact atomMap_atomChoice_full f γ a (har a ha)

/-- The choice picking the identity element of every base's arity. -/
def idChoice (arity : Nat → Nat) (bases : List Nat) : List (Nat × SymOp) :=
  bases.map (fun b => (b, idOp (arity b)))

theorem lookup_idChoice (arity : Nat → Nat) (b : Nat) :
    ∀ bases : List Nat, (idChoice arity bases).lookup b
      = if b ∈ bases then some (idOp (arity b)) else none := by
  intro bases
  induction bases with
  | nil => simp [idChoice]
  | cons b0 rest ih =>
    simp only [idChoice, List.map_cons]
    by_cases hb : b = b0
    · subst hb
      rw [lookup_cons_eq]
      simp
    · rw [lookup_cons_ne hb _ _]
      simp only [idChoice] at ih
      rw [ih]
      by_cases hm : b ∈ rest
      · rw [if_pos hm, if_pos (by simp [hm])]
      · rw [if_neg hm, if_neg (by simp [hb, hm])]

theorem atomChoice_idChoice (arity : Nat → Nat) (bases : List Nat) (a : Atom)
    (har : ∀ b, atomBase a = some b → (atomIx a).length = arity b) :
    atomChoice (idChoice arity bases) a = a := by
  cases a with
  | var s c => rfl
  | delta x y => rfl
  | idx b c ix =>
    simp only [atomChoice, lookup_idChoice]
    by_cases hb : b ∈ bases
    · rw [if_pos hb]
      have hlen : ix.length = arity b := har b rfl
      show Atom.idx b (xor c false) (permApply (List.range (arity b)) ix)
        = Atom.idx b c ix
      rw [permApply_id (arity b) ix hlen, Bool.xor_false]
    · rw [if_neg hb]

theorem atomChoiceSign_idChoice (arity : Nat → Nat) (bases : List Nat)
    (a : Atom) : atomChoiceSign (idChoice arity bases) a = 1 := by
  cases a with
  | var s c => rfl
  | delta x y => rfl
  | idx b c ix =>
    simp only [atomChoiceSign, lookup_idChoice]
    by_cases hb : b ∈ bases
    · rw [if_pos hb]
      rfl
    · rw [if_neg hb]

theorem monoChoiceSign_idChoice (arity : Nat → Nat) (bases : List Nat)
    (m : Mono) : monoChoiceSign (idChoice arity bases) m = 1 := by
  induction m with
  | nil => rfl
  | cons a rest ih =>
    show atomChoiceSign (idChoice arity bases) a
        * monoChoiceSign (idChoice arity bases) rest = 1
    rw [atomChoiceSign_idChoice, ih, one_mul]

theorem idChoice_mem (symms : List (Nat × List SymOp)) (arity : Nat → Nat)
    (bases : List Nat)
    (hid : ∀ b ∈ bases, idOp (arity b) ∈ ((symms.lookup b).getD [])) :
    idChoice arity bases ∈ choicesFor symms bases := by
  rw [mem_choicesFor]
  constructor
  · show (bases.map (fun b => (b, idOp (arity b)))).map Prod.fst = bases
    rw [List.map_map]
    exact List.map_id'' (fun _ => rfl) bases
  · intro e he
    obtain ⟨b, hb, rfl⟩ := List.mem_map.mp he
    simpa using hid b hb

theorem permApply_perm (p : List Nat) (ix : List Sym)
    (hlen : p.length = ix.length) (hnd : p.Nodup)
    (hb : ∀ k ∈ p, k < ix.length) :
    (permApply p ix).Perm ix := by
  have hsub : p ⊆ List.range ix.length :=
    fun k hk => List.mem_range.mpr (hb k hk)
  have hsp : p.Subperm (List.range ix.length) :=
    List.subperm_of_subset hnd hsub
  have hpr : p.Perm (List.range ix.length) := by
    refine hsp.perm_of_length_le ?_
    simp [hlen]
  have h2 := hpr.map (fun k => ix.getD k 0)
  have h3 : (List.range ix.length).map (fun k => ix.getD k 0) = ix :=
    permApply_id ix.length ix rfl
  rw [h3] at h2
  exact h2

theorem atomSyms_atomMap (f : Sym → Sym) (a : Atom) :
    atomSyms (atomMap f a) = (atomSyms a).map f := by
  cases a <;> rfl

theorem mem_monoSyms_monoMap {f : Sym → Sym} {m : Mono} {s : Sym}
    (hs : s ∈ monoSyms m) : f s ∈ monoSyms (monoMap f m) := by
  obtain ⟨a, ha, hsa⟩ := (mem_catMap atomSyms).mp hs
  refine (mem_catMap atomSyms).mpr ⟨atomMap f a, ?_, ?_⟩
  · show atomMap f a ∈ List.map (atomMap f) m
    exact List.mem_map.mpr ⟨a, ha, rfl⟩
  · rw [atomSyms_atomMap]
    exact List.mem_map.mpr ⟨s, hsa, rfl⟩

theorem mem_vecsSyms_vecsMap {f : Sym → Sym} {vs : List VecF} {s : Sym}
    (hs : s ∈ vecsSyms vs) : f s ∈ vecsSyms (vecsMap f vs) := by
  obtain ⟨v, hv, hsv⟩ := (mem_catMap VecF.ix).mp hs
  refine (mem_catMap VecF.ix).mpr ⟨vecMap f v, ?_, ?_⟩
  · show vecMap f v ∈ List.map (vecMap f) vs
    exact List.mem_map.mpr ⟨v, hv, rfl⟩
  · show f s ∈ (v.ix).map f
    exact List.mem_map.mpr ⟨s, hsv, rfl⟩

theorem mem_atomSyms_normAtom {a : Atom} {s : Sym} (hs : s ∈ atomSyms a) :
    s ∈ atomSyms (normAtom a) := by
  cases a with
  | var u c => exact hs
  | idx b c ix => exact hs
  | delta x y =>
    simp only [normAtom]
    split
    · exact hs
    · simp only [atomSyms, List.mem_cons, List.not_mem_nil, or_false] at hs ⊢
      tauto

theorem mem_atomSyms_atomChoice {γ : List (Nat × SymOp)} {a : Atom} {s : Sym}
    (hs : s ∈ atomSyms a)
    (hv : ∀ b g, atomBase a = some b → γ.lookup b = some g →
      g.perm.Nodup ∧ g.perm.length = (atomIx a).length
        ∧ ∀ k ∈ g.perm, k < (atomIx a).length) :
    s ∈ atomSyms (atomChoice γ a) := by
  cases a with
  | var u c => exact hs
  | delta x y => exact hs
  | idx b c ix =>
    rcases h : γ.lookup b with _ | g
    · simp only [atomChoice, h]
      exact hs
    · simp only [atomChoice, h]
      show s ∈ permApply g.perm ix
      obtain ⟨hnd, hlen, hb⟩ := hv b g rfl h
      exact (permApply_perm g.perm ix hlen hnd hb).mem_iff.mpr hs

theorem atomIx_length_atomMap (f : Sym → Sym) (a : Atom) :
    (atomIx (atomMap f a)).length = (atomIx a).length := by
  cases a <;> simp [atomMap, atomIx]

theorem atomIx_length_normAtom (a : Atom) :
    (atomIx (normAtom a)).length = (atomIx a).length := by
  cases a with
  | var s c => rfl
  | idx b c ix => rfl
  | delta x y =>
    simp only [normAtom]
    split <;> rfl

theorem atomBase_normAtom (a : Atom) : atomBase (normAtom a) = atomBase a := by
  cases a with
  | var s c => rfl
  | idx b c ix => rfl
  | delta x y =>
    simp only [normAtom]
    split <;> rfl

theorem atomIx_length_atomChoice (γ : List (Nat × SymOp)) (a : Atom)
    (hv : ∀ b g, atomBase a = some b → γ.lookup b = some g →
      g.perm.length = (atomIx a).length) :
    (atomIx (atomChoice γ a)).length = (atomIx a).length := by
  cases a with
  | var s c => rfl
  | delta x y => rfl
  | idx b c ix =>
    rcases h : γ.lookup b with _ | g
    · simp only [atomChoice, h]
    · simp only [atomChoice, h]
      show (permApply g.perm ix).length = ix.length
      rw [permApply_length]
      exact hv b g rfl h

theorem nodup_vals_mem_inj {α β : Type} :
    ∀ {l : List (α × β)}, (l.map Prod.snd).Nodup →
      ∀ {k1 k2 : α} {v : β}, (k1, v) ∈ l → (k2, v) ∈ l → k1 = k2 := by
  intro l
  induction l with
  | nil => intro _ k1 k2 v h; simp at h
  | cons e rest ih =>
    obtain ⟨a, b⟩ := e
    intro hnd k1 k2 v h1 h2
    simp only [List.map_cons, List.nodup_cons] at hnd
    rcases List.mem_cons.mp h1 with he1 | h1x
    · rw [Prod.mk.injEq] at he1
      rcases List.mem_cons.mp h2 with he2 | h2x
      · rw [Prod.mk.injEq] at he2
        rw [he1.1, he2.1]
      · exfalso
        rw [← he1.2] at hnd
        exact hnd.1 (List.mem_map.mpr ⟨(k2, v), h2x, rfl⟩)
    · rcases List.mem_cons.mp h2 with he2 | h2x
      · exfalso
        rw [Prod.mk.injEq] at he2
        rw [← he2.2] at hnd
        exact hnd.1 (List.mem_map.mpr ⟨(k1, v), h1x, rfl⟩)
      · exact ih hnd.2 h1x h2x

theorem lookup_perm_nodup {α β : Type} [BEq α] [LawfulBEq α]
    {l1 l2 : List (α × β)} (hp : l1.Perm l2)
    (hnd : (l2.map Prod.fst).Nodup) (k : α) :
    l1.lookup k = l2.lookup k := by
  rcases h2 : l2.lookup k with _ | v
  · rcases h1 : l1.lookup k with _ | v1
    · rfl
    · exfalso
      have hm2 : (k, v1) ∈ l2 := hp.subset (lookup_mem h1)
      obtain ⟨v2, hv2⟩ := lookup_some_of_mem_keys
        (List.mem_map.mpr ⟨(k, v1), hm2, rfl⟩)
      rw [h2] at hv2
      cases hv2
  · have hm1 : (k, v) ∈ l1 := hp.symm.subset (lookup_mem h2)
    obtain ⟨v1, hv1⟩ := lookup_some_of_mem_keys
      (List.mem_map.mpr ⟨(k, v), hm1, rfl⟩)
    rw [hv1]
    have hm12 : (k, v1) ∈ l2 := hp.subset (lookup_mem hv1)
    rw [nodup_keys_mem_inj hnd hm12 (lookup_mem h2)]

theorem lookup_filter {α β : Type} [BEq α] [LawfulBEq α]
    (p : α × β → Bool) :
    ∀ (l : List (α × β)) (k : α),
      (∀ v : β, (k, v) ∈ l → p (k, v) = true) →
      (l.filter p).lookup k = l.lookup k := by
  intro l
  induction l with
  | nil => intro k _; rfl
  | cons e rest ih =>
    obtain ⟨a, b⟩ := e
    intro k hk
    by_cases hka : k = a
    · subst hka
      have hpb : p (k, b) = true := hk b (by simp)
      rw [List.filter_cons, if_pos hpb, lookup_cons_eq, lookup_cons_eq]
    · rw [List.filter_cons]
      by_cases hpb : p (a, b) = true
      · rw [if_pos hpb, lookup_cons_ne hka _ _, lookup_cons_ne hka _ _]
        exact ih k (fun v hv => hk v (by simp [hv]))
      · rw [if_neg hpb, lookup_cons_ne hka _ _]
        exact ih k (fun v hv => hk v (by simp [hv]))

/-- Every value assigned by the canonical walk is a pool name of one of the
walked ranges, at or past that range's starting counter. -/
theorem canonAssign_spec (pool : Range → Nat → Sym) :
    ∀ (σ : List (Sym × Range)) (cnt : List (Range × Nat)),
      ∀ q ∈ canonAssign pool σ cnt, ∃ r k, (q.1, r) ∈ σ ∧ q.2 = pool r k
        ∧ (cnt.lookup r).getD 0 ≤ k := by
  intro σ
  induction σ with
  | nil => intro cnt q hq; simp [canonAssign] at hq
  | cons b rest ih =>
    obtain ⟨d, r⟩ := b
    intro cnt q hq
    simp only [canonAssign, List.mem_cons] at hq
    rcases hq with rfl | hq
    · exact ⟨r, (cnt.lookup r).getD 0, by simp, rfl, le_refl _⟩
    · obtain ⟨r1, k, hmem, hval, hle⟩ :=
        ih ((r, (cnt.lookup r).getD 0 + 1) :: cnt) q hq
      refine ⟨r1, k, by simp [hmem], hval, ?_⟩
      by_cases hr : r1 = r
      · subst hr
        rw [lookup_cons_eq] at hle
        simp only [Option.getD_some] at hle
        omega
      · rw [lookup_cons_ne hr _ _] at hle
        exact hle

/-- The values assigned by the canonical walk are pairwise distinct when the
pool is injective on the walked ranges. -/
theorem canonAssign_vals_nodup (pool : Range → Nat → Sym)
    {σT : List (Sym × Range)}
    (hpinj : ∀ r1 ∈ σT.map Prod.snd, ∀ r2 ∈ σT.map Prod.snd, ∀ i j : Nat,
      pool r1 i = pool r2 j → r1 = r2 ∧ i = j) :
    ∀ (σ : List (Sym × Range)), (∀ b ∈ σ, b ∈ σT) →
      ∀ (cnt : List (Range × Nat)),
      ((canonAssign pool σ cnt).map Prod.snd).Nodup := by
  intro σ
  induction σ with
  | nil => intro _ cnt; simp [canonAssign]
  | cons b rest ih =>
    obtain ⟨d, r⟩ := b
    intro hsub cnt
    simp only [canonAssign, List.map_cons, List.nodup_cons]
    refine ⟨?_, ih (fun x hx => hsub x (by simp [hx])) _⟩
    intro hmem
    obtain ⟨q, hq, hq2⟩ := List.mem_map.mp hmem
    obtain ⟨r1, k, hqmem, hval, hle⟩ :=
      canonAssign_spec pool rest ((r, (cnt.lookup r).getD 0 + 1) :: cnt) q hq
    have hrT : r ∈ σT.map Prod.snd :=
      List.mem_map.mpr ⟨(d, r), hsub (d, r) (by simp), rfl⟩
    have hr1T : r1 ∈ σT.map Prod.snd :=
      List.mem_map.mpr ⟨(q.1, r1), hsub (q.1, r1) (by simp [hqmem]), rfl⟩
    rw [hval] at hq2
    obtain ⟨hre, hke⟩ := hpinj r1 hr1T r hrT k ((cnt.lookup r).getD 0) hq2
    subst hre
    rw [lookup_cons_eq] at hle
    simp only [Option.getD_some] at hle
    omega

theorem candAssign_inj_keys (pool : Range → Nat → Sym)
    (σ : List (Sym × Range)) (hnd : (σ.map Prod.fst).Nodup)
    (hpinj : ∀ r1 ∈ σ.map Prod.snd, ∀ r2 ∈ σ.map Prod.snd, ∀ i j : Nat,
      pool r1 i = pool r2 j → r1 = r2 ∧ i = j) :
    ∀ a ∈ σ.map Prod.fst, ∀ b ∈ σ.map Prod.fst,
      candAssign pool σ a = candAssign pool σ b → a = b := by
  intro a ha b hb he
  have hkeys := canonAssign_keys pool σ ([] : List (Range × Nat))
  obtain ⟨va, hva⟩ := lookup_some_of_mem_keys
    (show a ∈ (canonAssign pool σ []).map Prod.fst by rw [hkeys]; exact ha)
  obtain ⟨vb, hvb⟩ := lookup_some_of_mem_keys
    (show b ∈ (canonAssign pool σ []).map Prod.fst by rw [hkeys]; exact hb)
  unfold candAssign assignFun at he
  rw [hva, hvb] at he
  simp only [Option.getD_some] at he
  subst he
  have hvnd := canonAssign_vals_nodup pool hpinj σ (fun _ h => h) []
  exact nodup_vals_mem_inj hvnd (lookup_mem hva) (lookup_mem hvb)

theorem candAssign_free (pool : Range → Nat → Sym) (σ : List (Sym × Range))
    {s : Sym} (hs : s ∉ σ.map Prod.fst) : candAssign pool σ s = s := by
  unfold candAssign assignFun
  rw [lookup_eq_none_of_not_mem_keys (by rw [canonAssign_keys]; exact hs)]
  rfl

theorem candAssign_mem_val (pool : Range → Nat → Sym)
    (σ : List (Sym × Range)) {d : Sym} (hd : d ∈ σ.map Prod.fst) :
    ∃ r k, (d, r) ∈ σ ∧ candAssign pool σ d = pool r k := by
  obtain ⟨v, hv⟩ := lookup_some_of_mem_keys
    (show d ∈ (canonAssign pool σ []).map Prod.fst by
      rw [canonAssign_keys]; exact hd)
  obtain ⟨r, k, hmem, hval, -⟩ :=
    canonAssign_spec pool σ [] _ (lookup_mem hv)
  refine ⟨r, k, hmem, ?_⟩
  unfold candAssign assignFun
  rw [hv]
  exact hval

/-- On the canonically renamed summation list, the canonical assignment is
the identity on every binder name. -/
theorem candAssign_canonical_id (pool : Range → Nat → Sym)
    (σ : List (Sym × Range)) (hnd : (σ.map Prod.fst).Nodup)
    (hpinj : ∀ r1 ∈ σ.map Prod.snd, ∀ r2 ∈ σ.map Prod.snd, ∀ i j : Nat,
      pool r1 i = pool r2 j → r1 = r2 ∧ i = j) :
    ∀ d ∈ σ.map Prod.fst,
      candAssign pool (σ.map (fun b => (candAssign pool σ b.1, b.2)))
        (candAssign pool σ d) = candAssign pool σ d := by
  intro d hd
  have hmap : canonAssign pool
        (σ.map (fun b => (candAssign pool σ b.1, b.2))) []
      = (canonAssign pool σ []).map
          (fun q => (candAssign pool σ q.1, q.2)) :=
    canonAssign_map pool (candAssign pool σ) σ []
  show assignFun (canonAssign pool
      (σ.map (fun b => (candAssign pool σ b.1, b.2))) [])
      (candAssign pool σ d) = candAssign pool σ d
  rw [hmap]
  unfold assignFun
  rw [lookup_map_inj (candAssign pool σ) (canonAssign pool σ []) d
    (by rw [canonAssign_keys]; exact candAssign_inj_keys pool σ hnd hpinj)
    (by rw [canonAssign_keys]; exact hd)]
  obtain ⟨v, hv⟩ := lookup_some_of_mem_keys
    (show d ∈ (canonAssign pool σ []).map Prod.fst by
      rw [canonAssign_keys]; exact hd)
  rw [hv]
  simp only [Option.getD_some]
  unfold candAssign assignFun
  rw [hv]
  rfl

/-- The total coefficient an amplitude carries on one exact monomial. -/
def coeffOf (A : Amp) (m : Mono) : Int :=
  ((A.filter (fun p => p.2 = m)).map Prod.fst).sum

theorem coeffOf_nil (m : Mono) : coeffOf [] m = 0 := rfl

theorem coeffOf_cons (p : Int × Mono) (A : Amp) (m : Mono) :
    coeffOf (p :: A) m = (if p.2 = m then p.1 else 0) + coeffOf A m := by
  unfold coeffOf
  rw [List.filter_cons]
  by_cases h : p.2 = m
  · rw [if_pos (by simpa using h), if_pos h]
    simp
  · rw [if_neg (by simpa using h), if_neg h]
    simp

theorem coeffOf_append (A B : Amp) (m : Mono) :
    coeffOf (A ++ B) m = coeffOf A m + coeffOf B m := by
  induction A with
  | nil => simp [coeffOf_nil]
  | cons p rest ih =>
    rw [List.cons_append, coeffOf_cons, coeffOf_cons, ih]
    ring

theorem coeffOf_cons2 (c : Int) (n : Mono) (A : Amp) (m : Mono) :
    coeffOf ((c, n) :: A) m = (if n = m then c else 0) + coeffOf A m :=
  coeffOf_cons (c, n) A m

theorem coeffOf_insAdd (c : Int) (m : Mono) :
    ∀ (A : Amp) (m' : Mono),
      coeffOf (insAdd c m A) m'
        = (if m = m' then c else 0) + coeffOf A m' := by
  intro A
  induction A with
  | nil =>
    intro m'
    simp only [insAdd]
    split <;> rename_i hc
    · subst hc
      simp [coeffOf_nil]
    · rw [coeffOf_cons2, coeffOf_nil]
  | cons q rest ih =>
    obtain ⟨d, n⟩ := q
    intro m'
    simp only [insAdd]
    by_cases hlt : kcmp (monoK m) (monoK n) = .lt
    · rw [if_pos hlt]
      split <;> rename_i hc
      · subst hc
        simp [coeffOf_cons2]
      · rw [coeffOf_cons2, coeffOf_cons2]
    · rw [if_neg hlt]
      by_cases heq : kcmp (monoK m) (monoK n) = .eq
      · rw [if_pos heq]
        have hmn : m = n := monoK_inj (kcmp_eq_iff.mp heq)
        subst hmn
        by_cases hcd : c + d = 0
        · rw [if_pos hcd, coeffOf_cons2]
          by_cases hm : m = m'
          · rw [if_pos hm, if_pos hm]
            omega
          · rw [if_neg hm, if_neg hm]
            simp
        · rw [if_neg hcd, coeffOf_cons2, coeffOf_cons2]
          by_cases hm : m = m'
          · rw [if_pos hm, if_pos hm, if_pos hm]
            ring
          · rw [if_neg hm, if_neg hm, if_neg hm]
            simp
      · rw [if_neg heq, coeffOf_cons2, coeffOf_cons2, ih m']
        ring

/-- The source coefficient of a normal-form monomial across an amplitude. -/
def coeffSrc (A : Amp) (m : Mono) : Int :=
  ((A.filter (fun p => normMono p.2 = m)).map Prod.fst).sum

theorem coeffSrc_cons (p : Int × Mono) (A : Amp) (m : Mono) :
    coeffSrc (p :: A) m = (if normMono p.2 = m then p.1 else 0) + coeffSrc A m := by
  unfold coeffSrc
  rw [List.filter_cons]
  by_cases h : normMono p.2 = m
  · rw [if_pos (by simpa using h), if_pos h]
    simp
  · rw [if_neg (by simpa using h), if_neg h]
    simp

theorem coeffSrc_append (A B : Amp) (m : Mono) :
    coeffSrc (A ++ B) m = coeffSrc A m + coeffSrc B m := by
  induction A with
  | nil => simp [coeffSrc]
  | cons p rest ih =>
    rw [List.cons_append, coeffSrc_cons, coeffSrc_cons, ih]
    ring

/-- normalize preserves per-monomial content. -/
theorem coeffOf_normalize (A : Amp) (m : Mono) :
    coeffOf (normalize A) m = coeffSrc A m := by
  induction A with
  | nil => rfl
  | cons p rest ih =>
    show coeffOf (insAdd p.1 (normMono p.2) (normalize rest)) m = _
    rw [coeffOf_insAdd, ih, coeffSrc_cons]

theorem coeffOf_eq_zero {A : Amp} {m : Mono} (h : ∀ q ∈ A, q.2 ≠ m) :
    coeffOf A m = 0 := by
  induction A with
  | nil => rfl
  | cons p rest ih =>
    rw [coeffOf_cons, if_neg (h p (by simp)), ih (fun q hq => h q (by simp [hq]))]
    simp

/-- In a normal-form amplitude, the content at an entry's monomial is that
entry's coefficient. -/
theorem coeffOf_of_NF : ∀ {A : Amp}, AmpNF A →
    ∀ {c : Int} {m : Mono}, (c, m) ∈ A → coeffOf A m = c := by
  intro A
  induction A with
  | nil => intro _ c m h; simp at h
  | cons p rest ih =>
    obtain ⟨d, n⟩ := p
    intro hNF c m hm
    have hlt : ∀ q ∈ rest, kcmp (monoK n) (monoK q.2) = .lt := by
      intro q hq
      exact (List.pairwise_cons.mp (List.chain'_iff_pairwise.mp hNF.1)).1 q hq
    rcases List.mem_cons.mp hm with he | hm1
    · rw [Prod.mk.injEq] at he
      obtain ⟨rfl, rfl⟩ := he
      have hz : coeffOf rest m = 0 := by
        refine coeffOf_eq_zero (fun q hq hqm => ?_)
        have h2 := hlt q hq
        rw [hqm, kcmp_self] at h2
        cases h2
      rw [coeffOf_cons2, if_pos rfl, hz]
      simp
    · have hne : n ≠ m := by
        intro hnm
        have h2 := hlt (c, m) hm1
        rw [hnm] at h2
        rw [kcmp_self] at h2
        cases h2
      rw [coeffOf_cons2, if_neg hne, ih (ampNF_tail hNF) hm1]
      simp

theorem normalize_mono_mem : ∀ {A : Amp} {p : Int × Mono},
    p ∈ normalize A → ∃ q ∈ A, p.2 = normMono q.2 := by
  intro A
  induction A with
  | nil => intro p hp; simp [normalize] at hp
  | cons q rest ih =>
    intro p hp
    rcases insAdd_mono_mem _ _ hp with h | ⟨w, hw, h⟩
    · exact ⟨q, by simp, h⟩
    · obtain ⟨z, hz, hz2⟩ := ih hw
      exact ⟨z, by simp [hz], by rw [h, hz2]⟩

theorem skelEq_iff {u t : Term} :
    skelEq u t = true ↔ u.sums = t.sums ∧ u.vecs = t.vecs := by
  unfold skelEq
  rw [Bool.and_eq_true, beq_iff_eq, beq_iff_eq]

theorem skelEq_refl (t : Term) : skelEq t t = true :=
  skelEq_iff.mpr ⟨rfl, rfl⟩

theorem skelEq_symm (u t : Term) : skelEq u t = skelEq t u := by
  cases hut : skelEq u t with
  | true =>
    obtain ⟨h1, h2⟩ := skelEq_iff.mp hut
    exact (skelEq_iff.mpr ⟨h1.symm, h2.symm⟩).symm
  | false =>
    cases htu : skelEq t u with
    | false => rfl
    | true =>
      obtain ⟨h1, h2⟩ := skelEq_iff.mp htu
      rw [skelEq_iff.mpr ⟨h1.symm, h2.symm⟩] at hut
      cases hut

theorem skelEq_trans {z w t : Term} (h1 : skelEq z w = true)
    (h2 : skelEq z t = true) : skelEq w t = true := by
  obtain ⟨a1, a2⟩ := skelEq_iff.mp h1
  obtain ⟨b1, b2⟩ := skelEq_iff.mp h2
  exact skelEq_iff.mpr ⟨a1 ▸ b1, a2 ▸ b2⟩

theorem skelEq_of_components {S1 S2 : List (Sym × Range)} {A1 A2 : Amp}
    {V1 V2 : List VecF} :
    skelEq ⟨S1, A1, V1⟩ ⟨S2, A2, V2⟩ = skelEq ⟨S1, [], V1⟩ ⟨S2, [], V2⟩ := rfl

theorem filter_skel_shift {rest : Tensor} {t w : Term}
    (hwt : skelEq w t = false) :
    (rest.filter (fun z => !skelEq z t)).filter (fun z => skelEq z w)
      = rest.filter (fun z => skelEq z w) := by
  rw [List.filter_filter]
  refine List.filter_congr (fun z hz => ?_)
  by_cases h : skelEq z w = true
  · have hzt : skelEq z t = false := by
      by_contra hc
      rw [Bool.not_eq_false] at hc
      rw [skelEq_trans h hc] at hwt
      cases hwt
    simp [h, hzt]
  · rw [Bool.not_eq_true] at h
    simp [h]

/-- Everything merge outputs is a per-skeleton group of the input: the
leader's skeleton with the normalized sum of the whole group's amplitudes,
which is nonzero. -/
theorem mergeAux_spec :
    ∀ (fuel : Nat) (L : Tensor), L.length ≤ fuel →
      ∀ u ∈ mergeAux fuel L,
        ∃ w ∈ L, u = ⟨w.sums,
            normalize (catMap Term.amp (L.filter (fun z => skelEq z w))),
            w.vecs⟩
          ∧ normalize (catMap Term.amp (L.filter (fun z => skelEq z w))) ≠ [] := by
  intro fuel
  induction fuel with
  | zero =>
    intro L hlen u hu
    cases L with
    | nil => cases hu
    | cons t rest => simp at hlen
  | succ fuel ih =>
    intro L hlen u hu
    cases L with
    | nil => cases hu
    | cons t rest =>
      have hgrp : ((t :: rest).filter (fun z => skelEq z t))
          = t :: rest.filter (fun z => skelEq z t) := by
        rw [List.filter_cons, if_pos (by simpa using skelEq_refl t)]
      have hamp : catMap Term.amp ((t :: rest).filter (fun z => skelEq z t))
          = t.amp ++ catMap Term.amp (rest.filter (fun z => skelEq z t)) := by
        rw [hgrp]
        rfl
      have hlen2 : (rest.filter (fun z => !skelEq z t)).length ≤ fuel := by
        have := List.length_filter_le (fun z => !skelEq z t) rest
        simp only [List.length_cons] at hlen
        omega
      simp only [mergeAux] at hu
      split at hu
      · rename_i hz
        obtain ⟨w, hw, he, hne⟩ := ih _ hlen2 u hu
        have hwt : skelEq w t = false := by
          have := List.of_mem_filter hw
          simpa using this
        have hwrest : w ∈ rest := List.mem_of_mem_filter hw
        have hfe : ((t :: rest).filter (fun z => skelEq z w))
            = (rest.filter (fun z => !skelEq z t)).filter
                (fun z => skelEq z w) := by
          rw [filter_skel_shift hwt, List.filter_cons,
            if_neg (by rw [skelEq_symm] at hwt; simp [hwt])]
        refine ⟨w, by simp [hwrest], ?_, ?_⟩
        · rw [hfe]; exact he
        · rw [hfe]; exact hne
      · rename_i hz
        rcases List.mem_cons.mp hu with he | hu1
        · refine ⟨t, by simp, ?_, ?_⟩
          · rw [he, hamp]
          · rw [hamp]; exact hz
        · obtain ⟨w, hw, he, hne⟩ := ih _ hlen2 u hu1
          have hwt : skelEq w t = false := by
            have := List.of_mem_filter hw
            simpa using this
          have hwrest : w ∈ rest := List.mem_of_mem_filter hw
          have hfe : ((t :: rest).filter (fun z => skelEq z w))
              = (rest.filter (fun z => !skelEq z t)).filter
                  (fun z => skelEq z w) := by
            rw [filter_skel_shift hwt, List.filter_cons,
              if_neg (by rw [skelEq_symm] at hwt; simp [hwt])]
          refine ⟨w, by simp [hwrest], ?_, ?_⟩
          · rw [hfe]; exact he
          · rw [hfe]; exact hne

/-- Distinct merge outputs carry distinct skeletons. -/
theorem mergeAux_pairwise :
    ∀ (fuel : Nat) (L : Tensor), L.length ≤ fuel →
      List.Pairwise (fun u v => skelEq v u = false) (mergeAux fuel L) := by
  intro fuel
  induction fuel with
  | zero =>
    intro L hlen
    cases L with
    | nil => simp [mergeAux]
    | cons t rest => simp at hlen
  | succ fuel ih =>
    intro L hlen
    cases L with
    | nil => simp [mergeAux]
    | cons t rest =>
      have hlen2 : (rest.filter (fun z => !skelEq z t)).length ≤ fuel := by
        have := List.length_filter_le (fun z => !skelEq z t) rest
        simp only [List.length_cons] at hlen
        omega
      simp only [mergeAux]
      split
      · exact ih _ hlen2
      · rw [List.pairwise_cons]
        refine ⟨?_, ih _ hlen2⟩
        intro v hv
        obtain ⟨w, hw, he, -⟩ := mergeAux_spec fuel _ hlen2 v hv
        have hwt : skelEq w t = false := by
          have := List.of_mem_filter hw
          simpa using this
        rw [he]
        show skelEq (⟨w.sums, _, w.vecs⟩ : Term) ⟨t.sums, _, t.vecs⟩ = false
        exact hwt

theorem catMap_amp_pieces (S : List (Sym × Range)) (V : List VecF) :
    ∀ A : Amp, catMap Term.amp
      (A.map (fun p => (⟨S, [p], V⟩ : Term))) = A := by
  intro A
  induction A with
  | nil => rfl
  | cons p rest ih =>
    simp only [List.map_cons, catMap, ih]
    rfl

def isDeltaB : Atom → Bool
  | .delta _ _ => true
  | _ => false

theorem isDeltaB_atomMap (f : Sym → Sym) (a : Atom) :
    isDeltaB (atomMap f a) = isDeltaB a := by
  cases a <;> rfl

theorem filter_isDeltaB_monoMap (f : Sym → Sym) :
    ∀ m : Mono, ((monoMap f m).filter isDeltaB).length
      = (m.filter isDeltaB).length := by
  intro m
  induction m with
  | nil => rfl
  | cons a rest ih =>
    show ((atomMap f a :: monoMap f rest).filter isDeltaB).length = _
    rw [List.filter_cons, List.filter_cons, isDeltaB_atomMap]
    by_cases h : isDeltaB a = true
    · rw [if_pos (by simpa using h), if_pos (by simpa using h)]
      simp [ih]
    · rw [if_neg (by simpa using h), if_neg (by simpa using h)]
      exact ih

theorem countDeltas_singleton (c : Int) (m : Mono) :
    countDeltas [(c, m)] = (m.filter isDeltaB).length := by
  show (catMap _ [(c, m)]).length = _
  simp only [catMap, List.append_nil]
  rfl

/-- The survival condition for one delta factor of a monomial: it is kept
only when it cannot act — some range unknown, or equal known ranges with
neither argument a summation dummy. -/
def deltaKeep (S : List (Sym × Range)) (res : Sym → Option Range)
    (x y : Sym) : Prop :=
  ∀ r1 r2, rangeOf S res x = some r1 → rangeOf S res y = some r2 →
    r1 = r2 ∧ isDummy S x = false ∧ isDummy S y = false

/-- Reattachment of a passed-over head factor into the search result. -/
def keepOpt (a : Atom) : Option DeltaAct → Option DeltaAct
  | some .zero => some .zero
  | some (.subst u v m) => some (.subst u v (a :: m))
  | none => none

theorem keepOpt_none (a : Atom) (o : Option DeltaAct) :
    keepOpt a o = none ↔ o = none := by
  rcases o with _ | act
  · simp [keepOpt]
  · cases act <;> simp [keepOpt]

theorem findDelta_cons (S : List (Sym × Range)) (res : Sym → Option Range)
    (a : Atom) (rest : Mono) :
    findDelta S res (a :: rest) =
      match a with
      | .delta x y =>
        match rangeOf S res x, rangeOf S res y with
        | some r1, some r2 =>
          if r1 = r2 then
            if isDummy S x then some (.subst x y rest)
            else if isDummy S y then some (.subst y x rest)
            else keepOpt a (findDelta S res rest)
          else some .zero
        | _, _ => keepOpt a (findDelta S res rest)
      | _ => keepOpt a (findDelta S res rest) := by
  cases a <;> rfl

theorem findDelta_cons_delta (S : List (Sym × Range)) (res : Sym → Option Range)
    (x0 y0 : Sym) (rest : Mono) :
    findDelta S res (Atom.delta x0 y0 :: rest) =
      match rangeOf S res x0, rangeOf S res y0 with
      | some r1, some r2 =>
        if r1 = r2 then
          if isDummy S x0 then some (.subst x0 y0 rest)
          else if isDummy S y0 then some (.subst y0 x0 rest)
          else keepOpt (Atom.delta x0 y0) (findDelta S res rest)
        else some .zero
      | _, _ => keepOpt (Atom.delta x0 y0) (findDelta S res rest) := rfl

theorem findDelta_cons_none (S : List (Sym × Range)) (res : Sym → Option Range)
    (a : Atom) (rest : Mono) :
    findDelta S res (a :: rest) = none ↔
      (findDelta S res rest = none ∧
        ∀ x y, a = Atom.delta x y → deltaKeep S res x y) := by
  rw [findDelta_cons]
  cases a with
  | var s c =>
    rw [keepOpt_none]
    exact ⟨fun h => ⟨h, fun x y hxy => by cases hxy⟩, fun h => h.1⟩
  | idx b c ix =>
    rw [keepOpt_none]
    exact ⟨fun h => ⟨h, fun x y hxy => by cases hxy⟩, fun h => h.1⟩
  | delta x0 y0 =>
    dsimp only
    rcases h1 : rangeOf S res x0 with _ | r1
    · dsimp only
      rw [keepOpt_none]
      refine ⟨fun h => ⟨h, fun x y hxy => ?_⟩, fun h => h.1⟩
      obtain ⟨rfl, rfl⟩ : x0 = x ∧ y0 = y := by
        rw [Atom.delta.injEq] at hxy; exact hxy
      intro r1 r2 hx hy
      rw [h1] at hx
      cases hx
    · rcases h2 : rangeOf S res y0 with _ | r2
      · dsimp only
        rw [keepOpt_none]
        refine ⟨fun h => ⟨h, fun x y hxy => ?_⟩, fun h => h.1⟩
        obtain ⟨rfl, rfl⟩ : x0 = x ∧ y0 = y := by
          rw [Atom.delta.injEq] at hxy; exact hxy
        intro r1' r2' hx hy
        rw [h2] at hy
        cases hy
      · dsimp only
        by_cases h12 : r1 = r2
        · rw [if_pos h12]
          by_cases hd1 : isDummy S x0 = true
          · rw [if_pos hd1]
            constructor
            · intro h; cases h
            · rintro ⟨-, hk⟩
              have := (hk x0 y0 rfl r1 r2 h1 h2).2.1
              rw [hd1] at this
              cases this
          · rw [if_neg hd1]
            by_cases hd2 : isDummy S y0 = true
            · rw [if_pos hd2]
              constructor
              · intro h; cases h
              · rintro ⟨-, hk⟩
                have := (hk x0 y0 rfl r1 r2 h1 h2).2.2
                rw [hd2] at this
                cases this
            · rw [if_neg hd2, keepOpt_none]
              refine ⟨fun h => ⟨h, fun x y hxy => ?_⟩, fun h => h.1⟩
              obtain ⟨rfl, rfl⟩ : x0 = x ∧ y0 = y := by
                rw [Atom.delta.injEq] at hxy; exact hxy
              intro r1' r2' hx hy
              rw [h1] at hx
              rw [h2] at hy
              obtain ⟨rfl⟩ : r1 = r1' := by injection hx
              obtain ⟨rfl⟩ : r2 = r2' := by injection hy
              exact ⟨h12, Bool.not_eq_true _ ▸ hd1, Bool.not_eq_true _ ▸ hd2⟩
        · rw [if_neg h12]
          constructor
          · intro h; cases h
          · rintro ⟨-, hk⟩
            exact absurd (hk x0 y0 rfl r1 r2 h1 h2).1 h12

theorem findDelta_none_iff (S : List (Sym × Range)) (res : Sym → Option Range) :
    ∀ m : Mono, (findDelta S res m = none ↔
      ∀ x y : Sym, Atom.delta x y ∈ m → deltaKeep S res x y) := by
  intro m
  induction m with
  | nil =>
    refine ⟨fun _ x y hxy => ?_, fun _ => rfl⟩
    cases hxy
  | cons a rest ih =>
    rw [findDelta_cons_none, ih]
    constructor
    · rintro ⟨h1, h2⟩ x y hxy
      rcases List.mem_cons.mp hxy with he | hm
      · exact h2 x y he.symm
      · exact h1 x y hm
    · intro h
      exact ⟨fun x y hm => h x y (List.mem_cons.mpr (Or.inr hm)),
        fun x y he => h x y (List.mem_cons.mpr (Or.inl he.symm))⟩

theorem findDelta_some_count (S : List (Sym × Range)) (res : Sym → Option Range) :
    ∀ (m : Mono) (act : DeltaAct), findDelta S res m = some act →
      1 ≤ (m.filter isDeltaB).length := by
  intro m
  induction m with
  | nil => intro act h; cases h
  | cons a rest ih =>
    intro act h
    cases a with
    | delta x y =>
      rw [List.filter_cons, if_pos (by simp [isDeltaB])]
      simp
    | var s c =>
      rw [findDelta_cons] at h
      rw [List.filter_cons, if_neg (by simp [isDeltaB])]
      rcases hr : findDelta S res rest with _ | act'
      · rw [hr] at h
        simp [keepOpt] at h
      · exact ih act' hr
    | idx b c ix =>
      rw [findDelta_cons] at h
      rw [List.filter_cons, if_neg (by simp [isDeltaB])]
      rcases hr : findDelta S res rest with _ | act'
      · rw [hr] at h
        simp [keepOpt] at h
      · exact ih act' hr

theorem keepOpt_subst {a : Atom} {o : Option DeltaAct} {x y : Sym} {m' : Mono}
    (h : keepOpt a o = some (.subst x y m')) :
    ∃ mm, o = some (.subst x y mm) ∧ m' = a :: mm := by
  rcases o with _ | act
  · simp [keepOpt] at h
  · cases act with
    | zero => simp [keepOpt] at h
    | subst u v mm =>
      obtain ⟨rfl, rfl, rfl⟩ : u = x ∧ v = y ∧ a :: mm = m' := by
        simp only [keepOpt, Option.some.injEq, DeltaAct.subst.injEq] at h
        exact h
      exact ⟨mm, rfl, rfl⟩

theorem findDelta_subst_count (S : List (Sym × Range)) (res : Sym → Option Range) :
    ∀ (m m' : Mono) (x y : Sym), findDelta S res m = some (.subst x y m') →
      (m'.filter isDeltaB).length + 1 = (m.filter isDeltaB).length := by
  intro m
  induction m with
  | nil => intro m' x y h; cases h
  | cons a rest ih =>
    intro m' x y h
    have hkeep : keepOpt a (findDelta S res rest) = some (.subst x y m') →
        (m'.filter isDeltaB).length + 1 = ((a :: rest).filter isDeltaB).length := by
      intro hk
      obtain ⟨mm, hr, rfl⟩ := keepOpt_subst hk
      have hih := ih mm x y hr
      rw [List.filter_cons, List.filter_cons]
      by_cases hd : isDeltaB a = true
      · rw [if_pos (by simpa using hd), if_pos (by simpa using hd)]
        simp only [List.length_cons]
        omega
      · rw [if_neg (by simpa using hd), if_neg (by simpa using hd)]
        exact hih
    cases a with
    | var s c =>
      rw [findDelta_cons] at h
      exact hkeep h
    | idx b c ix =>
      rw [findDelta_cons] at h
      exact hkeep h
    | delta x0 y0 =>
      rw [findDelta_cons_delta] at h
      rcases h1 : rangeOf S res x0 with _ | r1
      · rw [h1] at h
        exact hkeep h
      · rw [h1] at h
        rcases h2 : rangeOf S res y0 with _ | r2
        · rw [h2] at h
          exact hkeep h
        · rw [h2] at h
          dsimp only at h
          by_cases h12 : r1 = r2
          · rw [if_pos h12] at h
            by_cases hd1 : isDummy S x0 = true
            · rw [if_pos hd1] at h
              obtain ⟨rfl, rfl, rfl⟩ : x0 = x ∧ y0 = y ∧ rest = m' := by
                rw [Option.some.injEq, DeltaAct.subst.injEq] at h
                exact h
              rw [List.filter_cons, if_pos (by simp [isDeltaB])]
              simp
            · rw [if_neg hd1] at h
              by_cases hd2 : isDummy S y0 = true
              · rw [if_pos hd2] at h
                obtain ⟨rfl, rfl, rfl⟩ : y0 = x ∧ x0 = y ∧ rest = m' := by
                  rw [Option.some.injEq, DeltaAct.subst.injEq] at h
                  exact h
                rw [List.filter_cons, if_pos (by simp [isDeltaB])]
                simp
              · rw [if_neg hd2] at h
                exact hkeep h
          · rw [if_neg h12] at h
            cases h

theorem deltaStep_eq (res : Sym → Option Range) (S : List (Sym × Range))
    (c : Int) (m : Mono) (V : List VecF) :
    deltaStep res ⟨S, [(c, m)], V⟩ =
      match findDelta S res m with
      | some .zero => some ⟨[], [], []⟩
      | some (.subst x y m') =>
        some ⟨S.filter (fun b => b.1 ≠ x),
          [(c, monoMap (sub1 x y) m')], vecsMap (sub1 x y) V⟩
      | none => none := rfl

theorem deltaStep_count {res : Sym → Option Range} {t t' : Term}
    (h : deltaStep res t = some t') :
    countDeltas t'.amp < countDeltas t.amp := by
  obtain ⟨S, A, V⟩ := t
  rcases A with _ | ⟨⟨c, m⟩, rest⟩
  · exact absurd h (by simp [deltaStep])
  · rcases rest with _ | ⟨q, rest'⟩
    · rw [deltaStep_eq] at h
      rcases hf : findDelta S res m with _ | act
      · rw [hf] at h
        have h2 : (none : Option Term) = some t' := h
        cases h2
      · rw [hf] at h
        cases act with
        | zero =>
          have h2 : some (⟨[], [], []⟩ : Term) = some t' := h
          have h3 : (⟨[], [], []⟩ : Term) = t' := by injection h2
          rw [← h3]
          show 0 < countDeltas [(c, m)]
          rw [countDeltas_singleton]
          exact findDelta_some_count _ _ m .zero hf
        | subst x y m' =>
          have h2 : some (⟨S.filter (fun b => b.1 ≠ x),
              [(c, monoMap (sub1 x y) m')],
              vecsMap (sub1 x y) V⟩ : Term) = some t' := h
          have h3 : (⟨S.filter (fun b => b.1 ≠ x),
              [(c, monoMap (sub1 x y) m')],
              vecsMap (sub1 x y) V⟩ : Term) = t' := by injection h2
          rw [← h3]
          show countDeltas [(c, monoMap (sub1 x y) m')] < countDeltas [(c, m)]
          rw [countDeltas_singleton, countDeltas_singleton,
            filter_isDeltaB_monoMap]
          have := findDelta_subst_count _ _ m m' x y hf
          omega
    · exact absurd h (by simp [deltaStep])

theorem deltaIter_none (res : Sym → Option Range) :
    ∀ (fuel : Nat) (t : Term), countDeltas t.amp ≤ fuel →
      deltaStep res (deltaIter res fuel t) = none := by
  intro fuel
  induction fuel with
  | zero =>
    intro t hc
    show deltaStep res t = none
    rcases h : deltaStep res t with _ | t'
    · rfl
    · have := deltaStep_count h
      omega
  | succ fuel ih =>
    intro t hc
    rcases h : deltaStep res t with _ | t'
    · simp only [deltaIter, h]
    · simp only [deltaIter, h]
      refine ih t' ?_
      have := deltaStep_count h
      omega

theorem simplify_deltas_fix {res : Sym → Option Range} {t : Term}
    (h : deltaStep res t = none) : simplify_deltas res t = t := by
  unfold simplify_deltas
  cases countDeltas t.amp with
  | zero => rfl
  | succ n => simp only [deltaIter, h]

theorem deltaStep_singleton_none (res : Sym → Option Range)
    (S : List (Sym × Range)) (c : Int) (m : Mono) (V : List VecF) :
    deltaStep res ⟨S, [(c, m)], V⟩ = none ↔ findDelta S res m = none := by
  show (match findDelta S res m with
    | some .zero => some (⟨[], [], []⟩ : Term)
    | some (.subst x y m') =>
      some ⟨S.filter (fun b => b.1 ≠ x),
        [(c, monoMap (sub1 x y) m')], vecsMap (sub1 x y) V⟩
    | none => none) = none ↔ _
  rcases hf : findDelta S res m with _ | act
  · simp
  · cases act <;> simp

theorem ampSyms_map_coeff (g : Int × Mono → Int) :
    ∀ A : Amp, ampSyms (A.map (fun p => (g p, p.2))) = ampSyms A := by
  intro A
  induction A with
  | nil => rfl
  | cons p rest ih =>
    show monoSyms p.2 ++ ampSyms (rest.map (fun p => (g p, p.2)))
      = monoSyms p.2 ++ ampSyms rest
    rw [ih]

theorem danglingQ_congr {A1 A2 : Amp} (h : ampSyms A1 = ampSyms A2)
    (V : List VecF) (b : Sym × Range) :
    danglingQ A1 V b = danglingQ A2 V b := by
  unfold danglingQ
  rw [h]

theorem simplify_sums_fix {t : Term}
    (h : ∀ b ∈ t.sums, danglingQ t.amp t.vecs b = false) :
    simplify_sums t = t := by
  have hfil : t.sums.filter (danglingQ t.amp t.vecs) = [] := by
    rw [List.filter_eq_nil_iff]
    intro b hb
    rw [h b hb]
    simp
  unfold simplify_sums
  rw [hfil]
  have hkeep : t.sums.filter (fun b => !danglingQ t.amp t.vecs b) = t.sums := by
    rw [List.filter_eq_self]
    intro b hb
    rw [h b hb]
    rfl
  rw [hkeep]
  have hamp : t.amp.map (fun p => (([] : List (Sym × Range)).foldr
      (fun b acc => (rangeSize b.2).getD 1 * acc) p.1, p.2)) = t.amp := by
    show t.amp.map (fun p => (p.1, p.2)) = t.amp
    simp
  rw [hamp]

theorem simplify_sums_nodangling (t : Term) :
    ∀ b ∈ (simplify_sums t).sums,
      danglingQ (simplify_sums t).amp (simplify_sums t).vecs b = false := by
  intro b hb
  have hse : ampSyms (simplify_sums t).amp = ampSyms t.amp :=
    ampSyms_map_coeff (fun p : Int × Mono =>
      (t.sums.filter (danglingQ t.amp t.vecs)).foldr
        (fun (b : Sym × Range) (acc : Int) => (rangeSize b.2).getD 1 * acc)
        p.1) t.amp
  rw [danglingQ_congr hse]
  have hb2 : b ∈ t.sums.filter (fun q => !danglingQ t.amp t.vecs q) := hb
  have := (List.mem_filter.mp hb2).2
  show danglingQ t.amp t.vecs b = false
  rcases hq : danglingQ t.amp t.vecs b with _ | _
  · rfl
  · rw [hq] at this
    cases this

theorem simplify_sums_singleton (S : List (Sym × Range)) (c : Int) (m : Mono)
    (V : List VecF) :
    simplify_sums ⟨S, [(c, m)], V⟩
      = ⟨S.filter (fun b => !danglingQ [(c, m)] V b),
          [((S.filter (danglingQ [(c, m)] V)).foldr
              (fun b acc => (rangeSize b.2).getD 1 * acc) c, m)], V⟩ := rfl

theorem deltaKeep_congr {S1 S2 : List (Sym × Range)} {res : Sym → Option Range}
    {x y : Sym} (hx : S2.lookup x = S1.lookup x) (hy : S2.lookup y = S1.lookup y)
    (h : deltaKeep S1 res x y) : deltaKeep S2 res x y := by
  intro r1 r2 h1 h2
  unfold rangeOf at h1 h2
  rw [hx] at h1
  rw [hy] at h2
  have := h r1 r2 h1 h2
  refine ⟨this.1, ?_, ?_⟩
  · show (S2.lookup x).isSome = false
    rw [hx]
    exact this.2.1
  · show (S2.lookup y).isSome = false
    rw [hy]
    exact this.2.2

theorem mem_monoSyms_of_monoMap {f : Sym → Sym} {m : Mono} {s : Sym}
    (hs : s ∈ monoSyms (monoMap f m)) : ∃ x ∈ monoSyms m, s = f x := by
  obtain ⟨a, ha, hsa⟩ := (mem_catMap atomSyms).mp hs
  obtain ⟨a0, ha0, rfl⟩ := List.mem_map.mp ha
  rw [atomSyms_atomMap] at hsa
  obtain ⟨x, hx, rfl⟩ := List.mem_map.mp hsa
  exact ⟨x, (mem_catMap atomSyms).mpr ⟨a0, ha0, hx⟩, rfl⟩

theorem mem_vecsSyms_of_vecsMap {f : Sym → Sym} {vs : List VecF} {s : Sym}
    (hs : s ∈ vecsSyms (vecsMap f vs)) : ∃ x ∈ vecsSyms vs, s = f x := by
  obtain ⟨v, hv, hsv⟩ := (mem_catMap VecF.ix).mp hs
  obtain ⟨v0, hv0, rfl⟩ := List.mem_map.mp hv
  obtain ⟨x, hx, rfl⟩ := List.mem_map.mp hsv
  exact ⟨x, (mem_catMap VecF.ix).mpr ⟨v0, hv0, hx⟩, rfl⟩

theorem mem_atomSyms_of_normAtom {a : Atom} {s : Sym}
    (hs : s ∈ atomSyms (normAtom a)) : s ∈ atomSyms a := by
  cases a with
  | var u c => exact hs
  | idx b c ix => exact hs
  | delta x y =>
    by_cases h : x ≤ y
    · simpa [normAtom, h] using hs
    · simp only [normAtom, if_neg h] at hs
      simp only [atomSyms] at hs ⊢
      simp only [List.mem_cons] at hs ⊢
      tauto

theorem mem_permApply_of {p : List Nat} {ix : List Sym} {s : Sym}
    (hb : ∀ k ∈ p, k < ix.length) (hs : s ∈ permApply p ix) : s ∈ ix := by
  unfold permApply at hs
  obtain ⟨k, hk, rfl⟩ := List.mem_map.mp hs
  have hlt := hb k hk
  rw [List.getD_eq_getElem ix 0 hlt]
  exact List.getElem_mem hlt

theorem mem_atomSyms_of_atomChoice {γ : List (Nat × SymOp)} {a : Atom} {s : Sym}
    (hv : ∀ b g, atomBase a = some b → γ.lookup b = some g →
      ∀ k ∈ g.perm, k < (atomIx a).length)
    (hs : s ∈ atomSyms (atomChoice γ a)) : s ∈ atomSyms a := by
  cases a with
  | var u c => exact hs
  | delta x y => exact hs
  | idx b c ix =>
    rcases h : γ.lookup b with _ | g
    · simp only [atomChoice, h] at hs
      exact hs
    · simp only [atomChoice, h] at hs
      show s ∈ ix
      exact mem_permApply_of (hv b g rfl h) hs

theorem mem_monoSyms_of_normMono {m : Mono} {s : Sym}
    (hs : s ∈ monoSyms (normMono m)) : ∃ a ∈ m, s ∈ atomSyms (normAtom a) := by
  obtain ⟨a, ha, hsa⟩ := (mem_catMap atomSyms).mp hs
  have ha2 : a ∈ m.map normAtom := (mem_sortK atomK).mp ha
  obtain ⟨a0, ha0, rfl⟩ := List.mem_map.mp ha2
  exact ⟨a0, ha0, hsa⟩

theorem mem_monoSyms_of_mem_atom {m : Mono} {a : Atom} {s : Sym}
    (ha : a ∈ m) (hs : s ∈ atomSyms a) : s ∈ monoSyms m :=
  (mem_catMap atomSyms).mpr ⟨a, ha, hs⟩

theorem mem_normMono_of_mem {m : Mono} {a : Atom} (ha : a ∈ m) :
    normAtom a ∈ normMono m :=
  (mem_sortK atomK).mpr (List.mem_map.mpr ⟨a, ha, rfl⟩)

theorem mem_of_mem_normMono {m : Mono} {a : Atom} (ha : a ∈ normMono m) :
    ∃ a0 ∈ m, a = normAtom a0 := by
  have := (mem_sortK atomK).mp ha
  obtain ⟨a0, ha0, rfl⟩ := List.mem_map.mp this
  exact ⟨a0, ha0, rfl⟩

/-- All symbols occurring in a term. -/
def termSyms (t : Term) : List Sym :=
  t.sums.map Prod.fst ++ ampSyms t.amp ++ vecsSyms t.vecs

def tensorSyms (X : Tensor) : List Sym := catMap termSyms X

/-- All summation ranges occurring in a tensor. -/
def tensorRanges (X : Tensor) : List Range :=
  catMap (fun t => t.sums.map Prod.snd) X

/-- Indexed factors of a registered base carry exactly the registered arity. -/
def MonoArity (arity : Nat → Nat) (symms : List (Nat × List SymOp))
    (m : Mono) : Prop :=
  ∀ B cj ix, Atom.idx B cj ix ∈ m → (symms.lookup B).isSome = true →
    ix.length = arity B

/-- A well-formed symmetry registry: every group element is a valid
permutation-with-flags of the base's arity with duplicate-free slots, groups
are closed under composition, and each group carries the identity. -/
def SymmsGood (arity : Nat → Nat) (symms : List (Nat × List SymOp)) : Prop :=
  ∀ e ∈ symms,
    (∀ g ∈ e.2, OpValid (arity e.1) g ∧ g.perm.Nodup)
      ∧ (∀ g1 ∈ e.2, ∀ g2 ∈ e.2, opComp g1 g2 ∈ e.2)
      ∧ idOp (arity e.1) ∈ e.2

/-- The running invariant of a monomial piece through the simplification
stages: duplicate-free dummies, symbols inside the ambient universe, ranges
inside the ambient range list, and registered arities respected. -/
def PieceInv (U : List Sym) (RS : List Range) (arity : Nat → Nat)
    (symms : List (Nat × List SymOp)) (t : Term) : Prop :=
  (t.sums.map Prod.fst).Nodup
    ∧ (∀ s ∈ t.sums.map Prod.fst, s ∈ U)
    ∧ (∀ s ∈ ampSyms t.amp, s ∈ U)
    ∧ (∀ s ∈ vecsSyms t.vecs, s ∈ U)
    ∧ (∀ r ∈ t.sums.map Prod.snd, r ∈ RS)
    ∧ ∀ p ∈ t.amp, MonoArity arity symms p.2

/-- Pool injectivity over the occurring ranges. -/
def PoolInjOn (pool : Range → Nat → Sym) (RS : List Range) : Prop :=
  ∀ r1 ∈ RS, ∀ r2 ∈ RS, ∀ i j : Nat, pool r1 i = pool r2 j → r1 = r2 ∧ i = j

/-- Pool freshness over the occurring ranges: canonical dummy names never
collide with the occurring symbols. -/
def FreshOn (pool : Range → Nat → Sym) (RS : List Range) (U : List Sym) : Prop :=
  ∀ r ∈ RS, ∀ k : Nat, pool r k ∉ U

theorem normalize_nonzero : ∀ {A : Amp} {p : Int × Mono},
    p ∈ normalize A → p.1 ≠ 0 := by
  intro A
  induction A with
  | nil => intro p hp; cases hp
  | cons q rest ih =>
    intro p hp
    exact insAdd_nonzero q.1 (normMono q.2) (fun w hw => ih hw) hp

theorem coeffSrc_eq_coeffOf {A : Amp} (h : ∀ q ∈ A, normMono q.2 = q.2)
    (m : Mono) : coeffSrc A m = coeffOf A m := by
  unfold coeffSrc coeffOf
  rw [List.filter_congr (fun q hq => ?_)]
  rw [h q hq]

theorem coeffOf_ne_zero_ex {A : Amp} {m : Mono} (h : coeffOf A m ≠ 0) :
    ∃ d, (d, m) ∈ A := by
  by_contra hc
  refine h (coeffOf_eq_zero (fun q hq hqm => ?_))
  exact hc ⟨q.1, by rw [← hqm]; exact hq⟩

theorem coeffOf_nonpos {A : Amp} {m : Mono}
    (h : ∀ d, (d, m) ∈ A → d ≤ 0) : coeffOf A m ≤ 0 := by
  induction A with
  | nil => simp [coeffOf_nil]
  | cons p rest ih =>
    rw [coeffOf_cons]
    have h2 := ih (fun d hd => h d (by simp [hd]))
    by_cases hp : p.2 = m
    · rw [if_pos hp]
      have := h p.1 (by rw [← hp]; simp)
      omega
    · rw [if_neg hp]
      omega

theorem choicesFor_ne_nil (symms : List (Nat × List SymOp)) :
    ∀ bases : List Nat,
      (∀ b ∈ bases, (symms.lookup b).getD [] ≠ []) →
      choicesFor symms bases ≠ [] := by
  intro bases
  induction bases with
  | nil => intro _ h; simp [choicesFor] at h
  | cons b rest ih =>
    intro hne
    rcases hg : (symms.lookup b).getD [] with _ | ⟨g, gs⟩
    · exact absurd hg (hne b (by simp))
    · have hrest := ih (fun b2 hb2 => hne b2 (by simp [hb2]))
      rcases hr : choicesFor symms rest with _ | ⟨γ0, γs⟩
      · exact absurd hr hrest
      · intro hc
        have : ((b, g) :: γ0) ∈ choicesFor symms (b :: rest) := by
          show _ ∈ catMap _ ((symms.lookup b).getD [])
          refine (mem_catMap _).mpr ⟨g, by rw [hg]; simp, ?_⟩
          refine List.mem_map.mpr ⟨γ0, by rw [hr]; simp, rfl⟩
        rw [hc] at this
        cases this

theorem mem_symBases {symms : List (Nat × List SymOp)} {A : Amp} {b : Nat} :
    b ∈ symBases symms A ↔
      ((∃ p ∈ A, ∃ a ∈ p.2, atomBase a = some b)
        ∧ (symms.lookup b).isSome = true) := by
  unfold symBases
  rw [List.mem_filter, List.mem_dedup, mem_catMap]
  constructor
  · rintro ⟨⟨p, hp, hb⟩, hreg⟩
    obtain ⟨a, ha, hab⟩ := List.mem_filterMap.mp hb
    exact ⟨⟨p, hp, a, ha, hab⟩, by simpa using hreg⟩
  · rintro ⟨⟨p, hp, a, ha, hab⟩, hreg⟩
    exact ⟨⟨p, hp, List.mem_filterMap.mpr ⟨a, ha, hab⟩⟩, by simpa using hreg⟩

theorem monoMap_id_of (f : Sym → Sym) :
    ∀ m : Mono, (∀ s ∈ monoSyms m, f s = s) → monoMap f m = m := by
  intro m hf
  have h1 : monoMap f m = monoMap (fun s => s) m :=
    monoMap_congr (fun s hs => hf s hs)
  rw [h1]
  unfold monoMap
  rw [List.map_congr_left (fun a _ => atomMap_id a)]
  simp

theorem vecsMap_id_of (f : Sym → Sym) (vs : List VecF)
    (hf : ∀ s ∈ vecsSyms vs, f s = s) : vecsMap f vs = vs := by
  rw [vecsMap_congr (fun s hs => hf s hs), vecsMap_id]

theorem atomChoice_idChoice_mem (arity : Nat → Nat) (bases : List Nat)
    (a : Atom)
    (har : ∀ b, atomBase a = some b → b ∈ bases → (atomIx a).length = arity b) :
    atomChoice (idChoice arity bases) a = a := by
  cases a with
  | var s c => rfl
  | delta x y => rfl
  | idx b c ix =>
    show atomChoice (idChoice arity bases) (.idx b c ix) = .idx b c ix
    by_cases hb : b ∈ bases
    · have hlk : (idChoice arity bases).lookup b = some (idOp (arity b)) := by
        rw [lookup_idChoice, if_pos hb]
      have hlen : ix.length = arity b := har b rfl hb
      simp only [atomChoice, hlk]
      rw [show (idOp (arity b)).conj = false from rfl,
        show (idOp (arity b)).perm = List.range (arity b) from rfl,
        permApply_id (arity b) ix hlen]
      simp
    · have hlk : (idChoice arity bases).lookup b = none := by
        rw [lookup_idChoice, if_neg hb]
      simp only [atomChoice, hlk]

theorem contains_of_mem {s : Sym} {l : List Sym} (h : s ∈ l) :
    l.contains s = true := by
  simp [List.contains, List.elem_iff, h]

theorem danglingQ_false_of_mem {A : Amp} {V : List VecF} {b : Sym × Range}
    (h : b.1 ∈ ampSyms A ∨ b.1 ∈ vecsSyms V) :
    danglingQ A V b = false := by
  unfold danglingQ
  rcases h with h | h
  · rw [contains_of_mem h]
    simp
  · rw [contains_of_mem h]
    simp

theorem deltaKeep_map {S1 S2 : List (Sym × Range)} {res : Sym → Option Range}
    {x y x' y' : Sym} (hx : S2.lookup x' = S1.lookup x)
    (hy : S2.lookup y' = S1.lookup y)
    (h : deltaKeep S1 res x y)
    (hresx : S1.lookup x = none → res x' = res x)
    (hresy : S1.lookup y = none → res y' = res y) :
    deltaKeep S2 res x' y' := by
  intro r1 r2 h1 h2
  unfold rangeOf at h1 h2
  rw [hx] at h1
  rw [hy] at h2
  have h1' : rangeOf S1 res x = some r1 := by
    unfold rangeOf
    rcases hl : S1.lookup x with _ | r
    · rw [hl] at h1
      rw [← hresx hl]
      exact h1
    · rw [hl] at h1
      exact h1
  have h2' : rangeOf S1 res y = some r2 := by
    unfold rangeOf
    rcases hl : S1.lookup y with _ | r
    · rw [hl] at h2
      rw [← hresy hl]
      exact h2
    · rw [hl] at h2
      exact h2
  have := h r1 r2 h1' h2'
  refine ⟨this.1, ?_, ?_⟩
  · show (S2.lookup x').isSome = false
    rw [hx]
    exact this.2.1
  · show (S2.lookup y').isSome = false
    rw [hy]
    exact this.2.2

theorem deltaKeep_swap {S : List (Sym × Range)} {res : Sym → Option Range}
    {x y : Sym} (h : deltaKeep S res x y) : deltaKeep S res y x := by
  intro r1 r2 h1 h2
  obtain ⟨he, hx, hy⟩ := h r2 r1 h2 h1
  exact ⟨he.symm, hy, hx⟩

theorem ampSyms_singleton (c : Int) (m : Mono) :
    ampSyms [(c, m)] = monoSyms m ++ [] := rfl

theorem mem_monoSyms_sub {m' m : Mono} (hsub : ∀ a ∈ m', a ∈ m) {s : Sym}
    (hs : s ∈ monoSyms m') : s ∈ monoSyms m := by
  obtain ⟨a, ha, hsa⟩ := (mem_catMap atomSyms).mp hs
  exact (mem_catMap atomSyms).mpr ⟨a, hsub a ha, hsa⟩

theorem findDelta_subst_mem (S : List (Sym × Range)) (res : Sym → Option Range) :
    ∀ (m m' : Mono) (x y : Sym), findDelta S res m = some (.subst x y m') →
      (∀ a ∈ m', a ∈ m) ∧ (Atom.delta x y ∈ m ∨ Atom.delta y x ∈ m) := by
  intro m
  induction m with
  | nil => intro m' x y h; cases h
  | cons a rest ih =>
    intro m' x y h
    have hkeep : keepOpt a (findDelta S res rest) = some (.subst x y m') →
        (∀ w ∈ m', w ∈ a :: rest)
          ∧ (Atom.delta x y ∈ a :: rest ∨ Atom.delta y x ∈ a :: rest) := by
      intro hk
      obtain ⟨mm, hr, rfl⟩ := keepOpt_subst hk
      obtain ⟨hsub, hdm⟩ := ih mm x y hr
      refine ⟨?_, ?_⟩
      · intro w hw
        rcases List.mem_cons.mp hw with he | hm
        · simp [he]
        · simp [hsub w hm]
      · rcases hdm with hdm | hdm
        · exact Or.inl (by simp [hdm])
        · exact Or.inr (by simp [hdm])
    cases a with
    | var s c =>
      rw [findDelta_cons] at h
      exact hkeep h
    | idx b c ix =>
      rw [findDelta_cons] at h
      exact hkeep h
    | delta x0 y0 =>
      rw [findDelta_cons_delta] at h
      rcases h1 : rangeOf S res x0 with _ | r1
      · rw [h1] at h
        exact hkeep h
      · rw [h1] at h
        rcases h2 : rangeOf S res y0 with _ | r2
        · rw [h2] at h
          exact hkeep h
        · rw [h2] at h
          dsimp only at h
          by_cases h12 : r1 = r2
          · rw [if_pos h12] at h
            by_cases hd1 : isDummy S x0 = true
            · rw [if_pos hd1] at h
              obtain ⟨rfl, rfl, rfl⟩ : x0 = x ∧ y0 = y ∧ rest = m' := by
                rw [Option.some.injEq, DeltaAct.subst.injEq] at h
                exact h
              exact ⟨fun w hw => by simp [hw], Or.inl (by simp)⟩
            · rw [if_neg hd1] at h
              by_cases hd2 : isDummy S y0 = true
              · rw [if_pos hd2] at h
                obtain ⟨rfl, rfl, rfl⟩ : y0 = x ∧ x0 = y ∧ rest = m' := by
                  rw [Option.some.injEq, DeltaAct.subst.injEq] at h
                  exact h
                exact ⟨fun w hw => by simp [hw], Or.inr (by simp)⟩
              · rw [if_neg hd2] at h
                exact hkeep h
          · rw [if_neg h12] at h
            cases h

theorem monoArity_sub {arity : Nat → Nat} {symms : List (Nat × List SymOp)}
    {m m' : Mono} (h : MonoArity arity symms m) (hsub : ∀ a ∈ m', a ∈ m) :
    MonoArity arity symms m' :=
  fun B cj ix hm hreg => h B cj ix (hsub _ hm) hreg

theorem monoArity_monoMap {arity : Nat → Nat} {symms : List (Nat × List SymOp)}
    {m : Mono} (f : Sym → Sym) (h : MonoArity arity symms m) :
    MonoArity arity symms (monoMap f m) := by
  intro B cj ix hm hreg
  obtain ⟨a, ha, hfa⟩ := List.mem_map.mp hm
  cases a with
  | var s c => cases hfa
  | delta u v => cases hfa
  | idx b0 c0 ix0 =>
    obtain ⟨rfl, rfl, rfl⟩ : b0 = B ∧ c0 = cj ∧ ix0.map f = ix := by
      rw [atomMap, Atom.idx.injEq] at hfa
      exact hfa
    rw [List.length_map]
    exact h b0 c0 ix0 ha hreg

theorem pieceInv_zero (U : List Sym) (RS : List Range) (arity : Nat → Nat)
    (symms : List (Nat × List SymOp)) :
    PieceInv U RS arity symms ⟨[], [], []⟩ := by
  refine ⟨List.nodup_nil, ?_, ?_, ?_, ?_, ?_⟩ <;> intro x hx <;> cases hx

theorem keys_filter_nodup {S : List (Sym × Range)} (p : Sym × Range → Bool)
    (h : (S.map Prod.fst).Nodup) : ((S.filter p).map Prod.fst).Nodup :=
  List.Nodup.sublist (List.Sublist.map Prod.fst (List.filter_sublist S)) h

theorem deltaStep_inv {U : List Sym} {RS : List Range} {arity : Nat → Nat}
    {symms : List (Nat × List SymOp)} {res : Sym → Option Range} {t t' : Term}
    (hinv : PieceInv U RS arity symms t) (h : deltaStep res t = some t') :
    PieceInv U RS arity symms t' := by
  obtain ⟨hnd, hkU, haU, hvU, hrR, har⟩ := hinv
  obtain ⟨S, A, V⟩ := t
  rcases A with _ | ⟨⟨c, m⟩, rest⟩
  · exact absurd h (by simp [deltaStep])
  · rcases rest with _ | ⟨q, rest'⟩
    · rw [deltaStep_eq] at h
      rcases hf : findDelta S res m with _ | act
      · rw [hf] at h
        have h2 : (none : Option Term) = some t' := h
        cases h2
      · rw [hf] at h
        cases act with
        | zero =>
          have h2 : some (⟨[], [], []⟩ : Term) = some t' := h
          have h3 : (⟨[], [], []⟩ : Term) = t' := by injection h2
          rw [← h3]
          exact pieceInv_zero U RS arity symms
        | subst x y m' =>
          have h2 : some (⟨S.filter (fun b => b.1 ≠ x),
              [(c, monoMap (sub1 x y) m')],
              vecsMap (sub1 x y) V⟩ : Term) = some t' := h
          have h3 : (⟨S.filter (fun b => b.1 ≠ x),
              [(c, monoMap (sub1 x y) m')],
              vecsMap (sub1 x y) V⟩ : Term) = t' := by injection h2
          rw [← h3]
          obtain ⟨hsub, hdm⟩ := findDelta_subst_mem S res m m' x y hf
          have hyU : y ∈ monoSyms m := by
            rcases hdm with hdm | hdm
            · exact mem_monoSyms_of_mem_atom hdm (by simp [atomSyms])
            · exact mem_monoSyms_of_mem_atom hdm (by simp [atomSyms])
          have hmU : ∀ s ∈ monoSyms m, s ∈ U := by
            intro s hs
            refine haU s ?_
            show s ∈ ampSyms [(c, m)]
            rw [ampSyms_singleton]
            simpa using hs
          have hsubst : ∀ s ∈ monoSyms m, sub1 x y s ∈ monoSyms m := by
            intro s hs
            unfold sub1
            by_cases hsx : s = x
            · rw [if_pos hsx]
              exact hyU
            · rw [if_neg hsx]
              exact hs
          refine ⟨keys_filter_nodup _ hnd, ?_, ?_, ?_, ?_, ?_⟩
          · intro s hs
            obtain ⟨b, hb, rfl⟩ := List.mem_map.mp hs
            exact hkU b.1 (List.mem_map.mpr ⟨b, List.mem_of_mem_filter hb, rfl⟩)
          · intro s hs
            rw [ampSyms_singleton] at hs
            rw [List.append_nil] at hs
            obtain ⟨x0, hx0, rfl⟩ := mem_monoSyms_of_monoMap hs
            have hx0m : x0 ∈ monoSyms m := mem_monoSyms_sub hsub hx0
            exact hmU _ (hsubst x0 hx0m)
          · intro s hs
            obtain ⟨x0, hx0, rfl⟩ := mem_vecsSyms_of_vecsMap hs
            unfold sub1
            by_cases hsx : x0 = x
            · rw [if_pos hsx]
              exact hmU y hyU
            · rw [if_neg hsx]
              exact hvU x0 hx0
          · intro r hr
            obtain ⟨b, hb, rfl⟩ := List.mem_map.mp hr
            exact hrR b.2 (List.mem_map.mpr ⟨b, List.mem_of_mem_filter hb, rfl⟩)
          · intro p hp
            have hp2 : p = (c, monoMap (sub1 x y) m') := by simpa using hp
            rw [hp2]
            exact monoArity_monoMap _
              (monoArity_sub (har (c, m) (by simp)) hsub)
    · exact absurd h (by simp [deltaStep])

theorem deltaIter_inv {U : List Sym} {RS : List Range} {arity : Nat → Nat}
    {symms : List (Nat × List SymOp)} (res : Sym → Option Range) :
    ∀ (fuel : Nat) (t : Term), PieceInv U RS arity symms t →
      PieceInv U RS arity symms (deltaIter res fuel t) := by
  intro fuel
  induction fuel with
  | zero => intro t h; exact h
  | succ fuel ih =>
    intro t h
    rcases hs : deltaStep res t with _ | t'
    · simp only [deltaIter, hs]
      exact h
    · simp only [deltaIter, hs]
      exact ih t' (deltaStep_inv h hs)

theorem simplify_deltas_inv {U : List Sym} {RS : List Range} {arity : Nat → Nat}
    {symms : List (Nat × List SymOp)} (res : Sym → Option Range) (t : Term)
    (h : PieceInv U RS arity symms t) :
    PieceInv U RS arity symms (simplify_deltas res t) :=
  deltaIter_inv res _ t h

theorem simplify_deltas_none (res : Sym → Option Range) (t : Term) :
    deltaStep res (simplify_deltas res t) = none :=
  deltaIter_none res _ t le_rfl

theorem deltaStep_shape {res : Sym → Option Range} {t t' : Term}
    (h : deltaStep res t = some t') :
    (∃ c m, t'.amp = [(c, m)] ∧ t'.vecs = vecsMap (sub1 0 0) t.vecs)
      ∨ ((∃ c m, t'.amp = [(c, m)]) ∨ t' = ⟨[], [], []⟩) := by
  obtain ⟨S, A, V⟩ := t
  rcases A with _ | ⟨⟨c, m⟩, rest⟩
  · exact absurd h (by simp [deltaStep])
  · rcases rest with _ | ⟨q, rest'⟩
    · rw [deltaStep_eq] at h
      rcases hf : findDelta S res m with _ | act
      · rw [hf] at h
        have h2 : (none : Option Term) = some t' := h
        cases h2
      · rw [hf] at h
        cases act with
        | zero =>
          have h2 : some (⟨[], [], []⟩ : Term) = some t' := h
          have h3 : (⟨[], [], []⟩ : Term) = t' := by injection h2
          exact Or.inr (Or.inr h3.symm)
        | subst x y m' =>
          have h2 : some (⟨S.filter (fun b => b.1 ≠ x),
              [(c, monoMap (sub1 x y) m')],
              vecsMap (sub1 x y) V⟩ : Term) = some t' := h
          have h3 : (⟨S.filter (fun b => b.1 ≠ x),
              [(c, monoMap (sub1 x y) m')],
              vecsMap (sub1 x y) V⟩ : Term) = t' := by injection h2
          refine Or.inr (Or.inl ⟨c, monoMap (sub1 x y) m', ?_⟩)
          rw [← h3]
    · exact absurd h (by simp [deltaStep])

theorem deltaIter_shape (res : Sym → Option Range) :
    ∀ (fuel : Nat) (t : Term),
      ((∃ c m, t.amp = [(c, m)]) ∨ t = ⟨[], [], []⟩) →
      ((∃ c m, (deltaIter res fuel t).amp = [(c, m)])
        ∨ deltaIter res fuel t = ⟨[], [], []⟩) := by
  intro fuel
  induction fuel with
  | zero => intro t h; exact h
  | succ fuel ih =>
    intro t h
    rcases hs : deltaStep res t with _ | t'
    · simp only [deltaIter, hs]
      exact h
    · simp only [deltaIter, hs]
      refine ih t' ?_
      rcases deltaStep_shape hs with ⟨c, m, hm, -⟩ | h2
      · exact Or.inl ⟨c, m, hm⟩
      · exact h2

theorem simplify_deltas_shape (res : Sym → Option Range) (t : Term)
    (h : (∃ c m, t.amp = [(c, m)]) ∨ t = ⟨[], [], []⟩) :
    (∃ c m, (simplify_deltas res t).amp = [(c, m)])
      ∨ simplify_deltas res t = ⟨[], [], []⟩ :=
  deltaIter_shape res _ t h

theorem simplify_sums_inv {U : List Sym} {RS : List Range} {arity : Nat → Nat}
    {symms : List (Nat × List SymOp)} (t : Term)
    (h : PieceInv U RS arity symms t) :
    PieceInv U RS arity symms (simplify_sums t) := by
  obtain ⟨hnd, hkU, haU, hvU, hrR, har⟩ := h
  refine ⟨keys_filter_nodup _ hnd, ?_, ?_, ?_, ?_, ?_⟩
  · intro s hs
    obtain ⟨b, hb, rfl⟩ := List.mem_map.mp hs
    exact hkU b.1 (List.mem_map.mpr ⟨b, List.mem_of_mem_filter hb, rfl⟩)
  · intro s hs
    have he : ampSyms (simplify_sums t).amp = ampSyms t.amp :=
      ampSyms_map_coeff (fun p : Int × Mono =>
        (t.sums.filter (danglingQ t.amp t.vecs)).foldr
          (fun (b : Sym × Range) (acc : Int) => (rangeSize b.2).getD 1 * acc)
          p.1) t.amp
    rw [he] at hs
    exact haU s hs
  · intro s hs
    exact hvU s hs
  · intro r hr
    obtain ⟨b, hb, rfl⟩ := List.mem_map.mp hr
    exact hrR b.2 (List.mem_map.mpr ⟨b, List.mem_of_mem_filter hb, rfl⟩)
  · intro p hp
    obtain ⟨q, hq, rfl⟩ := List.mem_map.mp hp
    exact har q hq

theorem simplify_sums_zero : simplify_sums ⟨[], [], []⟩ = ⟨[], [], []⟩ := rfl

theorem symBases_candMono (symms : List (Nat × List SymOp)) (e c2 : Int)
    (ρ : Sym → Sym) (γ : List (Nat × SymOp)) (m1 : Mono) (b : Nat) :
    b ∈ symBases symms [(e, normMono ((monoMap ρ m1).map (atomChoice γ)))]
      ↔ b ∈ symBases symms [(c2, m1)] := by
  rw [mem_symBases, mem_symBases]
  constructor
  · rintro ⟨⟨p, hp, a, ha, hab⟩, hreg⟩
    have hp2 : p = (e, normMono ((monoMap ρ m1).map (atomChoice γ))) := by
      simpa using hp
    rw [hp2] at ha
    obtain ⟨a0, ha0, rfl⟩ := mem_of_mem_normMono ha
    obtain ⟨a1, ha1, rfl⟩ := List.mem_map.mp ha0
    obtain ⟨a2, ha2, rfl⟩ := List.mem_map.mp ha1
    rw [atomBase_normAtom, atomBase_atomChoice, atomBase_atomMap] at hab
    exact ⟨⟨(c2, m1), by simp, a2, ha2, hab⟩, hreg⟩
  · rintro ⟨⟨p, hp, a, ha, hab⟩, hreg⟩
    have hp2 : p = (c2, m1) := by simpa using hp
    rw [hp2] at ha
    refine ⟨⟨(e, normMono ((monoMap ρ m1).map (atomChoice γ))), by simp,
      normAtom (atomChoice γ (atomMap ρ a)), ?_, ?_⟩, hreg⟩
    · exact mem_normMono_of_mem
        (List.mem_map.mpr ⟨atomMap ρ a, List.mem_map.mpr ⟨a, ha, rfl⟩, rfl⟩)
    · rw [atomBase_normAtom, atomBase_atomChoice, atomBase_atomMap]
      exact hab

theorem choice_lookup_none_iff {symms : List (Nat × List SymOp)}
    {bases : List Nat} {γ : List (Nat × SymOp)}
    (hγ : γ ∈ choicesFor symms bases) (b : Nat) :
    γ.lookup b = none ↔ b ∉ bases := by
  obtain ⟨hk, -⟩ := mem_choicesFor.mp hγ
  constructor
  · intro hn hb
    rw [← hk] at hb
    obtain ⟨v, hv⟩ := lookup_some_of_mem_keys hb
    rw [hv] at hn
    cases hn
  · intro hb
    refine lookup_eq_none_of_not_mem_keys ?_
    rw [hk]
    exact hb

theorem choice_entry_valid {symms : List (Nat × List SymOp)} {arity : Nat → Nat}
    {bases : List Nat} {γ : List (Nat × SymOp)} (hsg : SymmsGood arity symms)
    (hγ : γ ∈ choicesFor symms bases) {b : Nat} {g : SymOp}
    (hlk : γ.lookup b = some g) : OpValid (arity b) g ∧ g.perm.Nodup := by
  obtain ⟨hk, hent⟩ := mem_choicesFor.mp hγ
  have hg := hent (b, g) (lookup_mem hlk)
  rcases hG : symms.lookup b with _ | G
  · rw [hG] at hg
    cases hg
  · rw [hG] at hg
    exact (hsg (b, G) (lookup_mem hG)).1 g hg

theorem symms_closed {symms : List (Nat × List SymOp)} {arity : Nat → Nat}
    (hsg : SymmsGood arity symms) :
    ∀ b : Nat, ∀ a ∈ (symms.lookup b).getD [], ∀ c ∈ (symms.lookup b).getD [],
      opComp a c ∈ ((symms.lookup b).getD []) := by
  intro b a ha c hc
  rcases hG : symms.lookup b with _ | G
  · rw [hG] at ha
    cases ha
  · rw [hG] at ha hc
    exact (hsg (b, G) (lookup_mem hG)).2.1 a ha c hc

theorem symms_id_mem {symms : List (Nat × List SymOp)} {arity : Nat → Nat}
    (hsg : SymmsGood arity symms) {b : Nat} (hreg : (symms.lookup b).isSome = true) :
    idOp (arity b) ∈ ((symms.lookup b).getD []) := by
  rcases hG : symms.lookup b with _ | G
  · rw [hG] at hreg
    simp at hreg
  · exact (hsg (b, G) (lookup_mem hG)).2.2

theorem symms_group_ne_nil {symms : List (Nat × List SymOp)} {arity : Nat → Nat}
    (hsg : SymmsGood arity symms) {b : Nat}
    (hreg : (symms.lookup b).isSome = true) :
    (symms.lookup b).getD [] ≠ [] :=
  List.ne_nil_of_mem (symms_id_mem hsg hreg)

/-- The per-atom validity bundle for applying a choice to a renamed monomial
with registered arities. -/
theorem choice_atom_valid {symms : List (Nat × List SymOp)} {arity : Nat → Nat}
    {bases : List Nat} {γ : List (Nat × SymOp)} (hsg : SymmsGood arity symms)
    (hγ : γ ∈ choicesFor symms bases)
    (hbreg : ∀ b ∈ bases, (symms.lookup b).isSome = true)
    {m1 : Mono} (harm : MonoArity arity symms m1) (ρ : Sym → Sym) :
    ∀ a ∈ monoMap ρ m1, ∀ b g, atomBase a = some b → γ.lookup b = some g →
      g.perm.Nodup ∧ g.perm.length = (atomIx a).length
        ∧ ∀ k ∈ g.perm, k < (atomIx a).length := by
  intro a ha b g hab hlk
  obtain ⟨a0, ha0, rfl⟩ := List.mem_map.mp ha
  obtain ⟨hval, hnd⟩ := choice_entry_valid hsg hγ hlk
  have hbb : b ∈ bases := by
    by_contra hb
    rw [(choice_lookup_none_iff hγ b).mpr hb] at hlk
    cases hlk
  have hreg := hbreg b hbb
  cases a0 with
  | var s c => cases hab
  | delta x y => cases hab
  | idx b0 c0 ix0 =>
    have hb0 : b0 = b := by
      rw [atomBase_atomMap] at hab
      injection hab
    subst hb0
    have hlen : ix0.length = arity b0 := harm b0 c0 ix0 ha0 hreg
    have hix : (atomIx (atomMap ρ (Atom.idx b0 c0 ix0))).length = ix0.length := by
      rw [atomIx_length_atomMap]
      rfl
    rw [hix, hlen]
    exact ⟨hnd, hval.1, hval.2⟩

theorem lookup_relabel_free {pool : Range → Nat → Sym} {σ : List (Sym × Range)}
    {U : List Sym} {RS : List Range} (hfresh : FreshOn pool RS U)
    (hranges : ∀ r ∈ σ.map Prod.snd, r ∈ RS) {z : Sym} (hz : z ∈ U) :
    (σ.map (fun b => (candAssign pool σ b.1, b.2))).lookup z = none := by
  refine lookup_map_not_key _ σ z ?_
  intro d hd
  obtain ⟨r, k, hmem, hval⟩ := candAssign_mem_val pool σ hd
  rw [hval]
  intro he
  exact hfresh r (hranges r (List.mem_map.mpr ⟨(d, r), hmem, rfl⟩)) k (he ▸ hz)

theorem candAssign_free_of_fresh {pool : Range → Nat → Sym}
    {σ : List (Sym × Range)} {U : List Sym} {RS : List Range}
    (hfresh : FreshOn pool RS U)
    (hranges : ∀ r ∈ σ.map Prod.snd, r ∈ RS) {z : Sym} (hz : z ∈ U) :
    candAssign pool (σ.map (fun b => (candAssign pool σ b.1, b.2))) z = z := by
  refine candAssign_free pool _ ?_
  intro hmem
  rw [List.map_map] at hmem
  obtain ⟨b, hb, hval⟩ := List.mem_map.mp hmem
  obtain ⟨r, k, hmem2, hval2⟩ :=
    candAssign_mem_val pool σ (List.mem_map.mpr ⟨b, hb, rfl⟩)
  have : z = pool r k := by
    rw [← hval2]
    exact hval.symm
  exact hfresh r (hranges r (List.mem_map.mpr ⟨(b.1, r), hmem2, rfl⟩)) k
    (this ▸ hz)

theorem monoChoiceSign_monoMap (γ : List (Nat × SymOp)) (f : Sym → Sym)
    (m : Mono) : monoChoiceSign γ (monoMap f m) = monoChoiceSign γ m :=
  monoChoiceSign_map γ (atomMap f) m (fun a => atomChoiceSign_atomMap γ f a)

theorem monoChoiceSign_mapChoice (γ δ : List (Nat × SymOp)) (m : Mono) :
    monoChoiceSign γ (m.map (atomChoice δ)) = monoChoiceSign γ m :=
  monoChoiceSign_map γ (atomChoice δ) m (fun a => atomChoiceSign_atomChoice γ δ a)

/-- Composing a second canonicalization pass over the output of a first pass
is replicated by a single candidate of the first pass: the reordering pulls
back along the canonical renaming and the two per-base choices multiply. -/
theorem cand_transport
    (pool : Range → Nat → Sym) (symms : List (Nat × List SymOp))
    (arity : Nat → Nat) (U : List Sym) (RS : List Range)
    (S2 : List (Sym × Range)) (c2 e : Int) (m1 : Mono) (V2 : List VecF)
    (σ σ' : List (Sym × Range)) (γ γ' : List (Nat × SymOp))
    (hpinj : PoolInjOn pool RS) (hfresh : FreshOn pool RS U)
    (hsg : SymmsGood arity symms)
    (hnd : (S2.map Prod.fst).Nodup)
    (hmU : ∀ s ∈ monoSyms m1, s ∈ U)
    (hvU : ∀ s ∈ vecsSyms V2, s ∈ U)
    (hrR : ∀ r ∈ S2.map Prod.snd, r ∈ RS)
    (harm : MonoArity arity symms m1)
    (hc2 : c2 ≠ 0)
    (hσ : σ.Perm S2)
    (hγ : γ ∈ choicesFor symms (symBases symms [(c2, m1)]))
    (hσ' : σ'.Perm (σ.map (fun b => (candAssign pool σ b.1, b.2))))
    (hγ' : γ' ∈ choicesFor symms (symBases symms
        [(e, normMono ((monoMap (candAssign pool σ) m1).map (atomChoice γ)))])) :
    ∃ σ1, σ1.Perm S2 ∧ ∃ γ1 ∈ choicesFor symms (symBases symms [(c2, m1)]),
      candTerm pool [(c2, m1)] V2 σ1 γ1
        = candTerm pool
            [(c2 * monoChoiceSign γ (monoMap (candAssign pool σ) m1),
              normMono ((monoMap (candAssign pool σ) m1).map (atomChoice γ)))]
            (vecsMap (candAssign pool σ) V2) σ' γ' := by
  obtain ⟨σ1, hσ1p, hσ'eq⟩ :=
    exists_perm_of_perm_map (fun b => (candAssign pool σ b.1, b.2)) hσ' σ rfl
  subst hσ'eq
  have hndσ : (σ.map Prod.fst).Nodup := ((hσ.map Prod.fst).nodup_iff).mpr hnd
  have hkeys1 : ∀ x, x ∈ σ1.map Prod.fst ↔ x ∈ σ.map Prod.fst :=
    fun x => (hσ1p.map Prod.fst).mem_iff
  have hrRσ : ∀ r1 ∈ σ.map Prod.snd, ∀ r2 ∈ σ.map Prod.snd, ∀ i j : Nat,
      pool r1 i = pool r2 j → r1 = r2 ∧ i = j := by
    intro r1 h1 r2 h2 i j he
    exact hpinj r1 (hrR r1 ((hσ.map Prod.snd).mem_iff.mp h1))
      r2 (hrR r2 ((hσ.map Prod.snd).mem_iff.mp h2)) i j he
  have hinjρ := candAssign_inj_keys pool σ hndσ hrRσ
  have hinj1 : ∀ a ∈ σ1.map Prod.fst, ∀ b ∈ σ1.map Prod.fst,
      candAssign pool σ a = candAssign pool σ b → a = b := by
    intro a ha b hb he
    exact hinjρ a ((hkeys1 a).mp ha) b ((hkeys1 b).mp hb) he
  have hranσ : ∀ r ∈ σ.map Prod.snd, r ∈ RS :=
    fun r hr => hrR r ((hσ.map Prod.snd).mem_iff.mp hr)
  have hE0 : ∀ x, (x ∈ σ1.map Prod.fst ∨ x ∈ monoSyms m1 ∨ x ∈ vecsSyms V2) →
      candAssign pool (σ1.map (fun b => (candAssign pool σ b.1, b.2)))
        (candAssign pool σ x) = candAssign pool σ1 x := by
    intro x hx
    by_cases hxk : x ∈ σ1.map Prod.fst
    · exact candAssign_relabel pool (candAssign pool σ) σ1 hinj1 x (Or.inl hxk)
    · have hxU : x ∈ U := by
        rcases hx with hx | hx | hx
        · exact absurd hx hxk
        · exact hmU x hx
        · exact hvU x hx
      have hxkσ : x ∉ σ.map Prod.fst := fun hm => hxk ((hkeys1 x).mpr hm)
      have hρx : candAssign pool σ x = x := candAssign_free pool σ hxkσ
      rw [hρx, candAssign_free pool σ1 hxk]
      refine candAssign_free pool _ ?_
      intro hmem
      rw [List.map_map] at hmem
      obtain ⟨b, hb, hval⟩ := List.mem_map.mp hmem
      have hbk : b.1 ∈ σ.map Prod.fst :=
        (hkeys1 b.1).mp (List.mem_map.mpr ⟨b, hb, rfl⟩)
      obtain ⟨r, k, hmem2, hval2⟩ := candAssign_mem_val pool σ hbk
      refine hfresh r (hranσ r (List.mem_map.mpr ⟨(b.1, r), hmem2, rfl⟩)) k ?_
      rw [← hval2]
      show candAssign pool σ b.1 ∈ U
      rw [show candAssign pool σ b.1 = x from hval]
      exact hxU
  have hentγ' : ∀ q ∈ γ', q.2 ∈ ((symms.lookup q.1).getD []) :=
    (mem_choicesFor.mp hγ').2
  have hγ1mem : choiceMul γ' γ ∈ choicesFor symms (symBases symms [(c2, m1)]) :=
    choiceMul_mem γ' hγ hentγ' (symms_closed hsg)
  have hbregm1 : ∀ b ∈ symBases symms [(c2, m1)],
      (symms.lookup b).isSome = true :=
    fun b hb => (mem_symBases.mp hb).2
  have hsub : ∀ b, γ.lookup b = none → γ'.lookup b = none := by
    intro b hb
    rw [choice_lookup_none_iff hγ] at hb
    rw [choice_lookup_none_iff hγ']
    intro hmem
    exact hb ((symBases_candMono symms e c2 _ γ m1 b).mp hmem)
  have hvv : ∀ b q1 q2, γ.lookup b = some q1 → γ'.lookup b = some q2 →
      ∀ k ∈ q2.perm, k < q1.perm.length := by
    intro b q1 q2 h1 h2 k hk
    have hv1 := (choice_entry_valid hsg hγ h1).1
    have hv2 := (choice_entry_valid hsg hγ' h2).1
    rw [hv1.1]
    exact hv2.2 k hk
  have har1 := choice_atom_valid hsg hγ hbregm1 harm (candAssign pool σ)
  have hd0 : c2 * monoChoiceSign γ (monoMap (candAssign pool σ) m1) ≠ 0 :=
    mul_ne_zero hc2 (monoChoiceSign_ne_zero γ _)
  refine ⟨σ1, hσ1p.trans hσ, choiceMul γ' γ, hγ1mem, ?_⟩
  rw [candTerm_singleton pool c2 m1 V2 σ1 (choiceMul γ' γ) hc2,
    candTerm_singleton pool _ _ _ _ γ' hd0]
  simp only [Term.mk.injEq]
  refine ⟨?_, ?_, ?_⟩
  · rw [List.map_map]
    refine List.map_congr_left (fun b hb => ?_)
    show (candAssign pool σ1 b.1, b.2)
      = (candAssign pool (σ1.map (fun q => (candAssign pool σ q.1, q.2)))
          (candAssign pool σ b.1), b.2)
    rw [hE0 b.1 (Or.inl (List.mem_map.mpr ⟨b, hb, rfl⟩))]
  · have hmono : normMono ((monoMap (candAssign pool
        (σ1.map (fun q => (candAssign pool σ q.1, q.2))))
          (normMono ((monoMap (candAssign pool σ) m1).map
            (atomChoice γ)))).map (atomChoice γ'))
        = normMono ((monoMap (candAssign pool σ1) m1).map
            (atomChoice (choiceMul γ' γ))) := by
      rw [candMono_of_normMono]
      rw [monoMap_map_choice _ γ _ (fun a ha b g hab hlk =>
        (har1 a ha b g hab hlk).2.2)]
      rw [monoMap_comp]
      rw [monoMap_congr (fun s hs => hE0 s (Or.inr (Or.inl hs)))]
      rw [List.map_map]
      refine congrArg normMono (List.map_congr_left (fun a _ => ?_))
      show atomChoice γ' (atomChoice γ a) = atomChoice (choiceMul γ' γ) a
      exact atomChoice_mul γ' γ a hsub hvv
    have hsgn : monoChoiceSign (choiceMul γ' γ)
          (monoMap (candAssign pool σ1) m1)
        = monoChoiceSign γ (monoMap (candAssign pool σ) m1)
          * monoChoiceSign γ' (monoMap (candAssign pool
              (σ1.map (fun q => (candAssign pool σ q.1, q.2))))
            (normMono ((monoMap (candAssign pool σ) m1).map
              (atomChoice γ)))) := by
      rw [monoChoiceSign_mul γ' γ _ hsub]
      have e1 : monoChoiceSign γ (monoMap (candAssign pool σ1) m1)
          = monoChoiceSign γ (monoMap (candAssign pool σ) m1) := by
        rw [monoChoiceSign_monoMap, monoChoiceSign_monoMap]
      have e2 : monoChoiceSign γ' (monoMap (candAssign pool
            (σ1.map (fun q => (candAssign pool σ q.1, q.2))))
          (normMono ((monoMap (candAssign pool σ) m1).map (atomChoice γ))))
          = monoChoiceSign γ' (monoMap (candAssign pool σ1) m1) := by
        rw [candSign_of_normMono]
        rw [monoChoiceSign_monoMap, monoChoiceSign_mapChoice,
          monoChoiceSign_monoMap, monoChoiceSign_monoMap]
      rw [e1, e2]
      ring
    rw [hsgn, hmono, ← mul_assoc]
  · rw [vecsMap_comp]
    refine vecsMap_congr (fun s hs => ?_)
    exact (hE0 s (Or.inr (Or.inr hs))).symm

/-- On a canonically presented piece — canonical dummies fixed by the
assignment, normal-form monomial — the identity candidate reproduces the
piece itself. -/
theorem cand_id_fix (pool : Range → Nat → Sym) (symms : List (Nat × List SymOp))
    (arity : Nat → Nat) (SW : List (Sym × Range)) (e : Int) (m : Mono)
    (VW : List VecF) (he : e ≠ 0) (hm : normMono m = m)
    (hfixs : ∀ d ∈ SW.map Prod.fst, candAssign pool SW d = d)
    (hfixm : ∀ s ∈ monoSyms m, candAssign pool SW s = s)
    (hfixv : ∀ s ∈ vecsSyms VW, candAssign pool SW s = s)
    (harm : ∀ a ∈ m, ∀ b, atomBase a = some b →
        b ∈ symBases symms [(e, m)] → (atomIx a).length = arity b) :
    candTerm pool [(e, m)] VW SW (idChoice arity (symBases symms [(e, m)]))
      = ⟨SW, [(e, m)], VW⟩ := by
  rw [candTerm_singleton pool e m VW SW _ he]
  simp only [Term.mk.injEq]
  have hmono : monoMap (candAssign pool SW) m = m :=
    monoMap_id_of _ m hfixm
  refine ⟨?_, ?_, ?_⟩
  · have h1 : SW.map (fun b => (candAssign pool SW b.1, b.2))
        = SW.map (fun b => (b.1, b.2)) :=
      List.map_congr_left (fun b hb => by
        rw [hfixs b.1 (List.mem_map.mpr ⟨b, hb, rfl⟩)])
    rw [h1]
    simp
  · rw [hmono, monoChoiceSign_idChoice, mul_one]
    have h2 : m.map (atomChoice (idChoice arity (symBases symms [(e, m)]))) = m := by
      have h3 := List.map_congr_left (fun a ha =>
        atomChoice_idChoice_mem arity (symBases symms [(e, m)]) a
          (fun b hab hbb => harm a ha b hab hbb))
      rw [h3]
      simp
    rw [h2, hm]
  · exact vecsMap_id_of _ VW hfixv

theorem insertsK_ne_nil {α : Type} (x : α) : ∀ l : List α, insertsK x l ≠ [] := by
  intro l
  cases l <;> simp [insertsK]

theorem perms_ne_nil {α : Type} : ∀ l : List α, perms l ≠ [] := by
  intro l
  induction l with
  | nil => simp [perms]
  | cons a rest ih =>
    rcases hp : perms rest with _ | ⟨p0, ps⟩
    · exact absurd hp ih
    · rcases hi : insertsK a p0 with _ | ⟨q0, qs⟩
      · exact absurd hi (insertsK_ne_nil a p0)
      · have hq : q0 ∈ perms (a :: rest) := by
          show q0 ∈ catMap (insertsK a) (perms rest)
          refine (mem_catMap (insertsK a)).mpr ⟨p0, ?_, ?_⟩
          · rw [hp]; simp
          · rw [hi]; simp
        exact List.ne_nil_of_mem hq

theorem candsOf_ne_nil {pool : Range → Nat → Sym}
    {symms : List (Nat × List SymOp)} {arity : Nat → Nat}
    (hsg : SymmsGood arity symms) (t : Term) :
    candsOf pool symms t ≠ [] := by
  have hch : choicesFor symms (symBases symms t.amp) ≠ [] :=
    choicesFor_ne_nil symms _ (fun b hb =>
      symms_group_ne_nil hsg (mem_symBases.mp hb).2)
  rcases hc : choicesFor symms (symBases symms t.amp) with _ | ⟨γ0, γs⟩
  · exact absurd hc hch
  · refine List.ne_nil_of_mem (mem_candsOf.mpr
      ⟨t.sums, List.Perm.refl _, γ0, ?_, rfl⟩)
    rw [hc]
    simp

theorem delta_mem_candMono {ρ : Sym → Sym} {γ : List (Nat × SymOp)} {m1 : Mono}
    {x' y' : Sym}
    (h : Atom.delta x' y' ∈ normMono ((monoMap ρ m1).map (atomChoice γ))) :
    ∃ x y, Atom.delta x y ∈ m1
      ∧ ((x' = ρ x ∧ y' = ρ y) ∨ (x' = ρ y ∧ y' = ρ x)) := by
  obtain ⟨a0, ha0, he⟩ := mem_of_mem_normMono h
  obtain ⟨a1, ha1, rfl⟩ := List.mem_map.mp ha0
  obtain ⟨a2, ha2, rfl⟩ := List.mem_map.mp ha1
  cases a2 with
  | var s c => cases he
  | idx b c ix =>
    exfalso
    have he2 : Atom.delta x' y' = normAtom (atomChoice γ (Atom.idx b c (ix.map ρ))) := he
    rcases hlk : γ.lookup b with _ | g <;>
      simp [atomChoice, hlk, normAtom] at he2
  | delta x y =>
    refine ⟨x, y, ha2, ?_⟩
    have he2 : Atom.delta x' y' = normAtom (Atom.delta (ρ x) (ρ y)) := he
    by_cases hle : ρ x ≤ ρ y
    · left
      rw [normAtom, if_pos hle] at he2
      rw [Atom.delta.injEq] at he2
      exact he2
    · right
      rw [normAtom, if_neg hle] at he2
      rw [Atom.delta.injEq] at he2
      exact ⟨he2.1, he2.2⟩

theorem lookup_canon_eq (pool : Range → Nat → Sym)
    {σ S2 : List (Sym × Range)} {U : List Sym} {RS : List Range}
    (hσ : σ.Perm S2) (hnd : (S2.map Prod.fst).Nodup)
    (hpinj : PoolInjOn pool RS) (hfresh : FreshOn pool RS U)
    (hrR : ∀ r ∈ S2.map Prod.snd, r ∈ RS)
    {z : Sym} (hz : z ∈ U) :
    (σ.map (fun b => (candAssign pool σ b.1, b.2))).lookup
        (candAssign pool σ z) = S2.lookup z := by
  have hndσ : (σ.map Prod.fst).Nodup := ((hσ.map Prod.fst).nodup_iff).mpr hnd
  have hranσ : ∀ r ∈ σ.map Prod.snd, r ∈ RS :=
    fun r hr => hrR r ((hσ.map Prod.snd).mem_iff.mp hr)
  have hrRσ : ∀ r1 ∈ σ.map Prod.snd, ∀ r2 ∈ σ.map Prod.snd, ∀ i j : Nat,
      pool r1 i = pool r2 j → r1 = r2 ∧ i = j :=
    fun r1 h1 r2 h2 i j he => hpinj r1 (hranσ r1 h1) r2 (hranσ r2 h2) i j he
  by_cases hzk : z ∈ σ.map Prod.fst
  · rw [lookup_map_inj _ σ z (candAssign_inj_keys pool σ hndσ hrRσ) hzk]
    exact lookup_perm_nodup hσ hnd z
  · rw [candAssign_free pool σ hzk]
    rw [lookup_relabel_free hfresh hranσ hz]
    rw [lookup_eq_none_of_not_mem_keys
      (fun hm => hzk ((hσ.map Prod.fst).mem_iff.mpr hm))]

/-- The package a contributing first-run canonical piece provides at one
merged-amplitude entry. -/
def Contrib (res : Sym → Option Range) (pool : Range → Nat → Sym)
    (symms : List (Nat × List SymOp)) (arity : Nat → Nat)
    (U : List Sym) (RS : List Range) (SW : List (Sym × Range))
    (VW : List VecF) (q : Int × Mono) : Prop :=
  ∃ S2 c2 m1 V2 σ γ,
    PieceInv U RS arity symms ⟨S2, [(c2, m1)], V2⟩
    ∧ c2 ≠ 0
    ∧ σ.Perm S2
    ∧ γ ∈ choicesFor symms (symBases symms [(c2, m1)])
    ∧ (∀ x y : Sym, Atom.delta x y ∈ m1 → deltaKeep S2 res x y)
    ∧ (∀ b ∈ S2, danglingQ [(c2, m1)] V2 b = false)
    ∧ SW = σ.map (fun b => (candAssign pool σ b.1, b.2))
    ∧ VW = vecsMap (candAssign pool σ) V2
    ∧ q.2 = normMono ((monoMap (candAssign pool σ) m1).map (atomChoice γ))
    ∧ q.1 = c2 * monoChoiceSign γ (monoMap (candAssign pool σ) m1)
    ∧ ∀ σ1 γ1, σ1.Perm S2 →
        γ1 ∈ choicesFor symms (symBases symms [(c2, m1)]) →
        kcmp (termK ⟨SW, [q], VW⟩)
          (termK (candTerm pool [(c2, m1)] V2 σ1 γ1)) ≠ .gt

/-- Every staged piece is either amplitude-free after canonicalization or a
first-run canonical piece carrying the full contributor package at its single
amplitude entry. -/
theorem contributor_cases (res : Sym → Option Range)
    (pool : Range → Nat → Sym) (symms : List (Nat × List SymOp))
    (arity : Nat → Nat) (U : List Sym) (RS : List Range)
    (hsg : SymmsGood arity symms)
    (z : Term) (hz : PieceInv U RS arity symms z)
    (hshape : (∃ c0 m0, z.amp = [(c0, m0)]) ∨ z = ⟨[], [], []⟩) :
    (canon pool symms (simplify_sums (simplify_deltas res z))).amp = []
    ∨ ∀ q ∈ (canon pool symms (simplify_sums (simplify_deltas res z))).amp,
        Contrib res pool symms arity U RS
          (canon pool symms (simplify_sums (simplify_deltas res z))).sums
          (canon pool symms (simplify_sums (simplify_deltas res z))).vecs q := by
  have ht1inv : PieceInv U RS arity symms (simplify_deltas res z) :=
    simplify_deltas_inv res z hz
  have ht1shape := simplify_deltas_shape res z hshape
  rcases ht1shape with ⟨c1, m1, hamp1⟩ | ht1z
  · have ht2inv : PieceInv U RS arity symms
        (simplify_sums (simplify_deltas res z)) :=
      simplify_sums_inv _ ht1inv
    have ht2amp : (simplify_sums (simplify_deltas res z)).amp
        = [(((simplify_deltas res z).sums.filter
              (danglingQ (simplify_deltas res z).amp
                (simplify_deltas res z).vecs)).foldr
            (fun b acc => (rangeSize b.2).getD 1 * acc) c1, m1)] := by
      show (simplify_deltas res z).amp.map
        (fun p => (((simplify_deltas res z).sums.filter
            (danglingQ (simplify_deltas res z).amp
              (simplify_deltas res z).vecs)).foldr
          (fun b acc => (rangeSize b.2).getD 1 * acc) p.1, p.2)) = _
      rw [hamp1]
      rfl
    obtain ⟨c2, ht2amp⟩ : ∃ c2,
        (simplify_sums (simplify_deltas res z)).amp = [(c2, m1)] :=
      ⟨_, ht2amp⟩
    have ht2e : simplify_sums (simplify_deltas res z)
        = ⟨(simplify_sums (simplify_deltas res z)).sums, [(c2, m1)],
            (simplify_sums (simplify_deltas res z)).vecs⟩ := by
      rw [← ht2amp]
    have hvmem := canon_mem_cands
      (show candsOf pool symms (simplify_sums (simplify_deltas res z)) ≠ []
        from candsOf_ne_nil hsg _)
    obtain ⟨σ, hσp, γ, hγm, hveq⟩ := mem_candsOf.mp hvmem
    rw [ht2amp] at hγm
    rw [ht2amp] at hveq
    by_cases hc20 : c2 = 0
    · left
      subst hc20
      rw [hveq, candTerm_zero]
    · right
      intro q hq
      rw [candTerm_singleton _ _ _ _ _ _ hc20] at hveq
      rw [hveq] at hq
      have hq2 : q = (c2 * monoChoiceSign γ
            (monoMap (candAssign pool σ) m1),
          normMono ((monoMap (candAssign pool σ) m1).map (atomChoice γ))) := by
        simpa using hq
      have hstep : deltaStep res (simplify_deltas res z) = none :=
        simplify_deltas_none res z
      have ht1e : simplify_deltas res z
          = ⟨(simplify_deltas res z).sums, [(c1, m1)],
              (simplify_deltas res z).vecs⟩ := by
        rw [← hamp1]
      rw [ht1e, deltaStep_singleton_none] at hstep
      have hdk1 := (findDelta_none_iff _ res m1).mp hstep
      have hmono_in_amp : ∀ s ∈ monoSyms m1,
          s ∈ ampSyms (simplify_deltas res z).amp := by
        intro s hs
        rw [hamp1, ampSyms_singleton]
        simpa using hs
      have hdk2 : ∀ x y : Sym, Atom.delta x y ∈ m1 →
          deltaKeep (simplify_sums (simplify_deltas res z)).sums res x y := by
        intro x y hxy
        have hxmem : x ∈ monoSyms m1 :=
          mem_monoSyms_of_mem_atom hxy (by simp [atomSyms])
        have hymem : y ∈ monoSyms m1 :=
          mem_monoSyms_of_mem_atom hxy (by simp [atomSyms])
        have hkept : ∀ w : Sym, w ∈ monoSyms m1 →
            ((simplify_deltas res z).sums.filter
              (fun b => !danglingQ (simplify_deltas res z).amp
                (simplify_deltas res z).vecs b)).lookup w
              = (simplify_deltas res z).sums.lookup w := by
          intro w hw
          refine lookup_filter _ _ w (fun v hv => ?_)
          have hdq : danglingQ (simplify_deltas res z).amp
              (simplify_deltas res z).vecs (w, v) = false :=
            danglingQ_false_of_mem (Or.inl (hmono_in_amp w hw))
          rw [hdq]
          rfl
        show deltaKeep ((simplify_deltas res z).sums.filter
          (fun b => !danglingQ (simplify_deltas res z).amp
            (simplify_deltas res z).vecs b)) res x y
        exact deltaKeep_map (hkept x hxmem) (hkept y hymem)
          (hdk1 x y hxy) (fun _ => rfl) (fun _ => rfl)
      refine ⟨(simplify_sums (simplify_deltas res z)).sums, c2, m1,
        (simplify_sums (simplify_deltas res z)).vecs, σ, γ,
        ht2e ▸ ht2inv, hc20, hσp, hγm, hdk2, ?_, ?_, ?_, ?_, ?_, ?_⟩
      · intro b hb
        have := simplify_sums_nodangling (simplify_deltas res z) b hb
        rw [ht2amp] at this
        exact this
      · rw [hveq]
      · rw [hveq]
      · rw [hq2]
      · rw [hq2]
      · intro σ1 γ1 hp1 hm1
        have humem : candTerm pool [(c2, m1)]
            (simplify_sums (simplify_deltas res z)).vecs σ1 γ1
            ∈ candsOf pool symms (simplify_sums (simplify_deltas res z)) := by
          refine mem_candsOf.mpr ⟨σ1, hp1, γ1, ?_, ?_⟩
          · rw [ht2amp]
            exact hm1
          · rw [ht2amp]
        have hle := canon_le humem
        have hvz : (⟨(canon pool symms
              (simplify_sums (simplify_deltas res z))).sums, [q],
            (canon pool symms
              (simplify_sums (simplify_deltas res z))).vecs⟩ : Term)
            = canon pool symms (simplify_sums (simplify_deltas res z)) := by
          rw [hveq, hq2]
        rw [hvz]
        exact hle
  · left
    rw [ht1z]
    rw [simplify_sums_zero]
    have hz0 : canon pool symms (⟨[], [], []⟩ : Term) = ⟨[], [], []⟩ := rfl
    rw [hz0]

theorem mem_of_contains {s : Sym} {l : List Sym} (h : l.contains s = true) :
    s ∈ l := by
  simpa [List.contains, List.elem_iff] using h

theorem danglingQ_false_cases {A : Amp} {V : List VecF} {b : Sym × Range}
    (h : danglingQ A V b = false) :
    (rangeSize b.2).isSome = false ∨ b.1 ∈ ampSyms A ∨ b.1 ∈ vecsSyms V := by
  unfold danglingQ at h
  rcases h1 : (rangeSize b.2).isSome with _ | _
  · exact Or.inl rfl
  · rw [h1] at h
    rcases h2 : (ampSyms A).contains b.1 with _ | _
    · rcases h3 : (vecsSyms V).contains b.1 with _ | _
      · rw [h2, h3] at h
        simp at h
      · exact Or.inr (Or.inr (mem_of_contains h3))
    · exact Or.inr (Or.inl (mem_of_contains h2))

theorem not_mem_keys_of_lookup_none {α β : Type} [BEq α] [LawfulBEq α]
    {l : List (α × β)} {k : α} (h : l.lookup k = none) :
    k ∉ l.map Prod.fst := by
  intro hk
  obtain ⟨v, hv⟩ := lookup_some_of_mem_keys hk
  rw [hv] at h
  cases h

/-- A merged amplitude entry whose contributors all carry the contributor
package is itself fixed by every simplification stage. -/
theorem merged_entry_fix (res : Sym → Option Range)
    (pool : Range → Nat → Sym) (symms : List (Nat × List SymOp))
    (arity : Nat → Nat) (U : List Sym) (RS : List Range)
    (hpinj : PoolInjOn pool RS) (hfresh : FreshOn pool RS U)
    (hsg : SymmsGood arity symms)
    (SW : List (Sym × Range)) (VW : List VecF) (c : Int) (m : Mono)
    (hc : c ≠ 0) (G : Amp) (hGc : coeffOf G m = c)
    (hGcontrib : ∀ d : Int, (d, m) ∈ G →
        Contrib res pool symms arity U RS SW VW (d, m)) :
    simplify_deltas res ⟨SW, [(c, m)], VW⟩ = ⟨SW, [(c, m)], VW⟩
    ∧ simplify_sums ⟨SW, [(c, m)], VW⟩ = ⟨SW, [(c, m)], VW⟩
    ∧ canon pool symms ⟨SW, [(c, m)], VW⟩ = ⟨SW, [(c, m)], VW⟩ := by
  have hcoef : coeffOf G m ≠ 0 := by
    rw [hGc]
    exact hc
  obtain ⟨d0, hd0G⟩ := coeffOf_ne_zero_ex hcoef
  obtain ⟨S2, c2, m1, V2, σ, γ, hinv2, hc2, hσp, hγm, hdk, hdang, hSWeq,
    hVWeq, hmeqq, hd0eqq, hmin0⟩ := hGcontrib d0 hd0G
  have hmeq : m = normMono ((monoMap (candAssign pool σ) m1).map
      (atomChoice γ)) := hmeqq
  obtain ⟨hnd2, hk2U, ha2U, hv2U, hr2R, har2⟩ := hinv2
  have harm1 : MonoArity arity symms m1 := har2 (c2, m1) (by simp)
  have hm1U : ∀ s ∈ monoSyms m1, s ∈ U := by
    intro s hs
    refine ha2U s ?_
    rw [ampSyms_singleton]
    simpa using hs
  have hv2U' : ∀ s ∈ vecsSyms V2, s ∈ U := hv2U
  have hndσ : (σ.map Prod.fst).Nodup := ((hσp.map Prod.fst).nodup_iff).mpr hnd2
  have hranσ : ∀ r ∈ σ.map Prod.snd, r ∈ RS :=
    fun r hr => hr2R r ((hσp.map Prod.snd).mem_iff.mp hr)
  have hrRσ : ∀ r1 ∈ σ.map Prod.snd, ∀ r2 ∈ σ.map Prod.snd, ∀ i j : Nat,
      pool r1 i = pool r2 j → r1 = r2 ∧ i = j :=
    fun r1 h1 r2 h2 i j he => hpinj r1 (hranσ r1 h1) r2 (hranσ r2 h2) i j he
  have hbregm1 : ∀ b ∈ symBases symms [(c2, m1)],
      (symms.lookup b).isSome = true :=
    fun b hb => (mem_symBases.mp hb).2
  have hval := choice_atom_valid hsg hγm hbregm1 harm1 (candAssign pool σ)
  -- forward occurrence map into the canonical monomial
  have hfwd : ∀ s ∈ monoSyms m1, candAssign pool σ s ∈ monoSyms m := by
    intro s hs
    obtain ⟨a, ha, hsa⟩ := (mem_catMap atomSyms).mp hs
    have hsa2 : candAssign pool σ s ∈ atomSyms (atomMap (candAssign pool σ) a) := by
      rw [atomSyms_atomMap]
      exact List.mem_map.mpr ⟨s, hsa, rfl⟩
    have hamem : atomMap (candAssign pool σ) a ∈ monoMap (candAssign pool σ) m1 :=
      List.mem_map.mpr ⟨a, ha, rfl⟩
    have hsa3 : candAssign pool σ s
        ∈ atomSyms (atomChoice γ (atomMap (candAssign pool σ) a)) :=
      mem_atomSyms_atomChoice hsa2 (fun b g hab hlk => hval _ hamem b g hab hlk)
    have hsa4 : candAssign pool σ s
        ∈ atomSyms (normAtom (atomChoice γ (atomMap (candAssign pool σ) a))) :=
      mem_atomSyms_normAtom hsa3
    rw [hmeq]
    refine mem_monoSyms_of_mem_atom ?_ hsa4
    exact mem_normMono_of_mem
      (List.mem_map.mpr ⟨atomMap (candAssign pool σ) a, hamem, rfl⟩)
  -- backward occurrence: every symbol of m is the image of one of m1 or V2
  have hback : ∀ s ∈ monoSyms m, ∃ x ∈ monoSyms m1, s = candAssign pool σ x := by
    intro s hs
    rw [hmeq] at hs
    obtain ⟨a, ha, hsa⟩ := (mem_catMap atomSyms).mp hs
    obtain ⟨a1, ha1, rfl⟩ := mem_of_mem_normMono ha
    obtain ⟨a2, ha2, rfl⟩ := List.mem_map.mp ha1
    have hs1 : s ∈ atomSyms (atomChoice γ a2) := mem_atomSyms_of_normAtom hsa
    have hs2 : s ∈ atomSyms a2 :=
      mem_atomSyms_of_atomChoice
        (fun b g hab hlk => (hval a2 ha2 b g hab hlk).2.2) hs1
    obtain ⟨a0, ha0, rfl⟩ := List.mem_map.mp ha2
    rw [atomSyms_atomMap] at hs2
    obtain ⟨x, hx, rfl⟩ := List.mem_map.mp hs2
    exact ⟨x, (mem_catMap atomSyms).mpr ⟨a0, ha0, hx⟩, rfl⟩
  -- identity of the canonical assignment on the piece symbols
  have hfixkey : ∀ d ∈ SW.map Prod.fst, candAssign pool SW d = d := by
    intro d hd
    rw [hSWeq] at hd
    rw [List.map_map] at hd
    obtain ⟨b, hb, hval2⟩ := List.mem_map.mp hd
    have hb1 : b.1 ∈ σ.map Prod.fst := List.mem_map.mpr ⟨b, hb, rfl⟩
    have := candAssign_canonical_id pool σ hndσ hrRσ b.1 hb1
    rw [← hSWeq] at this
    rw [← hval2]
    exact this
  have hfixpt : ∀ x, (x ∈ monoSyms m1 ∨ x ∈ vecsSyms V2) →
      candAssign pool SW (candAssign pool σ x) = candAssign pool σ x := by
    intro x hx
    by_cases hxk : x ∈ σ.map Prod.fst
    · have := candAssign_canonical_id pool σ hndσ hrRσ x hxk
      rw [← hSWeq] at this
      exact this
    · have hxU : x ∈ U := by
        rcases hx with hx | hx
        · exact hm1U x hx
        · exact hv2U' x hx
      rw [candAssign_free pool σ hxk]
      rw [hSWeq]
      exact candAssign_free_of_fresh hfresh hranσ hxU
  have hfixm : ∀ s ∈ monoSyms m, candAssign pool SW s = s := by
    intro s hs
    obtain ⟨x, hx, rfl⟩ := hback s hs
    exact hfixpt x (Or.inl hx)
  have hfixv : ∀ s ∈ vecsSyms VW, candAssign pool SW s = s := by
    intro s hs
    rw [hVWeq] at hs
    obtain ⟨x, hx, rfl⟩ := mem_vecsSyms_of_vecsMap hs
    exact hfixpt x (Or.inr hx)
  -- Part 1: delta stage fixity
  have hpart1 : simplify_deltas res ⟨SW, [(c, m)], VW⟩ = ⟨SW, [(c, m)], VW⟩ := by
    refine simplify_deltas_fix ?_
    rw [deltaStep_singleton_none]
    rw [findDelta_none_iff]
    intro x' y' hxy'
    rw [hmeq] at hxy'
    obtain ⟨x, y, hxym, hor⟩ := delta_mem_candMono hxy'
    have hxm : x ∈ monoSyms m1 :=
      mem_monoSyms_of_mem_atom hxym (by simp [atomSyms])
    have hym : y ∈ monoSyms m1 :=
      mem_monoSyms_of_mem_atom hxym (by simp [atomSyms])
    have hlx : SW.lookup (candAssign pool σ x) = S2.lookup x := by
      rw [hSWeq]
      exact lookup_canon_eq pool hσp hnd2 hpinj hfresh hr2R (hm1U x hxm)
    have hly : SW.lookup (candAssign pool σ y) = S2.lookup y := by
      rw [hSWeq]
      exact lookup_canon_eq pool hσp hnd2 hpinj hfresh hr2R (hm1U y hym)
    have hresx : S2.lookup x = none → res (candAssign pool σ x) = res x := by
      intro hl
      have hxk : x ∉ S2.map Prod.fst := not_mem_keys_of_lookup_none hl
      rw [candAssign_free pool σ (fun hm2 => hxk ((hσp.map Prod.fst).mem_iff.mp hm2))]
    have hresy : S2.lookup y = none → res (candAssign pool σ y) = res y := by
      intro hl
      have hyk : y ∉ S2.map Prod.fst := not_mem_keys_of_lookup_none hl
      rw [candAssign_free pool σ (fun hm2 => hyk ((hσp.map Prod.fst).mem_iff.mp hm2))]
    rcases hor with ⟨rfl, rfl⟩ | ⟨rfl, rfl⟩
    · exact deltaKeep_map hlx hly (hdk x y hxym) hresx hresy
    · exact deltaKeep_map hly hlx (deltaKeep_swap (hdk x y hxym)) hresy hresx
  -- Part 2: summation stage fixity
  have hpart2 : simplify_sums ⟨SW, [(c, m)], VW⟩ = ⟨SW, [(c, m)], VW⟩ := by
    refine simplify_sums_fix ?_
    intro b hb
    show danglingQ [(c, m)] VW b = false
    rw [hSWeq] at hb
    obtain ⟨b0, hb0, rfl⟩ := List.mem_map.mp hb
    have hb0S2 : b0 ∈ S2 := hσp.mem_iff.mp hb0
    have := hdang b0 hb0S2
    rcases danglingQ_false_cases this with h1 | h2 | h3
    · unfold danglingQ
      rw [show ((candAssign pool σ b0.1, b0.2) : Sym × Range).2 = b0.2 from rfl,
        h1]
      rfl
    · refine danglingQ_false_of_mem (Or.inl ?_)
      rw [ampSyms_singleton] at h2 ⊢
      rw [List.append_nil] at h2 ⊢
      exact hfwd b0.1 h2
    · refine danglingQ_false_of_mem (Or.inr ?_)
      rw [hVWeq]
      exact mem_vecsSyms_vecsMap h3
  -- Part 3: canon fixity
  have hmnorm : normMono m = m := by
    rw [hmeq]
    exact normMono_idem _
  have harmid : ∀ a ∈ m, ∀ b, atomBase a = some b →
      b ∈ symBases symms [(c, m)] → (atomIx a).length = arity b := by
    intro a ha b hab hbb
    have hreg := (mem_symBases.mp hbb).2
    rw [hmeq] at ha
    obtain ⟨a1, ha1, rfl⟩ := mem_of_mem_normMono ha
    obtain ⟨a2, ha2, rfl⟩ := List.mem_map.mp ha1
    rw [atomIx_length_normAtom]
    rw [atomIx_length_atomChoice γ a2
      (fun b2 g hab2 hlk => (hval a2 ha2 b2 g hab2 hlk).2.1)]
    rw [atomBase_normAtom, atomBase_atomChoice] at hab
    obtain ⟨a0, ha0, rfl⟩ := List.mem_map.mp ha2
    rw [atomIx_length_atomMap]
    rw [atomBase_atomMap] at hab
    cases a0 with
    | var s cj => cases hab
    | delta x y => cases hab
    | idx b0 cj ix0 =>
      have hb0 : b0 = b := by injection hab
      subst hb0
      exact harm1 b0 cj ix0 ha0 hreg
  have hidfix := cand_id_fix pool symms arity SW c m VW hc hmnorm hfixkey
    hfixm hfixv harmid
  have hidZ : (⟨SW, [(c, m)], VW⟩ : Term)
      ∈ candsOf pool symms ⟨SW, [(c, m)], VW⟩ := by
    refine mem_candsOf.mpr ⟨SW, List.Perm.refl _,
      idChoice arity (symBases symms [(c, m)]), ?_, hidfix.symm⟩
    refine idChoice_mem symms arity _ (fun b hb => ?_)
    exact symms_id_mem hsg (mem_symBases.mp hb).2
  have hpart3 : canon pool symms ⟨SW, [(c, m)], VW⟩ = ⟨SW, [(c, m)], VW⟩ := by
    refine canon_eq_of_min hidZ ?_
    intro u hu
    obtain ⟨σ', hσ'P, γ', hγ'm, rfl⟩ := mem_candsOf.mp hu
    have hσ'P2 : σ'.Perm SW := hσ'P
    have hγ'm2 : γ' ∈ choicesFor symms (symBases symms [(c, m)]) := hγ'm
    have hcle : ∀ d : Int, (d, m) ∈ G →
        oseq (kcmp (strK SW m VW)
            (strK (σ'.map (fun b => (candAssign pool σ' b.1, b.2)))
              (normMono ((monoMap (candAssign pool σ') m).map (atomChoice γ')))
              (vecsMap (candAssign pool σ') VW)))
          (icmp d (d * monoChoiceSign γ' (monoMap (candAssign pool σ') m)))
          ≠ .gt := by
      intro d hdG
      obtain ⟨S2d, c2d, m1d, V2d, σd, γd, hinvd, hc2d, hσpd, hγmd, hdkd,
        hdangd, hSWeqd, hVWeqd, hmeqd, hdeqd, hmind⟩ := hGcontrib d hdG
      obtain ⟨hndd, hkdU, hadU, hvdU, hrdR, hard⟩ := hinvd
      have harmd : MonoArity arity symms m1d := hard (c2d, m1d) (by simp)
      have hmdU : ∀ s ∈ monoSyms m1d, s ∈ U := by
        intro s hs
        refine hadU s ?_
        rw [ampSyms_singleton]
        simpa using hs
      have hmeqd2 : m = normMono ((monoMap (candAssign pool σd) m1d).map
          (atomChoice γd)) := hmeqd
      have hdeq2 : d = c2d * monoChoiceSign γd
          (monoMap (candAssign pool σd) m1d) := hdeqd
      have hγ'md : γ' ∈ choicesFor symms (symBases symms
          [(c, normMono ((monoMap (candAssign pool σd) m1d).map
            (atomChoice γd)))]) := by
        rw [← hmeqd2]
        exact hγ'm2
      have hσ'Pd : σ'.Perm (σd.map (fun b => (candAssign pool σd b.1, b.2))) := by
        rw [← hSWeqd]
        exact hσ'P2
      obtain ⟨σ1, hσ1P, γ1, hγ1m, heq⟩ := cand_transport pool symms arity U RS
        S2d c2d c m1d V2d σd σ' γd γ' hpinj hfresh hsg hndd hmdU hvdU hrdR
        harmd hc2d hσpd hγmd hσ'Pd hγ'md
      have happ := hmind σ1 γ1 hσ1P hγ1m
      rw [heq] at happ
      rw [← hdeq2, ← hmeqd2, ← hVWeqd] at happ
      have hd0' : d ≠ 0 := by
        rw [hdeq2]
        exact mul_ne_zero hc2d (monoChoiceSign_ne_zero _ _)
      rw [candTerm_singleton pool d m VW σ' γ' hd0'] at happ
      rw [kcmp_termK_singleton] at happ
      exact happ
    rw [candTerm_singleton pool c m VW σ' γ' hc, kcmp_termK_singleton]
    cases hκ : kcmp (strK SW m VW)
        (strK (σ'.map (fun b => (candAssign pool σ' b.1, b.2)))
          (normMono ((monoMap (candAssign pool σ') m).map (atomChoice γ')))
          (vecsMap (candAssign pool σ') VW)) with
    | lt => simp [oseq]
    | eq =>
      rw [oseq_eq]
      rcases monoChoiceSign_pm γ' (monoMap (candAssign pool σ') m) with h1 | h1
      · rw [h1, mul_one, icmp_self]
        simp
      · have hdle : ∀ d : Int, (d, m) ∈ G → d ≤ 0 := by
          intro d hdG
          have h2 := hcle d hdG
          rw [hκ, oseq_eq, h1, mul_neg_one] at h2
          by_contra hpos
          refine h2 (icmp_gt_iff.mpr ?_)
          omega
        have hcle0 : c ≤ 0 := by
          rw [← hGc]
          exact coeffOf_nonpos hdle
        rw [h1, mul_neg_one]
        intro hgt
        have := icmp_gt_iff.mp hgt
        omega
    | gt =>
      have h2 := hcle d0 hd0G
      rw [hκ, oseq_gt] at h2
      exact (h2 rfl).elim
  exact ⟨hpart1, hpart2, hpart3⟩

/-- A tensor in canonical presentation: sorted by the fixed key order,
pairwise distinct skeletons, normal-form nonzero amplitudes, and every
monomial piece a fixpoint of each simplification stage. -/
def CanonicalT (res : Sym → Option Range) (pool : Range → Nat → Sym)
    (symms : List (Nat × List SymOp)) (Y : Tensor) : Prop :=
  List.Chain' (KLe termK) Y
    ∧ List.Pairwise (fun u v => skelEq v u = false) Y
    ∧ ∀ u ∈ Y, AmpNF u.amp ∧ u.amp ≠ []
      ∧ ∀ p ∈ u.amp,
          simplify_deltas res ⟨u.sums, [p], u.vecs⟩ = ⟨u.sums, [p], u.vecs⟩
          ∧ simplify_sums ⟨u.sums, [p], u.vecs⟩ = ⟨u.sums, [p], u.vecs⟩
          ∧ canon pool symms ⟨u.sums, [p], u.vecs⟩ = ⟨u.sums, [p], u.vecs⟩

/-- The simplify pipeline always lands in canonical presentation, given an
injective fresh dummy pool and a well-formed symmetry registry respected by
the tensor. -/
theorem simplify_canonical (res : Sym → Option Range)
    (pool : Range → Nat → Sym) (symms : List (Nat × List SymOp))
    (arity : Nat → Nat) (U : List Sym) (RS : List Range) (X : Tensor)
    (hpinj : PoolInjOn pool RS) (hfresh : FreshOn pool RS U)
    (hsg : SymmsGood arity symms)
    (hX : ∀ t ∈ X, PieceInv U RS arity symms t) :
    CanonicalT res pool symms (simplify res pool symms X) := by
  have hL3 : ∀ v ∈ (((expand X).map (simplify_deltas res)).map
        simplify_sums).map (canon pool symms),
      ∃ z, PieceInv U RS arity symms z
        ∧ ((∃ c0 m0, z.amp = [(c0, m0)]) ∨ z = ⟨[], [], []⟩)
        ∧ v = canon pool symms (simplify_sums (simplify_deltas res z)) := by
    intro v hv
    obtain ⟨v2, hv2, rfl⟩ := List.mem_map.mp hv
    obtain ⟨v1, hv1, rfl⟩ := List.mem_map.mp hv2
    obtain ⟨z, hz, rfl⟩ := List.mem_map.mp hv1
    obtain ⟨t, ht, hzp⟩ := (mem_catMap expandT).mp hz
    obtain ⟨p, hp, rfl⟩ := List.mem_map.mp hzp
    refine ⟨⟨t.sums, [p], t.vecs⟩, ?_, Or.inl ⟨p.1, p.2, by simp⟩, rfl⟩
    obtain ⟨h1, h2, h3, h4, h5, h6⟩ := hX t ht
    refine ⟨h1, h2, ?_, h4, h5, ?_⟩
    · intro s hs
      refine h3 s ?_
      obtain ⟨q, hq, hsq⟩ :=
        (mem_catMap (fun p : Int × Mono => monoSyms p.2)).mp hs
      have hq2 : q = p := by simpa using hq
      exact (mem_catMap (fun p : Int × Mono => monoSyms p.2)).mpr
        ⟨p, hp, hq2 ▸ hsq⟩
    · intro q hq
      have hq2 : q = p := by simpa using hq
      rw [hq2]
      exact h6 p hp
  refine ⟨chain'_sortK termK _, ?_, ?_⟩
  · have hpw := mergeAux_pairwise
      ((((expand X).map (simplify_deltas res)).map simplify_sums).map
        (canon pool symms)).length
      ((((expand X).map (simplify_deltas res)).map simplify_sums).map
        (canon pool symms)) le_rfl
    have hperm := sortK_perm_self termK
      (mergeAux ((((expand X).map (simplify_deltas res)).map
          simplify_sums).map (canon pool symms)).length
        ((((expand X).map (simplify_deltas res)).map simplify_sums).map
          (canon pool symms)))
    refine (List.Perm.pairwise_iff ?_ hperm).mpr hpw
    intro x y h
    rw [skelEq_symm]
    exact h
  · intro u hu
    have hu2 := (mem_sortK termK).mp hu
    obtain ⟨w, hwL3, hueq, hne⟩ := mergeAux_spec _ _ le_rfl u hu2
    rw [hueq]
    refine ⟨normalize_NF _, hne, ?_⟩
    intro p hp
    obtain ⟨c, m⟩ := p
    have hc : c ≠ 0 := normalize_nonzero hp
    have hGprov : ∀ q : Int × Mono,
        q ∈ catMap Term.amp
          (((((expand X).map (simplify_deltas res)).map simplify_sums).map
            (canon pool symms)).filter (fun z => skelEq z w)) →
        ∃ v, v ∈ (((expand X).map (simplify_deltas res)).map
            simplify_sums).map (canon pool symms)
          ∧ skelEq v w = true ∧ q ∈ v.amp := by
      intro q hq
      obtain ⟨v, hvf, hqv⟩ := (mem_catMap Term.amp).mp hq
      exact ⟨v, List.mem_of_mem_filter hvf, (List.mem_filter.mp hvf).2, hqv⟩
    have hGfix : ∀ q : Int × Mono,
        q ∈ catMap Term.amp
          (((((expand X).map (simplify_deltas res)).map simplify_sums).map
            (canon pool symms)).filter (fun z => skelEq z w)) →
        normMono q.2 = q.2 := by
      intro q hq
      obtain ⟨v, hvL3, hskel, hqv⟩ := hGprov q hq
      obtain ⟨z, hzinv, hzshape, hveq⟩ := hL3 v hvL3
      rcases contributor_cases res pool symms arity U RS hsg z hzinv hzshape
        with hnil | hcon
      · exfalso
        rw [hveq] at hqv
        rw [hnil] at hqv
        cases hqv
      · obtain ⟨S2, c2, m1, V2, σ, γ, -, -, -, -, -, -, -, -, hmeqq, -, -⟩ :=
          hcon q (hveq ▸ hqv)
        rw [hmeqq]
        exact normMono_idem _
    have hGc : coeffOf (catMap Term.amp
        (((((expand X).map (simplify_deltas res)).map simplify_sums).map
          (canon pool symms)).filter (fun z => skelEq z w))) m = c := by
      calc coeffOf _ m = coeffSrc _ m := (coeffSrc_eq_coeffOf hGfix m).symm
        _ = coeffOf (normalize _) m := (coeffOf_normalize _ m).symm
        _ = c := coeffOf_of_NF (normalize_NF _) hp
    have hGcontrib : ∀ d : Int, (d, m) ∈ catMap Term.amp
        (((((expand X).map (simplify_deltas res)).map simplify_sums).map
          (canon pool symms)).filter (fun z => skelEq z w)) →
        Contrib res pool symms arity U RS w.sums w.vecs (d, m) := by
      intro d hd
      obtain ⟨v, hvL3, hskel, hdv⟩ := hGprov (d, m) hd
      obtain ⟨z, hzinv, hzshape, hveq⟩ := hL3 v hvL3
      rcases contributor_cases res pool symms arity U RS hsg z hzinv hzshape
        with hnil | hcon
      · exfalso
        rw [hveq] at hdv
        rw [hnil] at hdv
        cases hdv
      · have hC := hcon (d, m) (hveq ▸ hdv)
        have hsums : v.sums = w.sums := (skelEq_iff.mp hskel).1
        have hvecs : v.vecs = w.vecs := (skelEq_iff.mp hskel).2
        rw [hveq] at hsums hvecs
        rw [hsums, hvecs] at hC
        exact hC
    exact merged_entry_fix res pool symms arity U RS hpinj hfresh hsg
      w.sums w.vecs c m hc _ hGc hGcontrib

theorem mergeAux_cons (fuel : Nat) (t : Term) (L : Tensor) :
    mergeAux (fuel + 1) (t :: L) =
      if normalize (t.amp ++ catMap Term.amp
          (L.filter (fun z => skelEq z t))) = []
      then mergeAux fuel (L.filter (fun z => !skelEq z t))
      else (⟨t.sums, normalize (t.amp ++ catMap Term.amp
            (L.filter (fun z => skelEq z t))), t.vecs⟩ : Term)
        :: mergeAux fuel (L.filter (fun z => !skelEq z t)) := rfl

/-- Merging the expanded pieces of a canonical tensor reassembles it. -/
theorem mergeAux_rebuild :
    ∀ Y : Tensor, List.Pairwise (fun u v => skelEq v u = false) Y →
      (∀ u ∈ Y, AmpNF u.amp ∧ u.amp ≠ []) →
      ∀ fuel : Nat, (expand Y).length ≤ fuel →
        mergeAux fuel (expand Y) = Y := by
  intro Y
  induction Y with
  | nil =>
    intro _ _ fuel _
    show mergeAux fuel [] = []
    cases fuel <;> rfl
  | cons u rest ih =>
    intro hpw hamp fuel hlen
    obtain ⟨hu, hrest⟩ := List.pairwise_cons.mp hpw
    obtain ⟨hNF, hne⟩ := hamp u (by simp)
    rcases hA : u.amp with _ | ⟨p0, A2⟩
    · exact absurd hA hne
    · have hexp : expand (u :: rest)
          = (⟨u.sums, [p0], u.vecs⟩ : Term)
            :: (A2.map (fun p => (⟨u.sums, [p], u.vecs⟩ : Term))
              ++ expand rest) := by
        show expandT u ++ expand rest = _
        unfold expandT
        rw [hA]
        rfl
      cases fuel with
      | zero =>
        exfalso
        rw [hexp] at hlen
        simp at hlen
      | succ fuel =>
        rw [hexp] at hlen ⊢
        have hskelpiece : ∀ p : Int × Mono,
            skelEq (⟨u.sums, [p], u.vecs⟩ : Term)
              ⟨u.sums, [p0], u.vecs⟩ = true :=
          fun p => skelEq_iff.mpr ⟨rfl, rfl⟩
        have hskelrest : ∀ v ∈ expand rest,
            skelEq v (⟨u.sums, [p0], u.vecs⟩ : Term) = false := by
          intro v hv
          obtain ⟨t, ht, hvp⟩ := (mem_catMap expandT).mp hv
          obtain ⟨q, hq, rfl⟩ := List.mem_map.mp hvp
          have htw : skelEq t u = false := hu t ht
          have hred : skelEq (⟨t.sums, [q], t.vecs⟩ : Term)
              (⟨u.sums, [p0], u.vecs⟩ : Term) = skelEq t u := rfl
          rw [hred, htw]
        have hfil1 : (A2.map (fun p => (⟨u.sums, [p], u.vecs⟩ : Term))
              ++ expand rest).filter
              (fun z => skelEq z ⟨u.sums, [p0], u.vecs⟩)
            = A2.map (fun p => (⟨u.sums, [p], u.vecs⟩ : Term)) := by
          rw [List.filter_append]
          rw [List.filter_eq_self.mpr ?_, List.filter_eq_nil_iff.mpr ?_,
            List.append_nil]
          · intro v hv
            rw [hskelrest v hv]
            simp
          · intro a ha
            obtain ⟨q, hq, rfl⟩ := List.mem_map.mp ha
            exact hskelpiece q
        have hfil2 : (A2.map (fun p => (⟨u.sums, [p], u.vecs⟩ : Term))
              ++ expand rest).filter
              (fun z => !skelEq z ⟨u.sums, [p0], u.vecs⟩)
            = expand rest := by
          rw [List.filter_append]
          rw [List.filter_eq_nil_iff.mpr ?_, List.filter_eq_self.mpr ?_,
            List.nil_append]
          · intro v hv
            rw [hskelrest v hv]
            rfl
          · intro a ha
            obtain ⟨q, hq, rfl⟩ := List.mem_map.mp ha
            rw [hskelpiece q]
            simp
        have hampG : (⟨u.sums, [p0], u.vecs⟩ : Term).amp
              ++ catMap Term.amp
                (A2.map (fun p => (⟨u.sums, [p], u.vecs⟩ : Term)))
            = u.amp := by
          rw [catMap_amp_pieces]
          rw [hA]
          rfl
        rw [mergeAux_cons, hfil1, hfil2, hampG, normalize_of_NF hNF,
          if_neg hne]
        have hlen2 : (expand rest).length ≤ fuel := by
          simp only [List.length_cons, List.length_append,
            List.length_map] at hlen
          omega
        rw [ih hrest (fun v hv => hamp v (by simp [hv])) fuel hlen2]

theorem expand_mem_piece {Y : Tensor} {z : Term} (hz : z ∈ expand Y) :
    ∃ u ∈ Y, ∃ p ∈ u.amp, z = ⟨u.sums, [p], u.vecs⟩ := by
  obtain ⟨u, hu, hzp⟩ := (mem_catMap expandT).mp hz
  obtain ⟨p, hp, rfl⟩ := List.mem_map.mp hzp
  exact ⟨u, hu, p, hp, rfl⟩

/-- A tensor in canonical presentation is a fixpoint of simplify. -/
theorem simplify_of_canonical (res : Sym → Option Range)
    (pool : Range → Nat → Sym) (symms : List (Nat × List SymOp)) {Y : Tensor}
    (h : CanonicalT res pool symms Y) : simplify res pool symms Y = Y := by
  obtain ⟨hch, hpw, hterm⟩ := h
  have h1 : (expand Y).map (simplify_deltas res) = expand Y := by
    have he : (expand Y).map (simplify_deltas res) = (expand Y).map id := by
      refine List.map_congr_left (fun z hz => ?_)
      obtain ⟨u, hu, p, hp, rfl⟩ := expand_mem_piece hz
      exact ((hterm u hu).2.2 p hp).1
    rw [he, List.map_id]
  have h2 : (expand Y).map simplify_sums = expand Y := by
    have he : (expand Y).map simplify_sums = (expand Y).map id := by
      refine List.map_congr_left (fun z hz => ?_)
      obtain ⟨u, hu, p, hp, rfl⟩ := expand_mem_piece hz
      exact ((hterm u hu).2.2 p hp).2.1
    rw [he, List.map_id]
  have h3 : (expand Y).map (canon pool symms) = expand Y := by
    have he : (expand Y).map (canon pool symms) = (expand Y).map id := by
      refine List.map_congr_left (fun z hz => ?_)
      obtain ⟨u, hu, p, hp, rfl⟩ := expand_mem_piece hz
      exact ((hterm u hu).2.2 p hp).2.2
    rw [he, List.map_id]
  show sortTensor (merge ((((expand Y).map (simplify_deltas res)).map
      simplify_sums).map (canon pool symms))) = Y
  rw [h1, h2, h3]
  show sortTensor (mergeAux (expand Y).length (expand Y)) = Y
  rw [mergeAux_rebuild Y hpw
    (fun u hu => ⟨(hterm u hu).1, (hterm u hu).2.1⟩) _ le_rfl]
  exact sortK_of_chain' termK hch

/-- C5: simplify is idempotent.  With a dummy pool that is injective and
fresh over the occurring ranges and symbols, duplicate-free summation
dummies, and a well-formed symmetry registry whose registered arities the
amplitudes respect, applying simplify twice yields exactly the once-applied
result. -/
theorem c5_simplify_idempotent (res : Sym → Option Range)
    (pool : Range → Nat → Sym) (symms : List (Nat × List SymOp))
    (arity : Nat → Nat) (X : Tensor)
    (hpinj : PoolInjOn pool (tensorRanges X))
    (hfresh : FreshOn pool (tensorRanges X) (tensorSyms X))
    (hsg : SymmsGood arity symms)
    (hnd : ∀ t ∈ X, (t.sums.map Prod.fst).Nodup)
    (har : ∀ t ∈ X, ∀ p ∈ t.amp, MonoArity arity symms p.2) :
    simplify res pool symms (simplify res pool symms X)
      = simplify res pool symms X := by
  have hX : ∀ t ∈ X, PieceInv (tensorSyms X) (tensorRanges X) arity symms t := by
    intro t ht
    refine ⟨hnd t ht, ?_, ?_, ?_, ?_, har t ht⟩
    · intro s hs
      refine (mem_catMap termSyms).mpr ⟨t, ht, ?_⟩
      unfold termSyms
      simp only [List.mem_append]
      exact Or.inl (Or.inl hs)
    · intro s hs
      refine (mem_catMap termSyms).mpr ⟨t, ht, ?_⟩
      unfold termSyms
      simp only [List.mem_append]
      exact Or.inl (Or.inr hs)
    · intro s hs
      refine (mem_catMap termSyms).mpr ⟨t, ht, ?_⟩
      unfold termSyms
      simp only [List.mem_append]
      exact Or.inr hs
    · intro r hr
      exact (mem_catMap (fun t => t.sums.map Prod.snd)).mpr ⟨t, ht, hr⟩
  exact simplify_of_canonical res pool symms
    (simplify_canonical res pool symms arity (tensorSyms X) (tensorRanges X)
      X hpinj hfresh hsg hX)

def c5pool : Range → Nat → Sym := fun _ n => 1000 + n

def fxC5 : Tensor :=
  [⟨[(0, rngR), (1, rngR)],
    [(2, [Atom.idx 100 false [0, 1]])],
    [⟨200, [0]⟩, ⟨200, [1]⟩]⟩]

def c5arity : Nat → Nat := fun _ => 2

instance (arity : Nat → Nat) (symms : List (Nat × List SymOp)) :
    Decidable (SymmsGood arity symms) :=
  decidable_of_iff (∀ e ∈ symms,
    (∀ g ∈ e.2, OpValid (arity e.1) g ∧ g.perm.Nodup)
      ∧ (∀ g1 ∈ e.2, ∀ g2 ∈ e.2, opComp g1 g2 ∈ e.2)
      ∧ idOp (arity e.1) ∈ e.2) Iff.rfl

theorem c5_simplify_idempotent_witness :
    PoolInjOn c5pool (tensorRanges fxC5)
    ∧ FreshOn c5pool (tensorRanges fxC5) (tensorSyms fxC5)
    ∧ SymmsGood c5arity fxSymms
    ∧ (∀ t ∈ fxC5, (t.sums.map Prod.fst).Nodup)
    ∧ (∀ t ∈ fxC5, ∀ p ∈ t.amp, MonoArity c5arity fxSymms p.2)
    ∧ simplify noRes c5pool fxSymms (simplify noRes c5pool fxSymms fxC5)
        = simplify noRes c5pool fxSymms fxC5 := by
  have hpinj : PoolInjOn c5pool (tensorRanges fxC5) := by
    intro r1 h1 r2 h2 i j he
    have e1 : r1 = rngR := by
      have hT : tensorRanges fxC5 = [rngR, rngR] := rfl
      rw [hT] at h1
      simp only [List.mem_cons, List.not_mem_nil, or_false] at h1
      rcases h1 with h1 | h1 <;> exact h1
    have e2 : r2 = rngR := by
      have hT : tensorRanges fxC5 = [rngR, rngR] := rfl
      rw [hT] at h2
      simp only [List.mem_cons, List.not_mem_nil, or_false] at h2
      rcases h2 with h2 | h2 <;> exact h2
    refine ⟨e1.trans e2.symm, ?_⟩
    have he2 : 1000 + i = 1000 + j := he
    omega
  have hfresh : FreshOn c5pool (tensorRanges fxC5) (tensorSyms fxC5) := by
    intro r _ k hmem
    have hT : tensorSyms fxC5 = [0, 1, 0, 1, 0, 1] := rfl
    rw [hT] at hmem
    have hk : c5pool r k = 1000 + k := rfl
    rw [hk] at hmem
    simp only [List.mem_cons, List.not_mem_nil, or_false] at hmem
    rcases hmem with h | h | h | h | h | h
    · exact absurd (show (1000 : Nat) + k = 0 from h) (by omega)
    · exact absurd (show (1000 : Nat) + k = 1 from h) (by omega)
    · exact absurd (show (1000 : Nat) + k = 0 from h) (by omega)
    · exact absurd (show (1000 : Nat) + k = 1 from h) (by omega)
    · exact absurd (show (1000 : Nat) + k = 0 from h) (by omega)
    · exact absurd (show (1000 : Nat) + k = 1 from h) (by omega)
  have har : ∀ t ∈ fxC5, ∀ p ∈ t.amp, MonoArity c5arity fxSymms p.2 := by
    intro t ht p hp B cj ix hmem hreg
    have ht2 : t = ⟨[(0, rngR), (1, rngR)],
        [(2, [Atom.idx 100 false [0, 1]])],
        [⟨200, [0]⟩, ⟨200, [1]⟩]⟩ := by
      simpa [fxC5] using ht
    rw [ht2] at hp
    have hp2 : p = (2, [Atom.idx 100 false [0, 1]]) := by simpa using hp
    rw [hp2] at hmem
    have hmem2 : Atom.idx B cj ix = Atom.idx 100 false [0, 1] := by
      simpa using hmem
    rw [Atom.idx.injEq] at hmem2
    rw [hmem2.2.2]
    rfl
  exact ⟨hpinj, hfresh, by decide, by decide, har,
    c5_simplify_idempotent noRes c5pool fxSymms c5arity fxC5 hpinj hfresh
      (by decide) (by decide) har⟩

/-- Concrete instantiation of the dangling-dummy factor: sum over one
dangling dummy of the bounded range D multiplies the amplitude by 2. -/
theorem c9_dangling_dummies_witness :
    simplify_sums ⟨[(7, rngD)], [(1, [])], []⟩
      = ⟨(simplify_sums ⟨[], [(1, [])], []⟩).sums,
          (simplify_sums ⟨[], [(1, [])], []⟩).amp.map
            (fun p => ((2 - 0) * p.1, p.2)),
          (simplify_sums ⟨[], [(1, [])], []⟩).vecs⟩ :=
  c9_dangling_dummies.2 7 rngD 0 2 [] [(1, [])] [] rfl rfl (by decide) (by decide)

end Drudge
